import Mathlib

/-!
# gitlab-user-audit: the traversal and member-normalisation engine

A shallow embedding of `cmd/audit.go`.

* The remote GitLab client (`git`) is a parameter: four paged list operations,
  each a function of the container id and the list options.
* Everything the program does to the outside is recorded in a `World`: the
  fetch calls it issued, the records it handed to `printMember`, the number of
  elements in the `sem` channel, the `wg` counter and the goroutines it started.
* Go's unbounded `for { ... }` loops carry a fuel argument; a call that runs out
  of fuel, panics or blocks for ever does not return (`Abort`).
* Pointers returned by the client are taken to be non-nil and are modelled by
  the values they point to; Go `int` values are only copied and compared, so
  they are integers.
* A closure refers to the variables it uses, not to copies, and a range clause
  declares its variable once for the whole loop (the language version of the
  module, from before Go 1.22).  This holds for the filter closures over
  `username` and for the goroutine closures over `g` alike.
* `processGroup` is first modelled as a sequential function that records the
  goroutines it starts; `runSpawned` then runs them one after the other, each
  reading `g` when it runs.  The section on goroutines gives an interleaving
  model with one step per statement on `sem` and `wg`.
-/

namespace GitlabUserAudit

/-! ## Data model -/

/-- The go-gitlab access level, a Go `int`. -/
abbrev AccessLevelValue := Int

/-- The constant `gitlab.OwnerPermission`. -/
def OwnerPermission : AccessLevelValue := 50

/-- The constant `gitlab.MaintainerPermission`. -/
def MaintainerPermission : AccessLevelValue := 40

/-- An expiry date (`gitlab.ISOTime`); the program only copies it. -/
structure ISOTime where
  year : Int
  month : Int
  day : Int
deriving DecidableEq, Repr

/-- The fields of `gitlab.Group` read by the program. -/
structure Group where
  ID : Int
  FullPath : String
  WebURL : String
deriving DecidableEq, Repr

/-- The fields of `gitlab.Project` read by the program. -/
structure Project where
  ID : Int
  PathWithNamespace : String
  WebURL : String
deriving DecidableEq, Repr

/-- The fields of `gitlab.GroupMember` read by the program. -/
structure GroupMember where
  ID : Int
  Username : String
  AccessLevel : AccessLevelValue
  ExpiresAt : Option ISOTime
deriving DecidableEq, Repr

/-- The fields of `gitlab.ProjectMember` read by the program. -/
structure ProjectMember where
  ID : Int
  Username : String
  AccessLevel : AccessLevelValue
  ExpiresAt : Option ISOTime
deriving DecidableEq, Repr

/-- The struct `genericMember`; the defaults are Go's zero values.  The field
`Type` is spelled `Type_` because `Type` is reserved in Lean. -/
structure genericMember where
  Type_ : String := ""
  ContainerID : Int := 0
  Path : String := ""
  Username : String := ""
  UserId : Int := 0
  AccessLevel : AccessLevelValue := 0
  ExpiresAt : Option ISOTime := none
  MembersSettingsURL : String := ""
deriving DecidableEq, Repr

/-- The type `memberFilter`: `func(m *genericMember) bool`. -/
abbrev memberFilter := genericMember → Bool

/-- The struct `gitlab.ListOptions`. -/
structure ListOptions where
  Page : Int
  PerPage : Int
deriving DecidableEq, Repr

/-- The variable `defaultListOptions`. -/
def defaultListOptions : ListOptions := { Page := 1, PerPage := 10 }

/-- The paging fields of `gitlab.Response` read by the program. -/
structure Response where
  CurrentPage : Int
  TotalPages : Int
  NextPage : Int
deriving DecidableEq, Repr

/-- A Go `error` value. -/
abbrev Error := String

/-- What a paged list operation hands back: `(items, response, nil)` or an error. -/
abbrev Fetched (α : Type) := Except Error (List α × Response)

/-- The four list operations of the client `git` used by the program. -/
structure Client where
  ListGroupProjects : Int → ListOptions → Fetched Project
  ListSubgroups : Int → ListOptions → Fetched Group
  ListProjectMembers : Int → ListOptions → Fetched ProjectMember
  ListGroupMembers : Int → ListOptions → Fetched GroupMember

/-- Which list operation a fetch call went to. -/
inductive Op where
  | ListGroupProjects
  | ListSubgroups
  | ListProjectMembers
  | ListGroupMembers
deriving DecidableEq, Repr

/-- One fetch call: the operation, the container id and the options sent. -/
structure Call where
  op : Op
  id : Int
  opts : ListOptions
deriving DecidableEq, Repr

/-- A goroutine started by the `go` statement of `processGroup`.  Its closure
refers to the range variable `g` of the loop over the slice `grpSubGroups`
itself, not to a copy: the range clause declares one variable for the whole
loop (the language version of the module; see `FilterClosure`), and the group
the goroutine traverses is the value `g` holds when the goroutine evaluates
the argument of `processGroup`. -/
structure Goroutine where
  /-- the value of `g` at the `go` statement -/
  started : Group
  /-- the elements the loop assigns to `g` after the `go` statement, in order -/
  later : List Group
deriving DecidableEq, Repr

/-- The value of `g` once the loop has run through its slice: the last
element.  This is what a goroutine reads that runs after the loop has ended. -/
def Goroutine.afterLoop (r : Goroutine) : Group :=
  r.later.getLast?.getD r.started

/-- The observable state of a run. -/
structure World where
  /-- the fetch calls issued so far, oldest first -/
  calls : List Call
  /-- the records handed to `printMember` so far, oldest first -/
  out : List genericMember
  /-- the number of elements in the buffered channel `sem` (capacity 5) -/
  sem : Nat
  /-- the counter of the wait group `wg` -/
  wg : Int
  /-- the goroutines started by `go` that have not run yet -/
  spawned : List Goroutine
deriving DecidableEq, Repr

/-- The state before anything has happened. -/
def World.start : World := { calls := [], out := [], sem := 0, wg := 0, spawned := [] }

/-- Why a call did not return to its caller. -/
inductive Abort where
  /-- the fuel given to a `for` loop ran out -/
  | outOfFuel
  /-- a type assertion failed -/
  | panic
  /-- a send on the full channel `sem` with no other goroutine to drain it -/
  | blocked
deriving DecidableEq, Repr

/-- A call either returns a value together with the new state, or does not return. -/
abbrev Run (α : Type) := Except Abort (α × World)

/-- The dynamic type of the `container` argument of `handleMember`. -/
inductive Container where
  | project (c : Project)
  | group (c : Group)
deriving DecidableEq, Repr

/-- The dynamic type of the `member` argument of `handleMember`. -/
inductive Member where
  | projectMember (m : ProjectMember)
  | groupMember (m : GroupMember)
deriving DecidableEq, Repr

/-! ## handleMember and printMember -/

/-- The first part of `handleMember` (the two type switches): the record built
from a container and a member, or `none` when a type assertion
`member.(*gitlab.ProjectMember)` / `member.(*gitlab.GroupMember)` fails. -/
def handleMemberNormalise (container : Container) (member : Member) : Option genericMember :=
  let mem : genericMember := {}
  let switched : Option genericMember :=
    match container with
    | .project c =>
      match member with
      | .projectMember pm =>
        some { mem with
          Type_ := "project"
          Path := c.PathWithNamespace
          MembersSettingsURL := c.WebURL ++ "/-/project_members?search=" ++ pm.Username
          ContainerID := c.ID }
      | .groupMember _ => none
    | .group c =>
      match member with
      | .groupMember gm =>
        some { mem with
          Type_ := "group"
          Path := c.FullPath
          MembersSettingsURL := c.WebURL ++ "/-/group_members?search=" ++ gm.Username
          ContainerID := c.ID }
      | .projectMember _ => none
  match switched with
  | none => none
  | some mem =>
    match member with
    | .projectMember m =>
      some { mem with
        Username := m.Username
        AccessLevel := m.AccessLevel
        UserId := m.ID
        ExpiresAt := m.ExpiresAt }
    | .groupMember m =>
      some { mem with
        Username := m.Username
        AccessLevel := m.AccessLevel
        UserId := m.ID
        ExpiresAt := m.ExpiresAt }

/-- The filter loop of `handleMember`: `required` starts true and the loop
breaks at the first filter that answers false. -/
def handleMemberRequired : List memberFilter → genericMember → Bool
  | [], _ => true
  | f :: fs, mem => if !(f mem) then false else handleMemberRequired fs mem

/-- The function `printMember`, as seen by the report sink: the record is
appended to the output. -/
def printMember (mem : genericMember) (w : World) : World :=
  { w with out := w.out ++ [mem] }

/-- The function `handleMember`. -/
def handleMember (memberFilters : List memberFilter) (container : Container) (member : Member)
    (w : World) : Except Abort World :=
  match handleMemberNormalise container member with
  | none => .error .panic
  | some mem =>
    if handleMemberRequired memberFilters mem then .ok (printMember mem w) else .ok w

/-! ## The startup loop of gitlabUserAudit -/

/-- A filter as stored in the slice `memberFilters`: a closure body, run
against the current value of the range variable `username` of the startup loop.
The module is written for a Go language version before 1.22 (it uses the
one-result `gitlab.NewClient(nil, token)`), where a `for ... := range` clause
declares its variable once for the whole loop and the closures created in the
body all refer to that one variable. -/
abbrev FilterClosure := String → memberFilter

/-- The initial value of the variable `memberFilters`. -/
def memberFilters : List FilterClosure := [fun _ _ => true]

/-- The loop `for _, username := range excludedUsers`: each iteration assigns
the next element to `username` and appends one closure. -/
def startupLoop : List String → String × List FilterClosure → String × List FilterClosure
  | [], s => s
  | u :: us, (_, fs) =>
    startupLoop us
      (u, fs ++ [fun username m => !(m.Username == username && m.AccessLevel == OwnerPermission)])

/-- The filters as `handleMember` calls them after the startup loop. -/
def filtersAfterStartup (excludedUsers : List String) : List memberFilter :=
  let s := startupLoop excludedUsers ("", memberFilters)
  s.2.map (fun f => f s.1)

/-- The filters the startup loop would leave behind if every iteration had a
variable `username` of its own (the meaning of the range clause from Go 1.22
on): the initial filter, then one exclusion filter per list element. -/
def filtersPerIteration (excludedUsers : List String) : List memberFilter :=
  (fun _ => true) ::
    excludedUsers.map fun u m => !(m.Username == u && m.AccessLevel == OwnerPermission)

/-! ## The paging loops -/

/-- Record a fetch call. -/
def World.logCall (w : World) (c : Call) : World :=
  { w with calls := w.calls ++ [c] }

/-- The loop `for _, m := range members { handleMember(p, m) }`. -/
def handleProjectMembers (memberFilters : List memberFilter) (p : Project) :
    List ProjectMember → World → Except Abort World
  | [], w => .ok w
  | m :: ms, w =>
    match handleMember memberFilters (.project p) (.projectMember m) w with
    | .error a => .error a
    | .ok w1 => handleProjectMembers memberFilters p ms w1

/-- The `for { ... }` loop of `processProjectMembersPermissions`, entered with
the current value of `listProjectMembersOptions`. -/
def processProjectMembersPermissionsLoop (git : Client) (memberFilters : List memberFilter)
    (p : Project) : Nat → ListOptions → World → Run (Option Error)
  | 0, _, _ => .error .outOfFuel
  | fuel + 1, listProjectMembersOptions, w =>
    let w0 := w.logCall ⟨.ListProjectMembers, p.ID, listProjectMembersOptions⟩
    match git.ListProjectMembers p.ID listProjectMembersOptions with
    | .error err => .ok (some err, w0)
    | .ok (members, resp) =>
      match handleProjectMembers memberFilters p members w0 with
      | .error a => .error a
      | .ok w1 =>
        if resp.CurrentPage ≥ resp.TotalPages then .ok (none, w1)
        else
          processProjectMembersPermissionsLoop git memberFilters p fuel
            { listProjectMembersOptions with Page := resp.NextPage } w1

/-- The function `processProjectMembersPermissions`; `none` is the `nil` error. -/
def processProjectMembersPermissions (git : Client) (memberFilters : List memberFilter)
    (fuel : Nat) (p : Project) (w : World) : Run (Option Error) :=
  processProjectMembersPermissionsLoop git memberFilters p fuel defaultListOptions w

/-- The loop `for _, m := range members { handleMember(g, m) }`. -/
def handleGroupMembers (memberFilters : List memberFilter) (g : Group) :
    List GroupMember → World → Except Abort World
  | [], w => .ok w
  | m :: ms, w =>
    match handleMember memberFilters (.group g) (.groupMember m) w with
    | .error a => .error a
    | .ok w1 => handleGroupMembers memberFilters g ms w1

/-- The `for { ... }` loop of `processGroupMembersPermissions`, entered with the
current value of `listGroupMembersOptions`. -/
def processGroupMembersPermissionsLoop (git : Client) (memberFilters : List memberFilter)
    (g : Group) : Nat → ListOptions → World → Run (Option Error)
  | 0, _, _ => .error .outOfFuel
  | fuel + 1, listGroupMembersOptions, w =>
    let w0 := w.logCall ⟨.ListGroupMembers, g.ID, listGroupMembersOptions⟩
    match git.ListGroupMembers g.ID listGroupMembersOptions with
    | .error err => .ok (some err, w0)
    | .ok (members, resp) =>
      match handleGroupMembers memberFilters g members w0 with
      | .error a => .error a
      | .ok w1 =>
        if resp.CurrentPage ≥ resp.TotalPages then .ok (none, w1)
        else
          processGroupMembersPermissionsLoop git memberFilters g fuel
            { listGroupMembersOptions with Page := resp.NextPage } w1

/-- The function `processGroupMembersPermissions`; `none` is the `nil` error. -/
def processGroupMembersPermissions (git : Client) (memberFilters : List memberFilter)
    (fuel : Nat) (g : Group) (w : World) : Run (Option Error) :=
  processGroupMembersPermissionsLoop git memberFilters g fuel defaultListOptions w

/-- The loop `for _, p := range grpProjects` of `processGroup`: the first
error of a member drain ends it. -/
def processGroupProjectsRange (git : Client) (memberFilters : List memberFilter) (fuel : Nat) :
    List Project → World → Run (Option Error)
  | [], w => .ok (none, w)
  | p :: ps, w =>
    match processProjectMembersPermissions git memberFilters fuel p w with
    | .error a => .error a
    | .ok (some err, w1) => .ok (some err, w1)
    | .ok (none, w1) => processGroupProjectsRange git memberFilters fuel ps w1

/-- The first `for { ... }` loop of `processGroup` (the projects of the group),
entered with the current value of `listGroupProjectsOpts`. -/
def processGroupProjectsLoop (git : Client) (memberFilters : List memberFilter) (inner : Nat)
    (grp : Group) : Nat → ListOptions → World → Run (Option Error)
  | 0, _, _ => .error .outOfFuel
  | fuel + 1, listGroupProjectsOpts, w =>
    let w0 := w.logCall ⟨.ListGroupProjects, grp.ID, listGroupProjectsOpts⟩
    match git.ListGroupProjects grp.ID listGroupProjectsOpts with
    | .error err => .ok (some err, w0)
    | .ok (grpProjects, res) =>
      match processGroupProjectsRange git memberFilters inner grpProjects w0 with
      | .error a => .error a
      | .ok (some err, w1) => .ok (some err, w1)
      | .ok (none, w1) =>
        if res.CurrentPage ≥ res.TotalPages then .ok (none, w1)
        else
          processGroupProjectsLoop git memberFilters inner grp fuel
            { listGroupProjectsOpts with Page := res.NextPage } w1

/-- The loop `for _, g := range grpSubGroups` of `processGroup`: the members of
the subgroup are drained, then the goroutine is started.  The goroutine is
recorded with the value of `g` at the `go` statement and the elements that the
loop still assigns to `g`, the variable its closure refers to. -/
def processGroupSubgroupsRange (git : Client) (memberFilters : List memberFilter) (fuel : Nat) :
    List Group → World → Run (Option Error)
  | [], w => .ok (none, w)
  | g :: gs, w =>
    match processGroupMembersPermissions git memberFilters fuel g w with
    | .error a => .error a
    | .ok (some err, w1) => .ok (some err, w1)
    | .ok (none, w1) =>
      processGroupSubgroupsRange git memberFilters fuel gs
        { w1 with spawned := w1.spawned ++ [{ started := g, later := gs }] }

/-- The second `for { ... }` loop of `processGroup` (the subgroups of the
group), entered with the current value of `listSubgroupsOptions`. -/
def processGroupSubgroupsLoop (git : Client) (memberFilters : List memberFilter) (inner : Nat)
    (grp : Group) : Nat → ListOptions → World → Run (Option Error)
  | 0, _, _ => .error .outOfFuel
  | fuel + 1, listSubgroupsOptions, w =>
    let w0 := w.logCall ⟨.ListSubgroups, grp.ID, listSubgroupsOptions⟩
    match git.ListSubgroups grp.ID listSubgroupsOptions with
    | .error err => .ok (some err, w0)
    | .ok (grpSubGroups, res) =>
      match processGroupSubgroupsRange git memberFilters inner grpSubGroups w0 with
      | .error a => .error a
      | .ok (some err, w1) => .ok (some err, w1)
      | .ok (none, w1) =>
        if res.CurrentPage ≥ res.TotalPages then .ok (none, w1)
        else
          processGroupSubgroupsLoop git memberFilters inner grp fuel
            { listSubgroupsOptions with Page := res.NextPage } w1

/-- The function `processGroup`, run by itself: the goroutines it starts are
recorded in `spawned` and not run.  Every `for { ... }` loop may make `fuel`
iterations.  With no other goroutine running, a send on a full `sem` never
completes. -/
def processGroup (git : Client) (memberFilters : List memberFilter) (fuel : Nat) (grp : Group)
    (w : World) : Run (Option Error) :=
  if w.sem ≥ 5 then .error .blocked
  else
    let w1 := { w with sem := w.sem + 1 }
    let w2 := { w1 with wg := w1.wg + 1 }
    match processGroupProjectsLoop git memberFilters fuel grp fuel defaultListOptions w2 with
    | .error a => .error a
    | .ok (some err, w3) => .ok (some err, w3)
    | .ok (none, w3) =>
      match processGroupSubgroupsLoop git memberFilters fuel grp fuel defaultListOptions w3 with
      | .error a => .error a
      | .ok (some err, w4) => .ok (some err, w4)
      | .ok (none, w4) =>
        let w5 := { w4 with sem := w4.sem - 1 }
        let w6 := { w5 with wg := w5.wg - 1 }
        .ok (none, w6)

/-- The goroutines started so far, run one after the other in the order they
were started, each to its end and each after the call of `processGroup` that
started it has returned: by then the loop that started the goroutine has run
through its slice, and the goroutine reads that value of `g`.  A goroutine
whose `processGroup` returns an error ends the run (`log.Fatal`).  At most
`tasks` goroutines are run. -/
def runSpawned (git : Client) (memberFilters : List memberFilter) (fuel : Nat) :
    Nat → World → Run (Option Error)
  | 0, w => if w.spawned = [] then .ok (none, w) else .error .outOfFuel
  | tasks + 1, w =>
    match w.spawned with
    | [] => .ok (none, w)
    | r :: rest =>
      match processGroup git memberFilters fuel r.afterLoop { w with spawned := rest } with
      | .error a => .error a
      | .ok (some err, w1) => .ok (some err, w1)
      | .ok (none, w1) => runSpawned git memberFilters fuel tasks w1

/-- One run of the traversal started by `gitlabUserAudit`: `processGroup(grp)`
on the root group, then every goroutine run to completion as in `runSpawned`.
This is the schedule in which no goroutine takes a step before the call that
started it has returned; it says nothing about when `wg.Wait()` returns (for
that see the interleaving model below). -/
def traverse (git : Client) (memberFilters : List memberFilter) (fuel tasks : Nat) (grp : Group)
    (w : World) : Run (Option Error) :=
  match processGroup git memberFilters fuel grp w with
  | .error a => .error a
  | .ok (some err, w1) => .ok (some err, w1)
  | .ok (none, w1) => runSpawned git memberFilters fuel tasks w1

/-! ## What a run adds to the state -/

/-- The part of the state that only ever grows: calls, output and goroutines. -/
structure Delta where
  calls : List Call
  out : List genericMember
  spawned : List Goroutine
deriving DecidableEq, Repr

/-- Nothing added. -/
def Delta.zero : Delta := { calls := [], out := [], spawned := [] }

/-- One addition after another. -/
def Delta.append (a b : Delta) : Delta :=
  { calls := a.calls ++ b.calls, out := a.out ++ b.out, spawned := a.spawned ++ b.spawned }

instance : Append Delta := ⟨Delta.append⟩

/-- The state `w` with `d` added at the end of each list. -/
def World.add (w : World) (d : Delta) : World :=
  { w with calls := w.calls ++ d.calls, out := w.out ++ d.out, spawned := w.spawned ++ d.spawned }

/-- The addition made by one fetch call. -/
def Delta.call (c : Call) : Delta := { calls := [c], out := [], spawned := [] }

/-- The addition made by printing records. -/
def Delta.print (ms : List genericMember) : Delta := { calls := [], out := ms, spawned := [] }

/-- The addition made by starting goroutines. -/
def Delta.go (rs : List Goroutine) : Delta := { calls := [], out := [], spawned := rs }

/-- All additions of a list, in order. -/
def Delta.sum : List Delta → Delta
  | [] => Delta.zero
  | d :: ds => d ++ Delta.sum ds

/-! ## The common shape of the paging loops -/

/-- The common shape of the four `for { ... }` loops: fetch a page, run `body`
on its items, stop when `CurrentPage >= TotalPages`, else ask for `NextPage`. -/
def pageLoop {α : Type} (fetch : ListOptions → Fetched α) (mk : ListOptions → Call)
    (body : List α → World → Run (Option Error)) : Nat → ListOptions → World → Run (Option Error)
  | 0, _, _ => .error .outOfFuel
  | fuel + 1, opts, w =>
    match fetch opts with
    | .error err => .ok (some err, w.logCall (mk opts))
    | .ok (items, resp) =>
      match body items (w.logCall (mk opts)) with
      | .error a => .error a
      | .ok (some err, w1) => .ok (some err, w1)
      | .ok (none, w1) =>
        if resp.CurrentPage ≥ resp.TotalPages then .ok (none, w1)
        else pageLoop fetch mk body fuel { opts with Page := resp.NextPage } w1

/-- The body of the project-member loop as a `pageLoop` body. -/
def projectMembersBody (memberFilters : List memberFilter) (p : Project)
    (members : List ProjectMember) (w : World) : Run (Option Error) :=
  match handleProjectMembers memberFilters p members w with
  | .error a => .error a
  | .ok w1 => .ok (none, w1)

/-- The body of the group-member loop as a `pageLoop` body. -/
def groupMembersBody (memberFilters : List memberFilter) (g : Group)
    (members : List GroupMember) (w : World) : Run (Option Error) :=
  match handleGroupMembers memberFilters g members w with
  | .error a => .error a
  | .ok w1 => .ok (none, w1)

/-- The request for one page of one list operation. -/
def mkCall (op : Op) (id : Int) (opts : ListOptions) : Call := ⟨op, id, opts⟩

/-! ## Reference records and expected calls -/

/-- The record `handleMember` is expected to build for a member of a project. -/
def projectRecord (p : Project) (m : ProjectMember) : genericMember :=
  { Type_ := "project"
    ContainerID := p.ID
    Path := p.PathWithNamespace
    Username := m.Username
    UserId := m.ID
    AccessLevel := m.AccessLevel
    ExpiresAt := m.ExpiresAt
    MembersSettingsURL := p.WebURL ++ "/-/project_members?search=" ++ m.Username }

/-- The record `handleMember` is expected to build for a member of a group. -/
def groupRecord (g : Group) (m : GroupMember) : genericMember :=
  { Type_ := "group"
    ContainerID := g.ID
    Path := g.FullPath
    Username := m.Username
    UserId := m.ID
    AccessLevel := m.AccessLevel
    ExpiresAt := m.ExpiresAt
    MembersSettingsURL := g.WebURL ++ "/-/group_members?search=" ++ m.Username }

/-- The reportable records of a list of project members, in order. -/
def projectRecords (memberFilters : List memberFilter) (p : Project)
    (ms : List ProjectMember) : List genericMember :=
  (ms.map (projectRecord p)).filter (handleMemberRequired memberFilters)

/-- The reportable records of a list of group members, in order. -/
def groupRecords (memberFilters : List memberFilter) (g : Group)
    (ms : List GroupMember) : List genericMember :=
  (ms.map (groupRecord g)).filter (handleMemberRequired memberFilters)

/-- The requests for `n` consecutive pages starting at page `k`, page size 10. -/
def pageCalls (op : Op) (id : Int) : Int → Nat → List Call
  | _, 0 => []
  | k, n + 1 => mkCall op id { Page := k, PerPage := 10 } :: pageCalls op id (k + 1) n

/-- The pages of a list paired with the requests for pages `k`, `k+1`, ... -/
def numbered {α : Type} : Int → List (List α) → List (ListOptions × List α)
  | _, [] => []
  | k, p :: ps => ({ Page := k, PerPage := 10 }, p) :: numbered (k + 1) ps

/-! ## Hypotheses on the list operations -/

/-- The hypothesis on a fetch operation as the specification words it: a
request for page `k` (`1 ≤ k ≤ T`, `T ≥ 1`) is answered without error with the
items of that page, current page `k` and total pages `T`.  Page `k` is
`pages[k-1]`. -/
def ServesPages {α : Type} (fetch : ListOptions → Fetched α) (pages : List (List α)) : Prop :=
  pages ≠ [] ∧
  ∀ (k : Nat) (items : List α), pages[k]? = some items → ∃ resp,
    fetch { Page := (k : Int) + 1, PerPage := 10 } = .ok (items, resp) ∧
    resp.CurrentPage = (k : Int) + 1 ∧ resp.TotalPages = (pages.length : Int)

/-- The hypothesis `ServesPages` together with what the loops rely on: every
page but the last announces the following page as `NextPage`. -/
def ServesPagesInOrder {α : Type} (fetch : ListOptions → Fetched α) (pages : List (List α)) :
    Prop :=
  pages ≠ [] ∧
  ∀ (k : Nat) (items : List α), pages[k]? = some items → ∃ resp,
    fetch { Page := (k : Int) + 1, PerPage := 10 } = .ok (items, resp) ∧
    resp.CurrentPage = (k : Int) + 1 ∧ resp.TotalPages = (pages.length : Int) ∧
    (k + 1 < pages.length → resp.NextPage = (k : Int) + 2)

/-- The successive requests of a paging loop: starting with the request `opts`,
each step is a request answered without error and with
`CurrentPage < TotalPages`, the next request asks for the announced `NextPage`,
and `last` is the request that follows the final step. -/
def Chain {α : Type} (fetch : ListOptions → Fetched α) :
    ListOptions → List (ListOptions × List α) → ListOptions → Prop
  | opts, [], last => opts = last
  | opts, st :: rest, last =>
    st.1 = opts ∧ ∃ resp, fetch opts = .ok (st.2, resp) ∧ resp.CurrentPage < resp.TotalPages ∧
      Chain fetch { opts with Page := resp.NextPage } rest last

/-- The member list of project `p` is answered to its end within `fuel`
requests: every request after the first asks for the page announced by the
previous answer, and the last answer reports a current page that is not below
the total. -/
def ProjectMembersAnswered (git : Client) (fuel : Nat) (p : Project) : Prop :=
  ∃ steps last items resp,
    Chain (git.ListProjectMembers p.ID) defaultListOptions steps last ∧
    git.ListProjectMembers p.ID last = .ok (items, resp) ∧
    resp.CurrentPage ≥ resp.TotalPages ∧ steps.length + 1 ≤ fuel

/-- The member list of group `g` is answered to its end within `fuel` requests. -/
def GroupMembersAnswered (git : Client) (fuel : Nat) (g : Group) : Prop :=
  ∃ steps last items resp,
    Chain (git.ListGroupMembers g.ID) defaultListOptions steps last ∧
    git.ListGroupMembers g.ID last = .ok (items, resp) ∧
    resp.CurrentPage ≥ resp.TotalPages ∧ steps.length + 1 ≤ fuel

/-- The project list of group `grp` is answered to its end within `fuel`
requests, and so is the member list of every project on it. -/
def ProjectsAnswered (git : Client) (fuel : Nat) (grp : Group) : Prop :=
  ∃ steps last items resp,
    Chain (git.ListGroupProjects grp.ID) defaultListOptions steps last ∧
    git.ListGroupProjects grp.ID last = .ok (items, resp) ∧
    resp.CurrentPage ≥ resp.TotalPages ∧ steps.length + 1 ≤ fuel ∧
    (∀ st ∈ steps, ∀ q ∈ st.2, ProjectMembersAnswered git fuel q) ∧
    ∀ q ∈ items, ProjectMembersAnswered git fuel q

/-! ## Calls and returned errors -/

/-- The error, if any, with which the client answers a fetch call. -/
def Client.answer (git : Client) (c : Call) : Option Error :=
  match c.op with
  | .ListGroupProjects =>
    match git.ListGroupProjects c.id c.opts with
    | .error e => some e
    | .ok _ => none
  | .ListSubgroups =>
    match git.ListSubgroups c.id c.opts with
    | .error e => some e
    | .ok _ => none
  | .ListProjectMembers =>
    match git.ListProjectMembers c.id c.opts with
    | .error e => some e
    | .ok _ => none
  | .ListGroupMembers =>
    match git.ListGroupMembers c.id c.opts with
    | .error e => some e
    | .ok _ => none

/-- A sequence of fetch calls that matches a returned error value: with `nil`
every call was answered without error; with an error `e` every call but the
last was answered without error and the last call was answered with `e`. -/
def TraceOK (git : Client) (cs : List Call) : Option Error → Prop
  | none => ∀ c ∈ cs, git.answer c = none
  | some e => ∃ pre c, cs = pre ++ [c] ∧ (∀ x ∈ pre, git.answer x = none) ∧ git.answer c = some e

/-- What relates the state before and after a run of a loop that returned
`r`: the counters `sem` and `wg` are untouched, and the calls that were added
match `r` in the sense of `TraceOK`. -/
def Sound (git : Client) (w : World) (r : Option Error) (w1 : World) : Prop :=
  w1.sem = w.sem ∧ w1.wg = w.wg ∧ ∃ cs, w1.calls = w.calls ++ cs ∧ TraceOK git cs r

/-! ## What the loops add on served lists -/

/-- The addition made by the steps of a chain, when the body adds `δ items`
on each page. -/
def stepsDelta {α : Type} (mk : ListOptions → Call) (δ : List α → Delta)
    (steps : List (ListOptions × List α)) : Delta :=
  Delta.sum (steps.map fun st => Delta.call (mk st.1) ++ δ st.2)

/-- What draining the member list of project `p`, served as `pages`, adds. -/
def projectDrainDelta (memberFilters : List memberFilter) (p : Project)
    (pages : List (List ProjectMember)) : Delta :=
  { calls := pageCalls .ListProjectMembers p.ID 1 pages.length
    out := projectRecords memberFilters p pages.flatten
    spawned := [] }

/-- What draining the member list of group `g`, served as `pages`, adds. -/
def groupDrainDelta (memberFilters : List memberFilter) (g : Group)
    (pages : List (List GroupMember)) : Delta :=
  { calls := pageCalls .ListGroupMembers g.ID 1 pages.length
    out := groupRecords memberFilters g pages.flatten
    spawned := [] }

/-- What the projects range of `processGroup` adds for the projects `ps`, the
member list of project `p` being served as `mp p`. -/
def projectsDelta (memberFilters : List memberFilter) (mp : Project → List (List ProjectMember))
    (ps : List Project) : Delta :=
  Delta.sum (ps.map fun p => projectDrainDelta memberFilters p (mp p))

/-- The goroutines started by one run of the range loop over a slice: one per
element, each with the elements that follow it. -/
def goroutinesOf : List Group → List Goroutine
  | [] => []
  | g :: gs => { started := g, later := gs } :: goroutinesOf gs

/-- What the subgroups range of `processGroup` adds for the subgroups `gs`, the
member list of group `g` being served as `mg g`. -/
def subgroupsDelta (memberFilters : List memberFilter) (mg : Group → List (List GroupMember)) :
    List Group → Delta
  | [] => Delta.zero
  | g :: gs =>
    (groupDrainDelta memberFilters g (mg g) ++ Delta.go [{ started := g, later := gs }])
      ++ subgroupsDelta memberFilters mg gs

/-- The calls of a trace that went to the list operation `op`. -/
def callsOf (op : Op) (cs : List Call) : List Call :=
  cs.filter fun c => decide (c.op = op)

/-! ## Example clients -/

/-- A client whose project-member list has three pages and announces page 3 as
the page after page 1; the other operations are not used. -/
def skippingClient : Client :=
  { ListGroupProjects := fun _ _ => .error "not used"
    ListSubgroups := fun _ _ => .error "not used"
    ListGroupMembers := fun _ _ => .error "not used"
    ListProjectMembers := fun _ opts =>
      if opts.Page = 1 then
        .ok ([⟨1, "alice", 30, none⟩], { CurrentPage := 1, TotalPages := 3, NextPage := 3 })
      else if opts.Page = 2 then
        .ok ([⟨2, "bob", 30, none⟩], { CurrentPage := 2, TotalPages := 3, NextPage := 3 })
      else if opts.Page = 3 then
        .ok ([⟨3, "carol", 30, none⟩], { CurrentPage := 3, TotalPages := 3, NextPage := 0 })
      else .error "no such page" }

/-- A project used in examples. -/
def appProject : Project := ⟨7, "acme/app", "https://gitlab.example/acme/app"⟩

/-- A client whose project-member list has two pages served in order; the
other operations are not used. -/
def twoPageClient : Client :=
  { ListGroupProjects := fun _ _ => .error "not used"
    ListSubgroups := fun _ _ => .error "not used"
    ListGroupMembers := fun _ _ => .error "not used"
    ListProjectMembers := fun _ opts =>
      if opts.Page = 1 then
        .ok ([⟨1, "alice", 30, none⟩], { CurrentPage := 1, TotalPages := 2, NextPage := 2 })
      else if opts.Page = 2 then
        .ok ([⟨2, "bob", 30, none⟩], { CurrentPage := 2, TotalPages := 2, NextPage := 0 })
      else .error "no such page" }

/-- A client whose project-member list answers page 1 (of 2) and fails on
page 2, and whose project list fails at once. -/
def failingClient : Client :=
  { ListGroupProjects := fun _ _ => .error "503 projects"
    ListSubgroups := fun _ _ => .error "not used"
    ListGroupMembers := fun _ _ => .error "not used"
    ListProjectMembers := fun _ opts =>
      if opts.Page = 1 then
        .ok ([⟨1, "alice", 30, none⟩], { CurrentPage := 1, TotalPages := 2, NextPage := 2 })
      else .error "503 members" }

/-- A client whose project list holds one project and whose project-member
list fails on page 2. -/
def failingMembersClient : Client :=
  { failingClient with
    ListGroupProjects := fun _ _ =>
      .ok ([⟨7, "acme/app", "https://gitlab.example/acme/app"⟩],
        { CurrentPage := 1, TotalPages := 1, NextPage := 0 }) }

/-- A client whose project list has two pages, the first with project 7, the
second with projects 8 and 9; the member lists of projects 7 and 8 are
answered, that of project 9 fails on its page 2. -/
def lateFailClient : Client :=
  { ListGroupProjects := fun _ opts =>
      if opts.Page = 1 then
        .ok ([⟨7, "acme/app", "https://gitlab.example/acme/app"⟩],
          { CurrentPage := 1, TotalPages := 2, NextPage := 2 })
      else if opts.Page = 2 then
        .ok ([⟨8, "acme/api", "https://gitlab.example/acme/api"⟩,
              ⟨9, "acme/docs", "https://gitlab.example/acme/docs"⟩],
          { CurrentPage := 2, TotalPages := 2, NextPage := 0 })
      else .error "no such page"
    ListSubgroups := fun _ _ => .error "not used"
    ListGroupMembers := fun _ _ => .error "not used"
    ListProjectMembers := fun id opts =>
      if id = 9 then
        if opts.Page = 1 then
          .ok ([⟨1, "alice", 30, none⟩], { CurrentPage := 1, TotalPages := 2, NextPage := 2 })
        else .error "503 members"
      else if opts.Page = 1 then
        .ok ([⟨2, "bob", 30, none⟩], { CurrentPage := 1, TotalPages := 1, NextPage := 0 })
      else .error "no such page" }

/-- A client whose project list is empty and whose subgroup list has two
pages, the first with group 11, the second with groups 12 and 13; the member
lists of groups 11 and 12 are answered, that of group 13 fails on its page 2. -/
def lateFailGroupsClient : Client :=
  { ListGroupProjects := fun _ opts =>
      if opts.Page = 1 then .ok ([], { CurrentPage := 1, TotalPages := 1, NextPage := 0 })
      else .error "no such page"
    ListSubgroups := fun _ opts =>
      if opts.Page = 1 then
        .ok ([⟨11, "acme/a", "https://gitlab.example/groups/acme/a"⟩],
          { CurrentPage := 1, TotalPages := 2, NextPage := 2 })
      else if opts.Page = 2 then
        .ok ([⟨12, "acme/b", "https://gitlab.example/groups/acme/b"⟩,
              ⟨13, "acme/c", "https://gitlab.example/groups/acme/c"⟩],
          { CurrentPage := 2, TotalPages := 2, NextPage := 0 })
      else .error "no such page"
    ListProjectMembers := fun _ _ => .error "not used"
    ListGroupMembers := fun id opts =>
      if id = 13 then
        if opts.Page = 1 then
          .ok ([⟨1, "alice", 30, none⟩], { CurrentPage := 1, TotalPages := 2, NextPage := 2 })
        else .error "503 members"
      else if opts.Page = 1 then
        .ok ([⟨2, "bob", 30, none⟩], { CurrentPage := 1, TotalPages := 1, NextPage := 0 })
      else .error "no such page" }

/-- A group used in examples. -/
def acmeGroup : Group := ⟨3, "acme", "https://gitlab.example/groups/acme"⟩

/-! ## Resource trees -/

/-- The nesting of groups: a group and the trees of its direct subgroups. -/
inductive GroupTree where
  | node (grp : Group) (subgroups : List GroupTree)

/-- The group at the root of a tree. -/
def GroupTree.root : GroupTree → Group
  | .node g _ => g

/-- The trees of the direct subgroups. -/
def GroupTree.subgroups : GroupTree → List GroupTree
  | .node _ ss => ss

mutual
/-- All nodes of a tree, each with its own subtree, parents first. -/
def GroupTree.subtrees : GroupTree → List GroupTree
  | .node g ss => .node g ss :: GroupTree.subtreesList ss
/-- All nodes of a list of trees. -/
def GroupTree.subtreesList : List GroupTree → List GroupTree
  | [] => []
  | t :: ts => GroupTree.subtrees t ++ GroupTree.subtreesList ts
end

/-- What the containers of a tree hold, page by page as the server hands it
out: the projects and the subgroups of each group, and the members of each
project and of each group. -/
structure Content where
  projectPages : Group → List (List Project)
  subgroupPages : Group → List (List Group)
  projectMemberPages : Project → List (List ProjectMember)
  groupMemberPages : Group → List (List GroupMember)

/-- The client serves, without error and page after page, the lists of the
group at the root of `t`: its projects, its subgroups (which are the roots of
the subtrees), the members of each of its projects and the members of each of
its subgroups. -/
def ServedAt (git : Client) (c : Content) (t : GroupTree) : Prop :=
  ServesPagesInOrder (git.ListGroupProjects t.root.ID) (c.projectPages t.root) ∧
  ServesPagesInOrder (git.ListSubgroups t.root.ID) (c.subgroupPages t.root) ∧
  (c.subgroupPages t.root).flatten = t.subgroups.map GroupTree.root ∧
  (∀ p ∈ (c.projectPages t.root).flatten,
    ServesPagesInOrder (git.ListProjectMembers p.ID) (c.projectMemberPages p)) ∧
  (∀ g ∈ (c.subgroupPages t.root).flatten,
    ServesPagesInOrder (git.ListGroupMembers g.ID) (c.groupMemberPages g))

/-- The client serves the whole tree. -/
def Served (git : Client) (c : Content) (t : GroupTree) : Prop :=
  ∀ n ∈ t.subtrees, ServedAt git c n

/-- No page of a subgroup list of the tree holds more than one subgroup, so
that the range variable `g` of every loop over such a page is assigned at most
once. -/
def SubgroupsOnePerPage (c : Content) (t : GroupTree) : Prop :=
  ∀ n ∈ t.subtrees, ∀ page ∈ c.subgroupPages n.root, page.length ≤ 1

/-- The containers directly below a group, each with the usernames of its
members: the projects of the group, then its subgroups. -/
def localContainers (c : Content) (g : Group) : List (Int × List String) :=
  (c.projectPages g).flatten.map
      (fun p => (p.ID, (c.projectMemberPages p).flatten.map fun m => m.Username))
    ++ (c.subgroupPages g).flatten.map
      (fun s => (s.ID, (c.groupMemberPages s).flatten.map fun m => m.Username))

/-- Every container of the tree except the root group: every project and every
subgroup, at any depth. -/
def containersBelow (c : Content) (t : GroupTree) : List (Int × List String) :=
  t.subtrees.flatMap fun n => localContainers c n.root

/-- Every container of the tree: the root group, every subgroup and every
project. -/
def containersAll (c : Content) (t : GroupTree) : List (Int × List String) :=
  (t.root.ID, (c.groupMemberPages t.root).flatten.map fun m => m.Username)
    :: containersBelow c t

/-- The (container id, username) pairs of a list of containers. -/
def pairsOf (cs : List (Int × List String)) : List (Int × String) :=
  cs.flatMap fun cu => cu.2.map fun u => (cu.1, u)

/-- The sum of the member counts of a list of containers. -/
def memberTotal (cs : List (Int × List String)) : Nat :=
  (cs.map fun cu => cu.2.length).sum

/-- The (container id, username) pair of a record. -/
def recordKey (r : genericMember) : Int × String := (r.ContainerID, r.Username)

/-- The records `processGroup` prints for group `g`: the members of its
projects, then the members of its subgroups. -/
def emitted (c : Content) (memberFilters : List memberFilter) (g : Group) : List genericMember :=
  (c.projectPages g).flatten.flatMap
      (fun p => projectRecords memberFilters p (c.projectMemberPages p).flatten)
    ++ (c.subgroupPages g).flatten.flatMap
      (fun s => groupRecords memberFilters s (c.groupMemberPages s).flatten)

/-- The number of pages served for the lists of group `g`. -/
def pagesAt (c : Content) (g : Group) : Nat :=
  (c.projectPages g).length + (c.subgroupPages g).length
    + ((c.projectPages g).flatten.map fun p => (c.projectMemberPages p).length).sum
    + ((c.subgroupPages g).flatten.map fun s => (c.groupMemberPages s).length).sum

/-- Fuel that suffices for the traversal of a list of trees: the pages of all
their lists and the number of their groups. -/
def fuelFor (c : Content) (ts : List GroupTree) : Nat :=
  ((GroupTree.subtreesList ts).map fun n => pagesAt c n.root).sum
    + (GroupTree.subtreesList ts).length

/-- What `processGroup` adds for the group `g` of a served tree. -/
def groupDelta (c : Content) (memberFilters : List memberFilter) (g : Group) : Delta :=
  stepsDelta (mkCall .ListGroupProjects g.ID) (projectsDelta memberFilters c.projectMemberPages)
      (numbered 1 (c.projectPages g))
    ++ stepsDelta (mkCall .ListSubgroups g.ID) (subgroupsDelta memberFilters c.groupMemberPages)
      (numbered 1 (c.subgroupPages g))

/-! ## Example trees -/

/-- The witness tree: a root group with two subgroups. -/
def demoTree : GroupTree :=
  .node ⟨1, "acme", "https://gitlab.example/groups/acme"⟩
    [.node ⟨2, "acme/web", "https://gitlab.example/groups/acme/web"⟩ [],
     .node ⟨3, "acme/ops", "https://gitlab.example/groups/acme/ops"⟩ []]

/-- The contents of the witness tree: each subgroup has one project and every
container has two members; every list fits on one page. -/
def demoContent : Content :=
  { projectPages := fun g =>
      if g.ID = 2 then [[⟨20, "acme/web/site", "https://gitlab.example/acme/web/site"⟩]]
      else if g.ID = 3 then [[⟨30, "acme/ops/infra", "https://gitlab.example/acme/ops/infra"⟩]]
      else [[]]
    subgroupPages := fun g =>
      if g.ID = 1 then
        [[⟨2, "acme/web", "https://gitlab.example/groups/acme/web"⟩,
          ⟨3, "acme/ops", "https://gitlab.example/groups/acme/ops"⟩]]
      else [[]]
    projectMemberPages := fun p =>
      if p.ID = 20 then [[⟨105, "erin", 30, none⟩, ⟨106, "frank", 40, none⟩]]
      else if p.ID = 30 then [[⟨107, "gina", 30, none⟩, ⟨108, "hank", 50, none⟩]]
      else [[]]
    groupMemberPages := fun g =>
      if g.ID = 1 then [[⟨101, "alice", 50, none⟩, ⟨102, "bob", 40, none⟩]]
      else if g.ID = 2 then [[⟨103, "carol", 30, none⟩, ⟨104, "dave", 30, none⟩]]
      else if g.ID = 3 then [[⟨103, "carol", 40, none⟩, ⟨109, "ivan", 20, none⟩]]
      else [[]] }

/-- The answer of a server that holds `pages` to the request `opts`: the page
asked for, its number, the number of pages and the number of the next page (0
after the last). -/
def servePages {α : Type} (pages : List (List α)) (opts : ListOptions) : Fetched α :=
  if opts.Page ≥ 1 then
    match pages[(opts.Page - 1).toNat]? with
    | some items =>
      .ok (items,
        { CurrentPage := opts.Page
          TotalPages := (pages.length : Int)
          NextPage := if opts.Page < (pages.length : Int) then opts.Page + 1 else 0 })
    | none => .error "no such page"
  else .error "no such page"

/-- A client that serves contents of one page per list; a container is found
by its id. -/
def contentClient (c : Content) : Client :=
  { ListGroupProjects := fun id opts => servePages (c.projectPages ⟨id, "", ""⟩) opts
    ListSubgroups := fun id opts => servePages (c.subgroupPages ⟨id, "", ""⟩) opts
    ListProjectMembers := fun id opts => servePages (c.projectMemberPages ⟨id, "", ""⟩) opts
    ListGroupMembers := fun id opts => servePages (c.groupMemberPages ⟨id, "", ""⟩) opts }

/-- A client that serves the witness tree. -/
def demoClient : Client := contentClient demoContent

/-- The contents of the witness tree with the two subgroups of the root on two
pages of one subgroup each. -/
def pagedContent : Content :=
  { demoContent with
    subgroupPages := fun g =>
      if g.ID = 1 then
        [[⟨2, "acme/web", "https://gitlab.example/groups/acme/web"⟩],
         [⟨3, "acme/ops", "https://gitlab.example/groups/acme/ops"⟩]]
      else [[]] }

/-- A client that serves the witness tree one subgroup per page. -/
def pagedClient : Client := contentClient pagedContent

/-- Three nesting levels: a root group, its subgroup and the subgroup of that
subgroup; each subgroup has one member and the innermost one has one project
with one member. -/
def deepContent : Content :=
  { projectPages := fun g =>
      if g.ID = 4 then [[⟨40, "acme/web/eu/shop", "https://gitlab.example/acme/web/eu/shop"⟩]]
      else [[]]
    subgroupPages := fun g =>
      if g.ID = 1 then [[⟨2, "acme/web", "https://gitlab.example/groups/acme/web"⟩]]
      else if g.ID = 2 then [[⟨4, "acme/web/eu", "https://gitlab.example/groups/acme/web/eu"⟩]]
      else [[]]
    projectMemberPages := fun p =>
      if p.ID = 40 then [[⟨105, "erin", 40, none⟩]] else [[]]
    groupMemberPages := fun g =>
      if g.ID = 2 then [[⟨103, "carol", 30, none⟩]]
      else if g.ID = 4 then [[⟨104, "dave", 30, none⟩]]
      else [[]] }

/-- A client that serves the three nesting levels. -/
def deepClient : Client := contentClient deepContent

/-- The root group of the three nesting levels. -/
def deepRoot : Group := ⟨1, "acme", "https://gitlab.example/groups/acme"⟩

/-! ## Goroutines: an interleaving model of the run -/

/-- The two `for { ... }` loops of `processGroup`, between `wg.Add(1)` and
`<-sem`. -/
def processGroupLoops (git : Client) (memberFilters : List memberFilter) (fuel : Nat)
    (grp : Group) (w : World) : Run (Option Error) :=
  match processGroupProjectsLoop git memberFilters fuel grp fuel defaultListOptions w with
  | .error a => .error a
  | .ok (some err, w3) => .ok (some err, w3)
  | .ok (none, w3) =>
    processGroupSubgroupsLoop git memberFilters fuel grp fuel defaultListOptions w3

/-- Where a call of `processGroup` stands. -/
inductive Pc where
  /-- about to execute `sem <- true` -/
  | acquire
  /-- about to execute `wg.Add(1)` -/
  | add
  /-- about to run the two loops -/
  | loops
  /-- about to execute `<-sem` -/
  | release
  /-- about to execute `wg.Done()` -/
  | done
  /-- has returned `nil` -/
  | returned
deriving DecidableEq, Repr

/-- The effect of the next step of a call of `processGroup`. -/
inductive Stepped where
  /-- the step was taken -/
  | next (pc : Pc) (w : World)
  /-- the call returned an error, which its caller passes to `log.Fatal` -/
  | fatal (e : Error) (w : World)
  /-- the step cannot be taken now -/
  | stuck
deriving DecidableEq, Repr

/-- One step of a call of `processGroup`: a send on `sem` waits while five
elements are in the channel, a receive waits while it is empty; the two loops
are taken as one step. -/
def processGroupStep (git : Client) (memberFilters : List memberFilter) (fuel : Nat)
    (grp : Group) : Pc → World → Stepped
  | .acquire, w => if w.sem < 5 then .next .add { w with sem := w.sem + 1 } else .stuck
  | .add, w => .next .loops { w with wg := w.wg + 1 }
  | .loops, w =>
    match processGroupLoops git memberFilters fuel grp w with
    | .ok (none, w1) => .next .release w1
    | .ok (some e, w1) => .fatal e w1
    | .error _ => .stuck
  | .release, w => if w.sem = 0 then .stuck else .next .done { w with sem := w.sem - 1 }
  | .done, w => .next .returned { w with wg := w.wg - 1 }
  | .returned, _ => .stuck

/-- A goroutine in the interleaving model: the group it passes to
`processGroup` and where that call stands. -/
structure Task where
  grp : Group
  pc : Pc
deriving DecidableEq, Repr

/-- Where `gitlabUserAudit` stands after `GetGroup`. -/
inductive MainPc where
  /-- inside `processGroup(grp)` -/
  | processing (pc : Pc)
  /-- inside `wg.Wait()` -/
  | waiting
  /-- `wg.Wait()` has returned and the elapsed time has been printed -/
  | reported
deriving DecidableEq, Repr

/-- The state of the whole program. -/
structure Sched where
  world : World
  main : MainPc
  tasks : List Task
  fatal : Option Error
deriving DecidableEq, Repr

/-- The state when `gitlabUserAudit` calls `processGroup(grp)`. -/
def Sched.start : Sched :=
  { world := World.start, main := .processing .acquire, tasks := [], fatal := none }

/-- The goroutines started by a step become tasks.  The two loops being one
step, a goroutine takes its first step after the loop that started it has
ended, and the group it passes to `processGroup` is the value `g` holds
then. -/
def Sched.adopt (s : Sched) (w : World) : Sched :=
  { s with
    world := { w with spawned := [] }
    tasks := s.tasks ++ w.spawned.map fun r => { grp := r.afterLoop, pc := .acquire } }

/-- One step of thread `i` (0 is `gitlabUserAudit`, `i + 1` is the goroutine
`tasks[i]`), or `none` when that thread cannot take a step: it waits on `sem`
or on `wg`, it has ended, or `log.Fatal` has ended the program.  `wg.Wait()`
returns when the counter is zero. -/
def Sched.step (git : Client) (memberFilters : List memberFilter) (fuel : Nat) (root : Group)
    (s : Sched) (i : Nat) : Option Sched :=
  match s.fatal with
  | some _ => none
  | none =>
    match i with
    | 0 =>
      match s.main with
      | .processing pc =>
        match processGroupStep git memberFilters fuel root pc s.world with
        | .next pc1 w =>
          some { s.adopt w with main := if pc1 = .returned then .waiting else .processing pc1 }
        | .fatal e w => some { s.adopt w with fatal := some e }
        | .stuck => none
      | .waiting => if s.world.wg = 0 then some { s with main := .reported } else none
      | .reported => none
    | j + 1 =>
      match s.tasks[j]? with
      | none => none
      | some t =>
        match processGroupStep git memberFilters fuel t.grp t.pc s.world with
        | .next pc1 w => some ({ s with tasks := s.tasks.set j { t with pc := pc1 } }.adopt w)
        | .fatal e w => some { s.adopt w with fatal := some e }
        | .stuck => none

/-- The state after the threads have taken steps in the order given, or `none`
when a thread in the list could not take its step. -/
def Sched.run (git : Client) (memberFilters : List memberFilter) (fuel : Nat) (root : Group) :
    List Nat → Sched → Option Sched
  | [], s => some s
  | i :: is, s =>
    match s.step git memberFilters fuel root i with
    | none => none
    | some s1 => Sched.run git memberFilters fuel root is s1

/-! ## Lemmas: state additions -/

theorem Delta.append_def (a b : Delta) :
    a ++ b = { calls := a.calls ++ b.calls, out := a.out ++ b.out,
               spawned := a.spawned ++ b.spawned } := rfl

@[simp] theorem World.add_zero (w : World) : w.add Delta.zero = w := by
  cases w; simp [World.add, Delta.zero]

@[simp] theorem World.add_add (w : World) (a b : Delta) : (w.add a).add b = w.add (a ++ b) := by
  cases w; simp [World.add, Delta.append_def]

@[simp] theorem Delta.zero_append (a : Delta) : Delta.zero ++ a = a := by
  cases a; simp [Delta.zero, Delta.append_def]

@[simp] theorem Delta.append_zero (a : Delta) : a ++ Delta.zero = a := by
  cases a; simp [Delta.zero, Delta.append_def]

theorem Delta.append_assoc (a b c : Delta) : (a ++ b) ++ c = a ++ (b ++ c) := by
  cases a; cases b; cases c; simp [Delta.append_def]

@[simp] theorem Delta.append_calls (a b : Delta) : (a ++ b).calls = a.calls ++ b.calls := rfl

@[simp] theorem Delta.append_out (a b : Delta) : (a ++ b).out = a.out ++ b.out := rfl

@[simp] theorem Delta.append_spawned (a b : Delta) :
    (a ++ b).spawned = a.spawned ++ b.spawned := rfl

@[simp] theorem World.add_calls (w : World) (d : Delta) : (w.add d).calls = w.calls ++ d.calls := rfl

@[simp] theorem World.add_out (w : World) (d : Delta) : (w.add d).out = w.out ++ d.out := rfl

@[simp] theorem World.add_spawned (w : World) (d : Delta) :
    (w.add d).spawned = w.spawned ++ d.spawned := rfl

@[simp] theorem World.add_sem (w : World) (d : Delta) : (w.add d).sem = w.sem := rfl

@[simp] theorem World.add_wg (w : World) (d : Delta) : (w.add d).wg = w.wg := rfl

theorem World.logCall_eq_add (w : World) (c : Call) : w.logCall c = w.add (Delta.call c) := by
  cases w; simp [World.logCall, World.add, Delta.call]

theorem printMember_eq_add (mem : genericMember) (w : World) :
    printMember mem w = w.add (Delta.print [mem]) := by
  cases w; simp [printMember, World.add, Delta.print]

theorem World.spawn_eq_add (w : World) (r : Goroutine) :
    { w with spawned := w.spawned ++ [r] } = w.add (Delta.go [r]) := by
  cases w; simp [World.add, Delta.go]

/-! ## Lemmas: the source loops are instances of `pageLoop` -/

theorem processProjectMembersPermissionsLoop_eq (git : Client) (fs : List memberFilter)
    (p : Project) (fuel : Nat) (opts : ListOptions) (w : World) :
    processProjectMembersPermissionsLoop git fs p fuel opts w
      = pageLoop (git.ListProjectMembers p.ID) (mkCall .ListProjectMembers p.ID)
          (projectMembersBody fs p) fuel opts w := by
  induction fuel generalizing opts w with
  | zero => rfl
  | succ n ih =>
    simp only [processProjectMembersPermissionsLoop, pageLoop, projectMembersBody, mkCall]
    cases hf : git.ListProjectMembers p.ID opts with
    | error e => rfl
    | ok res =>
      obtain ⟨members, resp⟩ := res
      simp only
      cases hh : handleProjectMembers fs p members (w.logCall ⟨.ListProjectMembers, p.ID, opts⟩) with
      | error a => rfl
      | ok w1 =>
        simp only
        split
        · rfl
        · exact ih _ _

theorem processGroupMembersPermissionsLoop_eq (git : Client) (fs : List memberFilter)
    (g : Group) (fuel : Nat) (opts : ListOptions) (w : World) :
    processGroupMembersPermissionsLoop git fs g fuel opts w
      = pageLoop (git.ListGroupMembers g.ID) (mkCall .ListGroupMembers g.ID)
          (groupMembersBody fs g) fuel opts w := by
  induction fuel generalizing opts w with
  | zero => rfl
  | succ n ih =>
    simp only [processGroupMembersPermissionsLoop, pageLoop, groupMembersBody, mkCall]
    cases hf : git.ListGroupMembers g.ID opts with
    | error e => rfl
    | ok res =>
      obtain ⟨members, resp⟩ := res
      simp only
      cases hh : handleGroupMembers fs g members (w.logCall ⟨.ListGroupMembers, g.ID, opts⟩) with
      | error a => rfl
      | ok w1 =>
        simp only
        split
        · rfl
        · exact ih _ _

theorem processGroupProjectsLoop_eq (git : Client) (fs : List memberFilter) (inner : Nat)
    (grp : Group) (fuel : Nat) (opts : ListOptions) (w : World) :
    processGroupProjectsLoop git fs inner grp fuel opts w
      = pageLoop (git.ListGroupProjects grp.ID) (mkCall .ListGroupProjects grp.ID)
          (processGroupProjectsRange git fs inner) fuel opts w := by
  induction fuel generalizing opts w with
  | zero => rfl
  | succ n ih =>
    simp only [processGroupProjectsLoop, pageLoop, mkCall]
    cases hf : git.ListGroupProjects grp.ID opts with
    | error e => rfl
    | ok res =>
      obtain ⟨items, resp⟩ := res
      simp only
      cases hh : processGroupProjectsRange git fs inner items
          (w.logCall ⟨.ListGroupProjects, grp.ID, opts⟩) with
      | error a => rfl
      | ok rw =>
        obtain ⟨r, w1⟩ := rw
        cases r with
        | some e => rfl
        | none =>
          simp only
          split
          · rfl
          · exact ih _ _

theorem processGroupSubgroupsLoop_eq (git : Client) (fs : List memberFilter) (inner : Nat)
    (grp : Group) (fuel : Nat) (opts : ListOptions) (w : World) :
    processGroupSubgroupsLoop git fs inner grp fuel opts w
      = pageLoop (git.ListSubgroups grp.ID) (mkCall .ListSubgroups grp.ID)
          (processGroupSubgroupsRange git fs inner) fuel opts w := by
  induction fuel generalizing opts w with
  | zero => rfl
  | succ n ih =>
    simp only [processGroupSubgroupsLoop, pageLoop, mkCall]
    cases hf : git.ListSubgroups grp.ID opts with
    | error e => rfl
    | ok res =>
      obtain ⟨items, resp⟩ := res
      simp only
      cases hh : processGroupSubgroupsRange git fs inner items
          (w.logCall ⟨.ListSubgroups, grp.ID, opts⟩) with
      | error a => rfl
      | ok rw =>
        obtain ⟨r, w1⟩ := rw
        cases r with
        | some e => rfl
        | none =>
          simp only
          split
          · rfl
          · exact ih _ _

/-! ## Lemmas: handleMember on the pairs the program passes -/

theorem handleMemberNormalise_project (p : Project) (m : ProjectMember) :
    handleMemberNormalise (.project p) (.projectMember m) = some (projectRecord p m) := rfl

theorem handleMemberNormalise_group (g : Group) (m : GroupMember) :
    handleMemberNormalise (.group g) (.groupMember m) = some (groupRecord g m) := rfl

theorem handleProjectMembers_eq (fs : List memberFilter) (p : Project) (ms : List ProjectMember)
    (w : World) :
    handleProjectMembers fs p ms w = .ok (w.add (Delta.print (projectRecords fs p ms))) := by
  induction ms generalizing w with
  | nil => simp [handleProjectMembers, projectRecords, Delta.print, World.add]
  | cons m ms ih =>
    simp only [handleProjectMembers, handleMember, handleMemberNormalise_project]
    by_cases hr : handleMemberRequired fs (projectRecord p m) = true
    · simp only [hr, if_true, ih, printMember_eq_add, World.add_add]
      simp [projectRecords, Delta.print, Delta.append_def, List.filter_cons, hr]
    · simp only [hr, ih]
      simp [projectRecords, Delta.print, List.filter_cons, hr]

theorem handleGroupMembers_eq (fs : List memberFilter) (g : Group) (ms : List GroupMember)
    (w : World) :
    handleGroupMembers fs g ms w = .ok (w.add (Delta.print (groupRecords fs g ms))) := by
  induction ms generalizing w with
  | nil => simp [handleGroupMembers, groupRecords, Delta.print, World.add]
  | cons m ms ih =>
    simp only [handleGroupMembers, handleMember, handleMemberNormalise_group]
    by_cases hr : handleMemberRequired fs (groupRecord g m) = true
    · simp only [hr, if_true, ih, printMember_eq_add, World.add_add]
      simp [groupRecords, Delta.print, Delta.append_def, List.filter_cons, hr]
    · simp only [hr, ih]
      simp [groupRecords, Delta.print, List.filter_cons, hr]

theorem projectMembersBody_eq (fs : List memberFilter) (p : Project) (ms : List ProjectMember)
    (w : World) :
    projectMembersBody fs p ms w = .ok (none, w.add (Delta.print (projectRecords fs p ms))) := by
  simp [projectMembersBody, handleProjectMembers_eq]

theorem groupMembersBody_eq (fs : List memberFilter) (g : Group) (ms : List GroupMember)
    (w : World) :
    groupMembersBody fs g ms w = .ok (none, w.add (Delta.print (groupRecords fs g ms))) := by
  simp [groupMembersBody, handleGroupMembers_eq]

/-! ## Lemmas: the generic paging loop -/

theorem pageLoop_error {α : Type} (fetch : ListOptions → Fetched α) (mk : ListOptions → Call)
    (body : List α → World → Run (Option Error)) (fuel : Nat) (opts : ListOptions) (w : World)
    (e : Error) (h : fetch opts = .error e) :
    pageLoop fetch mk body (fuel + 1) opts w = .ok (some e, w.add (Delta.call (mk opts))) := by
  simp [pageLoop, h, World.logCall_eq_add]

theorem pageLoop_last {α : Type} (fetch : ListOptions → Fetched α) (mk : ListOptions → Call)
    (body : List α → World → Run (Option Error)) (fuel : Nat) (opts : ListOptions) (w : World)
    (items : List α) (resp : Response) (d : Delta)
    (h : fetch opts = .ok (items, resp)) (hlast : resp.CurrentPage ≥ resp.TotalPages)
    (hb : ∀ w, body items w = .ok (none, w.add d)) :
    pageLoop fetch mk body (fuel + 1) opts w = .ok (none, w.add (Delta.call (mk opts) ++ d)) := by
  simp [pageLoop, h, World.logCall_eq_add, hb, hlast]

theorem pageLoop_chain {α : Type} (fetch : ListOptions → Fetched α) (mk : ListOptions → Call)
    (body : List α → World → Run (Option Error)) (δ : List α → Delta)
    (steps : List (ListOptions × List α)) :
    ∀ (opts last : ListOptions) (w : World) (fuel : Nat), Chain fetch opts steps last →
      (∀ st ∈ steps, ∀ w, body st.2 w = .ok (none, w.add (δ st.2))) →
      pageLoop fetch mk body (steps.length + fuel) opts w
        = pageLoop fetch mk body fuel last (w.add (stepsDelta mk δ steps)) := by
  induction steps with
  | nil =>
    intro opts last w fuel hc _
    simp only [Chain] at hc
    subst hc
    simp [stepsDelta, Delta.sum]
  | cons st rest ih =>
    intro opts last w fuel hc hb
    obtain ⟨h1, resp, hf, hlt, hrest⟩ := hc
    have hb0 := hb st (List.mem_cons_self _ _)
    have hnot : ¬ resp.CurrentPage ≥ resp.TotalPages := by omega
    have hlen : (st :: rest).length + fuel = (rest.length + fuel) + 1 := by
      simp only [List.length_cons]; omega
    rw [hlen]
    simp only [pageLoop, hf, World.logCall_eq_add, hb0, hnot, if_false]
    rw [ih _ last _ fuel hrest (fun s hs => hb s (List.mem_cons_of_mem _ hs))]
    simp [stepsDelta, Delta.sum, h1, Delta.append_assoc]

theorem stepsDelta_nil {α : Type} (mk : ListOptions → Call) (δ : List α → Delta) :
    stepsDelta mk δ [] = Delta.zero := rfl

theorem stepsDelta_cons {α : Type} (mk : ListOptions → Call) (δ : List α → Delta)
    (st : ListOptions × List α) (rest : List (ListOptions × List α)) :
    stepsDelta mk δ (st :: rest) = (Delta.call (mk st.1) ++ δ st.2) ++ stepsDelta mk δ rest := rfl

theorem stepsDelta_append {α : Type} (mk : ListOptions → Call) (δ : List α → Delta)
    (a b : List (ListOptions × List α)) :
    stepsDelta mk δ (a ++ b) = stepsDelta mk δ a ++ stepsDelta mk δ b := by
  induction a with
  | nil => simp [stepsDelta_nil]
  | cons st rest ih => simp [stepsDelta_cons, ih, Delta.append_assoc]

theorem numbered_append {α : Type} (k : Int) (a b : List (List α)) :
    numbered k (a ++ b) = numbered k a ++ numbered (k + a.length) b := by
  induction a generalizing k with
  | nil => simp [numbered]
  | cons x xs ih =>
    have e : k + ((xs.length + 1 : Nat) : Int) = k + 1 + (xs.length : Int) := by
      push_cast; ring
    rw [List.cons_append, numbered, numbered, List.cons_append, ih, List.length_cons, e]

theorem numbered_length {α : Type} (k : Int) (a : List (List α)) :
    (numbered k a).length = a.length := by
  induction a generalizing k with
  | nil => rfl
  | cons x xs ih => simp [numbered, ih]

theorem numbered_snd {α : Type} (k : Int) (a : List (List α)) :
    (numbered k a).map Prod.snd = a := by
  induction a generalizing k with
  | nil => rfl
  | cons x xs ih => simp [numbered, ih]

/-- From the index-wise hypothesis to the chain the loop follows; `j` pages
have been read already. -/
theorem chain_of_served {α : Type} (fetch : ListOptions → Fetched α) (T : Nat)
    (init : List (List α)) :
    ∀ (lastp : List α) (j : Nat), T = j + init.length + 1 →
      (∀ (k : Nat) (items : List α), (init ++ [lastp])[k]? = some items → ∃ resp,
        fetch { Page := ((j + k : Nat) : Int) + 1, PerPage := 10 } = .ok (items, resp) ∧
        resp.CurrentPage = ((j + k : Nat) : Int) + 1 ∧ resp.TotalPages = (T : Int) ∧
        (j + k + 1 < T → resp.NextPage = ((j + k : Nat) : Int) + 2)) →
      Chain fetch { Page := (j : Int) + 1, PerPage := 10 } (numbered ((j : Int) + 1) init)
          { Page := (T : Int), PerPage := 10 } ∧
        ∃ resp, fetch { Page := (T : Int), PerPage := 10 } = .ok (lastp, resp) ∧
          resp.CurrentPage ≥ resp.TotalPages := by
  induction init with
  | nil =>
    intro lastp j hT h
    obtain ⟨resp, hf, hc, ht, _⟩ := h 0 lastp (by simp)
    simp only [List.length_nil] at hT
    have hpage : ((j + 0 : Nat) : Int) + 1 = (T : Int) := by subst hT; push_cast; ring
    rw [hpage] at hf hc
    refine ⟨?_, resp, hf, ?_⟩
    · simp only [numbered, Chain]
      subst hT
      congr 1
    · omega
  | cons x xs ih =>
    intro lastp j hT h
    obtain ⟨resp, hf, hc, ht, hn⟩ := h 0 x (by simp)
    simp only [List.length_cons] at hT
    have h0 : ((j + 0 : Nat) : Int) = (j : Int) := by simp
    rw [h0] at hf hc hn
    have hnext := hn (by omega)
    have hrec := ih lastp (j + 1) (by omega) (by
      intro k items hk
      obtain ⟨r, h1, h2, h3, h4⟩ := h (k + 1) items (by simpa using hk)
      have e : ((j + (k + 1) : Nat) : Int) = ((j + 1 + k : Nat) : Int) := by
        congr 1; omega
      rw [e] at h1 h2 h4
      exact ⟨r, h1, h2, h3, fun hh => h4 (by omega)⟩)
    obtain ⟨hchain, hlast⟩ := hrec
    refine ⟨?_, hlast⟩
    simp only [numbered, Chain, true_and]
    refine ⟨resp, hf, by omega, ?_⟩
    have e1 : resp.NextPage = ((j + 1 : Nat) : Int) + 1 := by rw [hnext]; push_cast; ring
    have e2 : (j : Int) + 1 + 1 = ((j + 1 : Nat) : Int) + 1 := by push_cast; ring
    rw [e1, e2]
    exact hchain

theorem pageLoop_served {α : Type} (fetch : ListOptions → Fetched α) (mk : ListOptions → Call)
    (body : List α → World → Run (Option Error)) (δ : List α → Delta) (pages : List (List α))
    (hs : ServesPagesInOrder fetch pages)
    (hb : ∀ items ∈ pages, ∀ w, body items w = .ok (none, w.add (δ items)))
    (fuel : Nat) (hfuel : pages.length ≤ fuel) (w : World) :
    pageLoop fetch mk body fuel defaultListOptions w
      = .ok (none, w.add (stepsDelta mk δ (numbered 1 pages))) := by
  obtain ⟨hne, hidx⟩ := hs
  obtain ⟨init, lastp, rfl⟩ : ∃ init lastp, pages = init ++ [lastp] :=
    ⟨pages.dropLast, pages.getLast hne, (List.dropLast_append_getLast hne).symm⟩
  have hT : (init ++ [lastp]).length = 0 + init.length + 1 := by simp
  obtain ⟨hchain, resp, hf, hlast⟩ :=
    chain_of_served fetch (init ++ [lastp]).length init lastp 0 hT (by
      intro k items hk
      obtain ⟨r, h1, h2, h3, h4⟩ := hidx k items hk
      have e : ((0 + k : Nat) : Int) = (k : Int) := by simp
      rw [e]
      exact ⟨r, h1, h2, h3, fun hh => h4 (by omega)⟩)
  obtain ⟨extra, rfl⟩ : ∃ extra, fuel = (numbered ((0 : Nat) + 1 : Int) init).length + (extra + 1) :=
    ⟨fuel - (init.length + 1), by
      rw [numbered_length]; simp only [List.length_append, List.length_singleton] at hfuel; omega⟩
  have hstart : defaultListOptions = { Page := ((0 : Nat) : Int) + 1, PerPage := 10 } := by
    simp [defaultListOptions]
  rw [hstart, pageLoop_chain fetch mk body δ _ _ _ w (extra + 1) hchain (by
    intro st hst w
    have hmem : st.2 ∈ (numbered ((0 : Nat) + 1 : Int) init).map Prod.snd :=
      List.mem_map_of_mem _ hst
    rw [numbered_snd] at hmem
    exact hb st.2 (List.mem_append_left _ hmem) w)]
  rw [pageLoop_last fetch mk body extra _ _ lastp resp (δ lastp) hf hlast
    (hb lastp (by simp))]
  rw [World.add_add, numbered_append, stepsDelta_append]
  have e : (1 : Int) + (init.length : Int) = (init.length : Int) + 1 := by ring
  simp [numbered, stepsDelta_cons, stepsDelta_nil, e]

/-! ## Lemmas: the loops on lists that are served page by page -/

theorem projectRecords_append (fs : List memberFilter) (p : Project) (a b : List ProjectMember) :
    projectRecords fs p (a ++ b) = projectRecords fs p a ++ projectRecords fs p b := by
  simp [projectRecords]

theorem groupRecords_append (fs : List memberFilter) (g : Group) (a b : List GroupMember) :
    groupRecords fs g (a ++ b) = groupRecords fs g a ++ groupRecords fs g b := by
  simp [groupRecords]

theorem stepsDelta_members {α : Type} (op : Op) (id : Int) (recs : List α → List genericMember)
    (hnil : recs [] = []) (happ : ∀ a b, recs (a ++ b) = recs a ++ recs b)
    (pages : List (List α)) (k : Int) :
    stepsDelta (mkCall op id) (fun items => Delta.print (recs items)) (numbered k pages)
      = { calls := pageCalls op id k pages.length, out := recs pages.flatten, spawned := [] } := by
  induction pages generalizing k with
  | nil => simp [numbered, stepsDelta_nil, Delta.zero, pageCalls, hnil]
  | cons x xs ih =>
    rw [numbered, stepsDelta_cons, ih]
    simp [pageCalls, happ, Delta.append_def, Delta.call, Delta.print]

theorem processProjectMembersPermissions_served (git : Client) (fs : List memberFilter)
    (p : Project) (pages : List (List ProjectMember))
    (hs : ServesPagesInOrder (git.ListProjectMembers p.ID) pages)
    (fuel : Nat) (hfuel : pages.length ≤ fuel) (w : World) :
    processProjectMembersPermissions git fs fuel p w
      = .ok (none, w.add (projectDrainDelta fs p pages)) := by
  rw [processProjectMembersPermissions, processProjectMembersPermissionsLoop_eq,
    pageLoop_served _ _ _ (fun items => Delta.print (projectRecords fs p items)) pages hs
      (fun items _ w => projectMembersBody_eq fs p items w) fuel hfuel w,
    stepsDelta_members _ _ (projectRecords fs p) rfl (projectRecords_append fs p)]
  rfl

theorem processGroupMembersPermissions_served (git : Client) (fs : List memberFilter)
    (g : Group) (pages : List (List GroupMember))
    (hs : ServesPagesInOrder (git.ListGroupMembers g.ID) pages)
    (fuel : Nat) (hfuel : pages.length ≤ fuel) (w : World) :
    processGroupMembersPermissions git fs fuel g w
      = .ok (none, w.add (groupDrainDelta fs g pages)) := by
  rw [processGroupMembersPermissions, processGroupMembersPermissionsLoop_eq,
    pageLoop_served _ _ _ (fun items => Delta.print (groupRecords fs g items)) pages hs
      (fun items _ w => groupMembersBody_eq fs g items w) fuel hfuel w,
    stepsDelta_members _ _ (groupRecords fs g) rfl (groupRecords_append fs g)]
  rfl

theorem processGroupProjectsRange_served (git : Client) (fs : List memberFilter)
    (mp : Project → List (List ProjectMember)) (fuel : Nat) (ps : List Project)
    (hs : ∀ p ∈ ps, ServesPagesInOrder (git.ListProjectMembers p.ID) (mp p) ∧
      (mp p).length ≤ fuel) (w : World) :
    processGroupProjectsRange git fs fuel ps w = .ok (none, w.add (projectsDelta fs mp ps)) := by
  induction ps generalizing w with
  | nil => simp [processGroupProjectsRange, projectsDelta, Delta.sum]
  | cons p ps ih =>
    obtain ⟨h1, h2⟩ := hs p (List.mem_cons_self _ _)
    simp only [processGroupProjectsRange,
      processProjectMembersPermissions_served git fs p (mp p) h1 fuel h2 w]
    rw [ih (fun q hq => hs q (List.mem_cons_of_mem _ hq))]
    simp [projectsDelta, Delta.sum]

theorem processGroupSubgroupsRange_served (git : Client) (fs : List memberFilter)
    (mg : Group → List (List GroupMember)) (fuel : Nat) (gs : List Group)
    (hs : ∀ g ∈ gs, ServesPagesInOrder (git.ListGroupMembers g.ID) (mg g) ∧
      (mg g).length ≤ fuel) (w : World) :
    processGroupSubgroupsRange git fs fuel gs w = .ok (none, w.add (subgroupsDelta fs mg gs)) := by
  induction gs generalizing w with
  | nil => simp [processGroupSubgroupsRange, subgroupsDelta]
  | cons g gs ih =>
    obtain ⟨h1, h2⟩ := hs g (List.mem_cons_self _ _)
    simp only [processGroupSubgroupsRange,
      processGroupMembersPermissions_served git fs g (mg g) h1 fuel h2 w]
    have e : ∀ v : World, { v with spawned := v.spawned ++ [{ started := g, later := gs }] }
        = v.add (Delta.go [{ started := g, later := gs }]) :=
      fun v => World.spawn_eq_add v _
    rw [e, ih (fun q hq => hs q (List.mem_cons_of_mem _ hq))]
    simp [subgroupsDelta, Delta.append_assoc]

theorem processGroupProjectsLoop_served (git : Client) (fs : List memberFilter)
    (mp : Project → List (List ProjectMember)) (grp : Group) (pages : List (List Project))
    (hs : ServesPagesInOrder (git.ListGroupProjects grp.ID) pages) (inner : Nat)
    (hm : ∀ p ∈ pages.flatten, ServesPagesInOrder (git.ListProjectMembers p.ID) (mp p) ∧
      (mp p).length ≤ inner)
    (fuel : Nat) (hfuel : pages.length ≤ fuel) (w : World) :
    processGroupProjectsLoop git fs inner grp fuel defaultListOptions w
      = .ok (none, w.add (stepsDelta (mkCall .ListGroupProjects grp.ID) (projectsDelta fs mp)
          (numbered 1 pages))) := by
  rw [processGroupProjectsLoop_eq]
  exact pageLoop_served _ _ _ (projectsDelta fs mp) pages hs
    (fun items hi w => processGroupProjectsRange_served git fs mp inner items
      (fun q hq => hm q (List.mem_flatten.mpr ⟨items, hi, hq⟩)) w) fuel hfuel w

theorem processGroupSubgroupsLoop_served (git : Client) (fs : List memberFilter)
    (mg : Group → List (List GroupMember)) (grp : Group) (pages : List (List Group))
    (hs : ServesPagesInOrder (git.ListSubgroups grp.ID) pages) (inner : Nat)
    (hm : ∀ g ∈ pages.flatten, ServesPagesInOrder (git.ListGroupMembers g.ID) (mg g) ∧
      (mg g).length ≤ inner)
    (fuel : Nat) (hfuel : pages.length ≤ fuel) (w : World) :
    processGroupSubgroupsLoop git fs inner grp fuel defaultListOptions w
      = .ok (none, w.add (stepsDelta (mkCall .ListSubgroups grp.ID) (subgroupsDelta fs mg)
          (numbered 1 pages))) := by
  rw [processGroupSubgroupsLoop_eq]
  exact pageLoop_served _ _ _ (subgroupsDelta fs mg) pages hs
    (fun items hi w => processGroupSubgroupsRange_served git fs mg inner items
      (fun q hq => hm q (List.mem_flatten.mpr ⟨items, hi, hq⟩)) w) fuel hfuel w

/-! ## The filter pipeline -/

theorem handleMemberRequired_eq_all (fs : List memberFilter) (mem : genericMember) :
    handleMemberRequired fs mem = fs.all (fun f => f mem) := by
  induction fs with
  | nil => rfl
  | cons f fs ih =>
    simp only [handleMemberRequired, List.all_cons, ih]
    cases f mem <;> simp

theorem all_perm {α : Type} (q : α → Bool) (a b : List α) (h : a.Perm b) : a.all q = b.all q := by
  rw [Bool.eq_iff_iff, List.all_eq_true, List.all_eq_true]
  exact ⟨fun hq x hx => hq x (h.mem_iff.mpr hx), fun hq x hx => hq x (h.mem_iff.mp hx)⟩

/-- C5. The `required` decision of the filter loop of `handleMember` is the
conjunction of all filters applied to the record (true for the empty list); it
is the same for every permutation of the filter list; and `handleMember` hands
the record it built to `printMember` exactly when that conjunction is true. -/
theorem filter_pipeline_is_conjunction (fs : List memberFilter) (mem : genericMember) :
    handleMemberRequired fs mem = fs.all (fun f => f mem) ∧
    handleMemberRequired [] mem = true ∧
    (∀ fs2 : List memberFilter, fs.Perm fs2 →
      handleMemberRequired fs2 mem = handleMemberRequired fs mem) ∧
    (∀ (c : Container) (m : Member) (w : World), handleMemberNormalise c m = some mem →
      handleMember fs c m w
        = .ok (if fs.all (fun f => f mem) = true then printMember mem w else w)) := by
  refine ⟨handleMemberRequired_eq_all fs mem, rfl, ?_, ?_⟩
  · intro fs2 hp
    rw [handleMemberRequired_eq_all, handleMemberRequired_eq_all]
    exact (all_perm _ _ _ hp).symm
  · intro c m w hn
    simp only [handleMember, hn, handleMemberRequired_eq_all]
    split <;> rfl

/-- C5, at two filters in both orders: the first rejects owners, the second
rejects the user `alice`; the record is `alice` with maintainer access. -/
theorem filter_pipeline_is_conjunction_witness :
    handleMemberRequired
        [fun m => !(m.Username == "alice"), fun m => !(m.AccessLevel == OwnerPermission)]
        { Username := "alice", AccessLevel := MaintainerPermission }
      = handleMemberRequired
        [fun m => !(m.AccessLevel == OwnerPermission), fun m => !(m.Username == "alice")]
        { Username := "alice", AccessLevel := MaintainerPermission } :=
  (filter_pipeline_is_conjunction
      [fun m => !(m.AccessLevel == OwnerPermission), fun m => !(m.Username == "alice")]
      { Username := "alice", AccessLevel := MaintainerPermission }).2.2.1
    [fun m => !(m.Username == "alice"), fun m => !(m.AccessLevel == OwnerPermission)]
    (List.Perm.swap _ _ [])

/-! ## Member normalisation -/

/-- C6. For a group with a group member and for a project with a project
member, `handleMember` builds the record of the reference definition: the kind,
the id and path of the container, the four member fields, and as URL the
`WebURL` of the container followed by the `group_members` search path and the
username for a group, by the `project_members` search path and the username
for a project. -/
theorem handleMember_builds_reference_record (g : Group) (gm : GroupMember) (p : Project)
    (pm : ProjectMember) :
    handleMemberNormalise (.group g) (.groupMember gm)
      = some { Type_ := "group"
               ContainerID := g.ID
               Path := g.FullPath
               Username := gm.Username
               UserId := gm.ID
               AccessLevel := gm.AccessLevel
               ExpiresAt := gm.ExpiresAt
               MembersSettingsURL := g.WebURL ++ "/-/group_members?search=" ++ gm.Username } ∧
    handleMemberNormalise (.project p) (.projectMember pm)
      = some { Type_ := "project"
               ContainerID := p.ID
               Path := p.PathWithNamespace
               Username := pm.Username
               UserId := pm.ID
               AccessLevel := pm.AccessLevel
               ExpiresAt := pm.ExpiresAt
               MembersSettingsURL := p.WebURL ++ "/-/project_members?search=" ++ pm.Username } :=
  ⟨rfl, rfl⟩

/-- C7, as stated, fails: with a project as container and a group member as
member the type assertion `member.(*gitlab.ProjectMember)` fails, and with a
group and a project member `member.(*gitlab.GroupMember)` fails; no record is
produced and `handleMember` does not return. -/
theorem handleMember_mismatch_panics :
    handleMemberNormalise (.project ⟨7, "acme/app", "https://gitlab.example/acme/app"⟩)
        (.groupMember ⟨1, "alice", 30, none⟩) = none ∧
    handleMemberNormalise (.group ⟨3, "acme", "https://gitlab.example/groups/acme"⟩)
        (.projectMember ⟨1, "alice", 30, none⟩) = none ∧
    handleMember [fun _ => true] (.project ⟨7, "acme/app", "https://gitlab.example/acme/app"⟩)
        (.groupMember ⟨1, "alice", 30, none⟩) World.start = .error .panic :=
  ⟨rfl, rfl, rfl⟩

/-- C7, amended. For the two combinations the program passes (a group with a
group member, a project with a project member) the normalisation step produces
exactly one record, of type "group" respectively "project", and `handleMember`
returns. -/
theorem handleMember_total_on_matching_kinds (fs : List memberFilter) (g : Group)
    (gm : GroupMember) (p : Project) (pm : ProjectMember) (w : World) :
    (∃ r, handleMemberNormalise (.group g) (.groupMember gm) = some r ∧ r.Type_ = "group") ∧
    (∃ r, handleMemberNormalise (.project p) (.projectMember pm) = some r ∧
      r.Type_ = "project") ∧
    (∃ w1, handleMember fs (.group g) (.groupMember gm) w = .ok w1) ∧
    (∃ w1, handleMember fs (.project p) (.projectMember pm) w = .ok w1) := by
  refine ⟨⟨_, rfl, rfl⟩, ⟨_, rfl, rfl⟩, ?_, ?_⟩
  · simp only [handleMember, handleMemberNormalise_group]
    split <;> exact ⟨_, rfl⟩
  · simp only [handleMember, handleMemberNormalise_project]
    split <;> exact ⟨_, rfl⟩

/-! ## The exclusion list -/

theorem startupLoop_fst (E : List String) (u0 : String) (fs : List FilterClosure) :
    (startupLoop E (u0, fs)).1 = E.getLast?.getD u0 := by
  induction E generalizing u0 fs with
  | nil => rfl
  | cons u us ih =>
    rw [startupLoop, ih]
    cases us <;> simp [List.getLast?]

theorem startupLoop_snd (E : List String) (u0 : String) (fs : List FilterClosure) :
    (startupLoop E (u0, fs)).2
      = fs ++ List.replicate E.length
          (fun username m => !(m.Username == username && m.AccessLevel == OwnerPermission)) := by
  induction E generalizing u0 fs with
  | nil => simp [startupLoop]
  | cons u us ih =>
    rw [startupLoop, ih]
    simp [List.replicate_succ]

/-- What the startup loop of `gitlabUserAudit` leaves behind: the pipeline
rejects a record exactly when its user is the last name of the exclusion list
and its access level is owner. -/
theorem filtersAfterStartup_rejects_iff (E : List String) (r : genericMember) :
    handleMemberRequired (filtersAfterStartup E) r = false ↔
      ∃ u, E.getLast? = some u ∧ r.Username = u ∧ r.AccessLevel = OwnerPermission := by
  rw [handleMemberRequired_eq_all, filtersAfterStartup]
  simp only [startupLoop_fst, startupLoop_snd, memberFilters]
  cases hE : E.getLast? with
  | none =>
    have : E = [] := by
      cases E with
      | nil => rfl
      | cons a as => simp [List.getLast?] at hE
    subst this
    simp
  | some u =>
    have hlen : E.length ≠ 0 := by
      intro h0
      have : E = [] := List.eq_nil_of_length_eq_zero h0
      subst this
      simp at hE
    obtain ⟨n, hn⟩ : ∃ n, E.length = n + 1 := ⟨E.length - 1, by omega⟩
    simp [hn, List.replicate_succ, List.all_replicate]
    tauto

/-- With a variable per iteration the pipeline would reject a record exactly
when its user is in the exclusion list and its access level is owner. -/
theorem filtersPerIteration_rejects_iff (E : List String) (r : genericMember) :
    handleMemberRequired (filtersPerIteration E) r = false ↔
      r.Username ∈ E ∧ r.AccessLevel = OwnerPermission := by
  rw [handleMemberRequired_eq_all, filtersPerIteration]
  induction E with
  | nil => simp
  | cons u us ih =>
    simp only [List.map_cons, List.all_cons, Bool.true_and, Bool.and_eq_false_imp] at ih ⊢
    simp only [List.mem_cons]
    constructor
    · intro h
      by_cases hu : r.Username = u ∧ r.AccessLevel = OwnerPermission
      · exact ⟨Or.inl hu.1, hu.2⟩
      · have h1 := ih.mp (h (by
          simp only [Bool.not_eq_true', Bool.and_eq_false_imp, beq_iff_eq, beq_eq_false_iff_ne,
            ne_eq, Bool.not_eq_eq_eq_not, Bool.not_false, Bool.and_eq_true, not_and] at hu ⊢
          simpa using hu))
        exact ⟨Or.inr h1.1, h1.2⟩
    · intro ⟨hmem, hown⟩ hfirst
      rcases hmem with h | h
      · simp [h, hown] at hfirst
      · exact ih.mpr ⟨h, hown⟩

/-- C4, evaluated on the code: with the exclusion list `alice`, `bob` the
record of `alice` with owner access passes the pipeline (it is reported), the
record of `bob` with owner access is rejected, and `alice` with maintainer
access passes. -/
theorem exclusion_only_last_username :
    handleMemberRequired (filtersAfterStartup ["alice", "bob"])
        { Username := "alice", AccessLevel := OwnerPermission } = true ∧
    handleMemberRequired (filtersAfterStartup ["alice", "bob"])
        { Username := "bob", AccessLevel := OwnerPermission } = false ∧
    handleMemberRequired (filtersAfterStartup ["alice", "bob"])
        { Username := "alice", AccessLevel := MaintainerPermission } = true := by
  decide

/-! ## Pagination exhaustiveness -/

theorem pageCalls_length (op : Op) (id : Int) (k : Int) (n : Nat) :
    (pageCalls op id k n).length = n := by
  induction n generalizing k with
  | zero => rfl
  | succ n ih => simp [pageCalls, ih]

theorem callsOf_append (op : Op) (a b : List Call) :
    callsOf op (a ++ b) = callsOf op a ++ callsOf op b := by
  simp [callsOf]

theorem callsOf_pageCalls_self (op : Op) (id : Int) (k : Int) (n : Nat) :
    callsOf op (pageCalls op id k n) = pageCalls op id k n := by
  induction n generalizing k with
  | zero => rfl
  | succ n ih =>
    have h := ih (k + 1)
    simp only [callsOf] at h
    simp [pageCalls, callsOf, mkCall, h]

theorem callsOf_pageCalls_other (op op2 : Op) (hne : op2 ≠ op) (id : Int) (k : Int) (n : Nat) :
    callsOf op (pageCalls op2 id k n) = [] := by
  induction n generalizing k with
  | zero => rfl
  | succ n ih =>
    have h := ih (k + 1)
    simp only [callsOf] at h
    simp [pageCalls, callsOf, mkCall, h, hne]

theorem Delta.sum_append (a b : List Delta) :
    Delta.sum (a ++ b) = Delta.sum a ++ Delta.sum b := by
  induction a with
  | nil => simp [Delta.sum]
  | cons d ds ih => simp [Delta.sum, ih, Delta.append_assoc]

theorem projectsDelta_out (fs : List memberFilter) (mp : Project → List (List ProjectMember))
    (ps : List Project) :
    (projectsDelta fs mp ps).out = ps.flatMap fun p => projectRecords fs p (mp p).flatten := by
  induction ps with
  | nil => rfl
  | cons p ps ih =>
    have h : projectsDelta fs mp (p :: ps)
        = projectDrainDelta fs p (mp p) ++ projectsDelta fs mp ps := rfl
    rw [h, Delta.append_out, ih]
    simp [projectDrainDelta]

theorem projectsDelta_spawned (fs : List memberFilter)
    (mp : Project → List (List ProjectMember)) (ps : List Project) :
    (projectsDelta fs mp ps).spawned = [] := by
  induction ps with
  | nil => rfl
  | cons p ps ih =>
    have h : projectsDelta fs mp (p :: ps)
        = projectDrainDelta fs p (mp p) ++ projectsDelta fs mp ps := rfl
    rw [h, Delta.append_spawned, ih]
    simp [projectDrainDelta]

theorem projectsDelta_callsOf (fs : List memberFilter)
    (mp : Project → List (List ProjectMember)) (ps : List Project) :
    callsOf .ListGroupProjects (projectsDelta fs mp ps).calls = [] := by
  induction ps with
  | nil => rfl
  | cons p ps ih =>
    have h : projectsDelta fs mp (p :: ps)
        = projectDrainDelta fs p (mp p) ++ projectsDelta fs mp ps := rfl
    rw [h, Delta.append_calls, callsOf_append, ih]
    have e1 : callsOf .ListGroupProjects (projectDrainDelta fs p (mp p)).calls = [] :=
      callsOf_pageCalls_other _ _ (by decide) _ _ _
    rw [e1]
    rfl

theorem subgroupsDelta_cons (fs : List memberFilter) (mg : Group → List (List GroupMember))
    (g : Group) (gs : List Group) :
    subgroupsDelta fs mg (g :: gs)
      = (groupDrainDelta fs g (mg g) ++ Delta.go [{ started := g, later := gs }])
        ++ subgroupsDelta fs mg gs := rfl

theorem subgroupsDelta_out (fs : List memberFilter) (mg : Group → List (List GroupMember))
    (gs : List Group) :
    (subgroupsDelta fs mg gs).out = gs.flatMap fun g => groupRecords fs g (mg g).flatten := by
  induction gs with
  | nil => rfl
  | cons g gs ih =>
    rw [subgroupsDelta_cons, Delta.append_out, ih]
    simp [groupDrainDelta, Delta.go]

theorem subgroupsDelta_spawned (fs : List memberFilter) (mg : Group → List (List GroupMember))
    (gs : List Group) :
    (subgroupsDelta fs mg gs).spawned = goroutinesOf gs := by
  induction gs with
  | nil => rfl
  | cons g gs ih =>
    rw [subgroupsDelta_cons, Delta.append_spawned, ih]
    simp [groupDrainDelta, Delta.go, goroutinesOf]

theorem subgroupsDelta_callsOf (fs : List memberFilter) (mg : Group → List (List GroupMember))
    (gs : List Group) :
    callsOf .ListSubgroups (subgroupsDelta fs mg gs).calls = [] := by
  induction gs with
  | nil => rfl
  | cons g gs ih =>
    rw [subgroupsDelta_cons, Delta.append_calls, callsOf_append, ih, Delta.append_calls,
      callsOf_append]
    have e1 : callsOf .ListSubgroups (groupDrainDelta fs g (mg g)).calls = [] :=
      callsOf_pageCalls_other _ _ (by decide) _ _ _
    have e2 : callsOf .ListSubgroups (Delta.go [{ started := g, later := gs }]).calls = [] := rfl
    rw [e1, e2]
    rfl

theorem goroutinesOf_started (gs : List Group) :
    (goroutinesOf gs).map Goroutine.started = gs := by
  induction gs with
  | nil => rfl
  | cons g gs ih => simp [goroutinesOf, ih]

theorem goroutinesOf_pages_started (pages : List (List Group)) :
    (pages.flatMap goroutinesOf).map Goroutine.started = pages.flatten := by
  induction pages with
  | nil => rfl
  | cons x xs ih => simp [goroutinesOf_started, ih]

theorem goroutinesOf_afterLoop (gs : List Group) (h : gs.length ≤ 1) :
    (goroutinesOf gs).map Goroutine.afterLoop = gs := by
  match gs, h with
  | [], _ => rfl
  | [g], _ => rfl
  | _ :: _ :: _, h => simp at h

theorem goroutinesOf_pages_afterLoop (pages : List (List Group))
    (h : ∀ page ∈ pages, page.length ≤ 1) :
    (pages.flatMap goroutinesOf).map Goroutine.afterLoop = pages.flatten := by
  induction pages with
  | nil => rfl
  | cons x xs ih =>
    rw [List.flatMap_cons, List.map_append, List.flatten_cons,
      goroutinesOf_afterLoop x (h x (List.mem_cons_self _ _)),
      ih (fun page hp => h page (List.mem_cons_of_mem _ hp))]

theorem stepsDelta_out {α : Type} (mk : ListOptions → Call) (δ : List α → Delta)
    (f : α → List genericMember) (hδ : ∀ items, (δ items).out = items.flatMap f)
    (pages : List (List α)) (k : Int) :
    (stepsDelta mk δ (numbered k pages)).out = pages.flatten.flatMap f := by
  induction pages generalizing k with
  | nil => rfl
  | cons x xs ih =>
    rw [numbered, stepsDelta_cons, Delta.append_out, ih]
    simp [hδ, Delta.call, List.flatMap_append]

theorem stepsDelta_spawned {α : Type} (mk : ListOptions → Call) (δ : List α → Delta)
    (f : List α → List Goroutine) (hδ : ∀ items, (δ items).spawned = f items)
    (pages : List (List α)) (k : Int) :
    (stepsDelta mk δ (numbered k pages)).spawned = pages.flatMap f := by
  induction pages generalizing k with
  | nil => rfl
  | cons x xs ih =>
    rw [numbered, stepsDelta_cons, Delta.append_spawned, ih]
    simp [hδ, Delta.call]

theorem stepsDelta_callsOf {α : Type} (op : Op) (id : Int) (δ : List α → Delta)
    (hδ : ∀ items, callsOf op (δ items).calls = [])
    (pages : List (List α)) (k : Int) :
    callsOf op (stepsDelta (mkCall op id) δ (numbered k pages)).calls
      = pageCalls op id k pages.length := by
  induction pages generalizing k with
  | nil => rfl
  | cons x xs ih =>
    rw [numbered, stepsDelta_cons, Delta.append_calls, callsOf_append, ih, Delta.append_calls,
      callsOf_append, hδ]
    simp [Delta.call, callsOf, mkCall, pageCalls]

theorem skippingClient_serves :
    ServesPages (skippingClient.ListProjectMembers appProject.ID)
      [[⟨1, "alice", 30, none⟩], [⟨2, "bob", 30, none⟩], [⟨3, "carol", 30, none⟩]] := by
  refine ⟨by simp, ?_⟩
  intro k items h
  match k, h with
  | 0, h =>
    simp only [List.getElem?_cons_zero, Option.some.injEq] at h
    subst h
    exact ⟨_, rfl, rfl, rfl⟩
  | 1, h =>
    simp only [List.getElem?_cons_succ, List.getElem?_cons_zero, Option.some.injEq] at h
    subst h
    exact ⟨_, rfl, rfl, rfl⟩
  | 2, h =>
    simp only [List.getElem?_cons_succ, List.getElem?_cons_zero, Option.some.injEq] at h
    subst h
    exact ⟨_, rfl, rfl, rfl⟩
  | k + 3, h => simp at h

theorem twoPageClient_serves :
    ServesPagesInOrder (twoPageClient.ListProjectMembers appProject.ID)
      [[⟨1, "alice", 30, none⟩], [⟨2, "bob", 30, none⟩]] := by
  refine ⟨by simp, ?_⟩
  intro k items h
  match k, h with
  | 0, h =>
    simp only [List.getElem?_cons_zero, Option.some.injEq] at h
    subst h
    exact ⟨_, rfl, rfl, rfl, fun _ => rfl⟩
  | 1, h =>
    simp only [List.getElem?_cons_succ, List.getElem?_cons_zero, Option.some.injEq] at h
    subst h
    exact ⟨_, rfl, rfl, rfl, fun hh => absurd hh (by decide)⟩
  | k + 2, h => simp at h

/-- C2, as stated, fails: the project-member list of `skippingClient` answers
the requests for pages 1, 2 and 3 without error, each with its own number as
current page and 3 as total pages, yet `processProjectMembersPermissions`
issues two calls, for pages 1 and 3, and handles two of the three members: the
member of page 2 is never fetched. -/
theorem pagination_follows_next_page :
    ServesPages (skippingClient.ListProjectMembers appProject.ID)
      [[⟨1, "alice", 30, none⟩], [⟨2, "bob", 30, none⟩], [⟨3, "carol", 30, none⟩]] ∧
    processProjectMembersPermissions skippingClient [fun _ => true] 3 appProject World.start
      = .ok (none,
          { calls := [⟨.ListProjectMembers, 7, ⟨1, 10⟩⟩, ⟨.ListProjectMembers, 7, ⟨3, 10⟩⟩]
            out := [projectRecord appProject ⟨1, "alice", 30, none⟩,
                    projectRecord appProject ⟨3, "carol", 30, none⟩]
            sem := 0
            wg := 0
            spawned := [] }) :=
  ⟨skippingClient_serves, rfl⟩

/-- C2, amended. Let a fetch operation answer the request for every page `k`
(`1 ≤ k ≤ T`, `T ≥ 1`) without error, report current page `k` and total pages
`T`, and announce `k + 1` as next page whenever `k < T`.  Then, given fuel for
`T` iterations, each of the four paging loops returns `nil`; its calls to that
list operation are exactly the requests for pages 1, 2, ..., `T` in this
order, with page size 10; and every item of every page is handled exactly
once, in order: a member drain passes every member to the filter pipeline once
(so with filters that accept everything the number of records printed is the
sum of the page sizes), the projects loop drains every project once and the
subgroups loop drains every subgroup once and starts exactly one goroutine for
it. -/
theorem pagination_exhaustive (git : Client) (fs : List memberFilter) :
    (∀ (p : Project) (pages : List (List ProjectMember)) (fuel : Nat) (w : World),
      ServesPagesInOrder (git.ListProjectMembers p.ID) pages → pages.length ≤ fuel →
      ∃ w1, processProjectMembersPermissions git fs fuel p w = .ok (none, w1) ∧
        w1.calls = w.calls ++ pageCalls .ListProjectMembers p.ID 1 pages.length ∧
        w1.calls.length = w.calls.length + pages.length ∧
        w1.out = w.out ++ (pages.flatten.map (projectRecord p)).filter (handleMemberRequired fs) ∧
        ((∀ m, handleMemberRequired fs m = true) →
          w1.out.length = w.out.length + (pages.map List.length).sum)) ∧
    (∀ (g : Group) (pages : List (List GroupMember)) (fuel : Nat) (w : World),
      ServesPagesInOrder (git.ListGroupMembers g.ID) pages → pages.length ≤ fuel →
      ∃ w1, processGroupMembersPermissions git fs fuel g w = .ok (none, w1) ∧
        w1.calls = w.calls ++ pageCalls .ListGroupMembers g.ID 1 pages.length ∧
        w1.calls.length = w.calls.length + pages.length ∧
        w1.out = w.out ++ (pages.flatten.map (groupRecord g)).filter (handleMemberRequired fs) ∧
        ((∀ m, handleMemberRequired fs m = true) →
          w1.out.length = w.out.length + (pages.map List.length).sum)) ∧
    (∀ (grp : Group) (pages : List (List Project)) (mp : Project → List (List ProjectMember))
      (inner fuel : Nat) (w : World),
      ServesPagesInOrder (git.ListGroupProjects grp.ID) pages →
      (∀ p ∈ pages.flatten, ServesPagesInOrder (git.ListProjectMembers p.ID) (mp p) ∧
        (mp p).length ≤ inner) →
      pages.length ≤ fuel →
      ∃ w1 cs, processGroupProjectsLoop git fs inner grp fuel defaultListOptions w
          = .ok (none, w1) ∧
        w1.calls = w.calls ++ cs ∧
        callsOf .ListGroupProjects cs = pageCalls .ListGroupProjects grp.ID 1 pages.length ∧
        w1.out = w.out ++ pages.flatten.flatMap (fun p => projectRecords fs p (mp p).flatten) ∧
        w1.spawned = w.spawned) ∧
    (∀ (grp : Group) (pages : List (List Group)) (mg : Group → List (List GroupMember))
      (inner fuel : Nat) (w : World),
      ServesPagesInOrder (git.ListSubgroups grp.ID) pages →
      (∀ g ∈ pages.flatten, ServesPagesInOrder (git.ListGroupMembers g.ID) (mg g) ∧
        (mg g).length ≤ inner) →
      pages.length ≤ fuel →
      ∃ w1 cs, processGroupSubgroupsLoop git fs inner grp fuel defaultListOptions w
          = .ok (none, w1) ∧
        w1.calls = w.calls ++ cs ∧
        callsOf .ListSubgroups cs = pageCalls .ListSubgroups grp.ID 1 pages.length ∧
        w1.out = w.out ++ pages.flatten.flatMap (fun g => groupRecords fs g (mg g).flatten) ∧
        w1.spawned = w.spawned ++ pages.flatMap goroutinesOf ∧
        w1.spawned.map Goroutine.started
          = w.spawned.map Goroutine.started ++ pages.flatten) := by
  refine ⟨?_, ?_, ?_, ?_⟩
  · intro p pages fuel w hs hfuel
    refine ⟨_, processProjectMembersPermissions_served git fs p pages hs fuel hfuel w, rfl, ?_,
      rfl, ?_⟩
    · simp [projectDrainDelta, pageCalls_length]
    · intro hall
      have hf : (pages.flatten.map (projectRecord p)).filter (handleMemberRequired fs)
          = pages.flatten.map (projectRecord p) :=
        List.filter_eq_self.mpr (fun m _ => hall m)
      rw [World.add_out, List.length_append]
      simp only [projectDrainDelta, projectRecords]
      rw [hf, List.length_map, List.length_flatten]
  · intro g pages fuel w hs hfuel
    refine ⟨_, processGroupMembersPermissions_served git fs g pages hs fuel hfuel w, rfl, ?_,
      rfl, ?_⟩
    · simp [groupDrainDelta, pageCalls_length]
    · intro hall
      have hf : (pages.flatten.map (groupRecord g)).filter (handleMemberRequired fs)
          = pages.flatten.map (groupRecord g) :=
        List.filter_eq_self.mpr (fun m _ => hall m)
      rw [World.add_out, List.length_append]
      simp only [groupDrainDelta, groupRecords]
      rw [hf, List.length_map, List.length_flatten]
  · intro grp pages mp inner fuel w hs hm hfuel
    refine ⟨_, _, processGroupProjectsLoop_served git fs mp grp pages hs inner hm fuel hfuel w,
      rfl, ?_, ?_, ?_⟩
    · exact stepsDelta_callsOf _ _ _ (projectsDelta_callsOf fs mp) pages 1
    · rw [World.add_out, stepsDelta_out _ _ _ (projectsDelta_out fs mp) pages 1]
    · rw [World.add_spawned, stepsDelta_spawned _ _ (fun _ => [])
        (projectsDelta_spawned fs mp) pages 1]
      simp
  · intro grp pages mg inner fuel w hs hm hfuel
    have hsp : (World.add w (stepsDelta (mkCall .ListSubgroups grp.ID) (subgroupsDelta fs mg)
        (numbered 1 pages))).spawned = w.spawned ++ pages.flatMap goroutinesOf := by
      rw [World.add_spawned, stepsDelta_spawned _ _ goroutinesOf
        (subgroupsDelta_spawned fs mg) pages 1]
    refine ⟨_, _, processGroupSubgroupsLoop_served git fs mg grp pages hs inner hm fuel hfuel w,
      rfl, ?_, ?_, hsp, ?_⟩
    · exact stepsDelta_callsOf _ _ _ (subgroupsDelta_callsOf fs mg) pages 1
    · rw [World.add_out, stepsDelta_out _ _ _ (subgroupsDelta_out fs mg) pages 1]
    · rw [hsp, List.map_append, goroutinesOf_pages_started]

/-- C2, amended, at a project-member list of two pages served in order: the
drain returns `nil` after exactly the two requests for pages 1 and 2. -/
theorem pagination_exhaustive_witness :
    ServesPagesInOrder (twoPageClient.ListProjectMembers appProject.ID)
      [[⟨1, "alice", 30, none⟩], [⟨2, "bob", 30, none⟩]] ∧
    ∃ w1, processProjectMembersPermissions twoPageClient [fun _ => true] 2 appProject World.start
        = .ok (none, w1) ∧
      w1.calls = World.start.calls ++ pageCalls .ListProjectMembers appProject.ID 1 2 ∧
      w1.calls.length = World.start.calls.length + 2 ∧
      w1.out = World.start.out ++
        (([[⟨1, "alice", 30, none⟩], [⟨2, "bob", 30, none⟩]] : List (List ProjectMember)).flatten.map
          (projectRecord appProject)).filter (handleMemberRequired [fun _ => true]) ∧
      ((∀ m, handleMemberRequired [fun _ => true] m = true) →
        w1.out.length = World.start.out.length +
          (([[⟨1, "alice", 30, none⟩], [⟨2, "bob", 30, none⟩]] :
            List (List ProjectMember)).map List.length).sum) :=
  ⟨twoPageClient_serves,
    (pagination_exhaustive twoPageClient [fun _ => true]).1 appProject
      [[⟨1, "alice", 30, none⟩], [⟨2, "bob", 30, none⟩]] 2 World.start twoPageClient_serves
      (by decide)⟩

/-! ## Errors of the paging loops -/

theorem pageLoop_fails {α : Type} (fetch : ListOptions → Fetched α) (mk : ListOptions → Call)
    (body : List α → World → Run (Option Error)) (δ : List α → Delta)
    (steps : List (ListOptions × List α)) (opts last : ListOptions) (e : Error)
    (hc : Chain fetch opts steps last)
    (hb : ∀ st ∈ steps, ∀ w, body st.2 w = .ok (none, w.add (δ st.2)))
    (he : fetch last = .error e) (fuel : Nat) (hfuel : steps.length + 1 ≤ fuel) (w : World) :
    pageLoop fetch mk body fuel opts w
      = .ok (some e, w.add (stepsDelta mk δ steps ++ Delta.call (mk last))) := by
  obtain ⟨extra, rfl⟩ : ∃ extra, fuel = steps.length + (extra + 1) :=
    ⟨fuel - (steps.length + 1), by omega⟩
  rw [pageLoop_chain fetch mk body δ steps opts last w (extra + 1) hc hb,
    pageLoop_error fetch mk body extra last _ e he, World.add_add]

theorem stepsDelta_members_steps {α : Type} (op : Op) (id : Int)
    (recs : List α → List genericMember)
    (hnil : recs [] = []) (happ : ∀ a b, recs (a ++ b) = recs a ++ recs b)
    (steps : List (ListOptions × List α)) :
    stepsDelta (mkCall op id) (fun items => Delta.print (recs items)) steps
      = { calls := steps.map (fun st => mkCall op id st.1)
          out := recs (steps.map Prod.snd).flatten
          spawned := [] } := by
  induction steps with
  | nil => simp [stepsDelta_nil, Delta.zero, hnil]
  | cons x xs ih =>
    rw [stepsDelta_cons, ih]
    simp [happ, Delta.append_def, Delta.call, Delta.print]

theorem processProjectMembersPermissions_fails (git : Client) (fs : List memberFilter)
    (p : Project) (steps : List (ListOptions × List ProjectMember)) (last : ListOptions)
    (e : Error) (hc : Chain (git.ListProjectMembers p.ID) defaultListOptions steps last)
    (he : git.ListProjectMembers p.ID last = .error e)
    (fuel : Nat) (hfuel : steps.length + 1 ≤ fuel) (w : World) :
    processProjectMembersPermissions git fs fuel p w
      = .ok (some e, w.add
          { calls := steps.map (fun st => mkCall .ListProjectMembers p.ID st.1)
              ++ [mkCall .ListProjectMembers p.ID last]
            out := projectRecords fs p (steps.map Prod.snd).flatten
            spawned := [] }) := by
  rw [processProjectMembersPermissions, processProjectMembersPermissionsLoop_eq,
    pageLoop_fails _ _ _ (fun items => Delta.print (projectRecords fs p items)) steps _ last e hc
      (fun st _ w => projectMembersBody_eq fs p st.2 w) he fuel hfuel w,
    stepsDelta_members_steps _ _ (projectRecords fs p) rfl (projectRecords_append fs p)]
  simp [Delta.append_def, Delta.call]

theorem processGroupMembersPermissions_fails (git : Client) (fs : List memberFilter)
    (g : Group) (steps : List (ListOptions × List GroupMember)) (last : ListOptions)
    (e : Error) (hc : Chain (git.ListGroupMembers g.ID) defaultListOptions steps last)
    (he : git.ListGroupMembers g.ID last = .error e)
    (fuel : Nat) (hfuel : steps.length + 1 ≤ fuel) (w : World) :
    processGroupMembersPermissions git fs fuel g w
      = .ok (some e, w.add
          { calls := steps.map (fun st => mkCall .ListGroupMembers g.ID st.1)
              ++ [mkCall .ListGroupMembers g.ID last]
            out := groupRecords fs g (steps.map Prod.snd).flatten
            spawned := [] }) := by
  rw [processGroupMembersPermissions, processGroupMembersPermissionsLoop_eq,
    pageLoop_fails _ _ _ (fun items => Delta.print (groupRecords fs g items)) steps _ last e hc
      (fun st _ w => groupMembersBody_eq fs g st.2 w) he fuel hfuel w,
    stepsDelta_members_steps _ _ (groupRecords fs g) rfl (groupRecords_append fs g)]
  simp [Delta.append_def, Delta.call]

/-! ## What holds of every run of the loops -/

theorem pageLoop_rel {α : Type} (fetch : ListOptions → Fetched α) (mk : ListOptions → Call)
    (body : List α → World → Run (Option Error)) (R : World → Option Error → World → Prop)
    (hok : ∀ w opts items resp, fetch opts = .ok (items, resp) → R w none (w.logCall (mk opts)))
    (herr : ∀ w opts e, fetch opts = .error e → R w (some e) (w.logCall (mk opts)))
    (hbody : ∀ items w r w1, body items w = .ok (r, w1) → R w r w1)
    (htrans : ∀ w w1 w2 r, R w none w1 → R w1 r w2 → R w r w2) :
    ∀ (fuel : Nat) (opts : ListOptions) (w : World) (r : Option Error) (w1 : World),
      pageLoop fetch mk body fuel opts w = .ok (r, w1) → R w r w1 := by
  intro fuel
  induction fuel with
  | zero =>
    intro opts w r w1 h
    simp [pageLoop] at h
  | succ n ih =>
    intro opts w r w1 h
    simp only [pageLoop] at h
    cases hf : fetch opts with
    | error e =>
      rw [hf] at h
      simp only [Except.ok.injEq, Prod.mk.injEq] at h
      obtain ⟨h1, h2⟩ := h
      subst h1; subst h2
      exact herr w opts e hf
    | ok res =>
      obtain ⟨items, resp⟩ := res
      rw [hf] at h
      simp only at h
      have h0 := hok w opts items resp hf
      cases hb : body items (w.logCall (mk opts)) with
      | error a =>
        rw [hb] at h
        simp at h
      | ok rw1 =>
        obtain ⟨r1, v⟩ := rw1
        rw [hb] at h
        have hbv := hbody items _ r1 v hb
        cases r1 with
        | some e1 =>
          simp only [Except.ok.injEq, Prod.mk.injEq] at h
          obtain ⟨h1, h2⟩ := h
          subst h1; subst h2
          exact htrans _ _ _ _ h0 hbv
        | none =>
          simp only at h
          have h01 := htrans _ _ _ _ h0 hbv
          by_cases hlast : resp.CurrentPage ≥ resp.TotalPages
          · rw [if_pos hlast] at h
            simp only [Except.ok.injEq, Prod.mk.injEq] at h
            obtain ⟨h1, h2⟩ := h
            subst h1; subst h2
            exact h01
          · rw [if_neg hlast] at h
            exact htrans _ _ _ _ h01 (ih _ _ _ _ h)

theorem TraceOK.append (git : Client) (a b : List Call) (r : Option Error)
    (ha : TraceOK git a none) (hb : TraceOK git b r) : TraceOK git (a ++ b) r := by
  cases r with
  | none =>
    intro c hc
    rcases List.mem_append.mp hc with h | h
    · exact ha c h
    · exact hb c h
  | some e =>
    obtain ⟨pre, c, h1, h2, h3⟩ := hb
    refine ⟨a ++ pre, c, by rw [h1, List.append_assoc], ?_, h3⟩
    intro x hx
    rcases List.mem_append.mp hx with h | h
    · exact ha x h
    · exact h2 x h

theorem Sound.refl (git : Client) (w : World) : Sound git w none w :=
  ⟨rfl, rfl, [], by simp, fun _ h => by simp at h⟩

theorem Sound.trans (git : Client) (w w1 w2 : World) (r : Option Error)
    (h1 : Sound git w none w1) (h2 : Sound git w1 r w2) : Sound git w r w2 := by
  obtain ⟨a1, a2, cs1, a3, a4⟩ := h1
  obtain ⟨b1, b2, cs2, b3, b4⟩ := h2
  exact ⟨b1.trans a1, b2.trans a2, cs1 ++ cs2, by rw [b3, a3, List.append_assoc],
    TraceOK.append git cs1 cs2 r a4 b4⟩

theorem Sound.call_ok (git : Client) (w : World) (c : Call) (h : git.answer c = none) :
    Sound git w none (w.logCall c) :=
  ⟨rfl, rfl, [c], rfl, fun x hx => by
    have : x = c := by simpa using hx
    rw [this]; exact h⟩

theorem Sound.call_error (git : Client) (w : World) (c : Call) (e : Error)
    (h : git.answer c = some e) : Sound git w (some e) (w.logCall c) :=
  ⟨rfl, rfl, [c], rfl, [], c, rfl, fun _ hx => by simp at hx, h⟩

theorem Sound.print (git : Client) (w : World) (ms : List genericMember) :
    Sound git w none (w.add (Delta.print ms)) :=
  ⟨rfl, rfl, [], by simp [Delta.print], fun _ h => by simp at h⟩

theorem Sound.spawn (git : Client) (w w1 : World) (r : Option Error) (g : Goroutine)
    (h : Sound git w r w1) : Sound git w r { w1 with spawned := w1.spawned ++ [g] } := h

theorem processProjectMembersPermissions_sound (git : Client) (fs : List memberFilter)
    (fuel : Nat) (p : Project) (w : World) (r : Option Error) (w1 : World)
    (h : processProjectMembersPermissions git fs fuel p w = .ok (r, w1)) : Sound git w r w1 := by
  rw [processProjectMembersPermissions, processProjectMembersPermissionsLoop_eq] at h
  refine pageLoop_rel _ _ _ (Sound git) ?_ ?_ ?_ (Sound.trans git) fuel _ w r w1 h
  · intro v opts items resp hf
    exact Sound.call_ok git v _ (by simp [Client.answer, mkCall, hf])
  · intro v opts e hf
    exact Sound.call_error git v _ e (by simp [Client.answer, mkCall, hf])
  · intro items v r1 v1 hb
    rw [projectMembersBody_eq] at hb
    simp only [Except.ok.injEq, Prod.mk.injEq] at hb
    obtain ⟨h1, h2⟩ := hb
    subst h1; subst h2
    exact Sound.print git v _

theorem processGroupMembersPermissions_sound (git : Client) (fs : List memberFilter)
    (fuel : Nat) (g : Group) (w : World) (r : Option Error) (w1 : World)
    (h : processGroupMembersPermissions git fs fuel g w = .ok (r, w1)) : Sound git w r w1 := by
  rw [processGroupMembersPermissions, processGroupMembersPermissionsLoop_eq] at h
  refine pageLoop_rel _ _ _ (Sound git) ?_ ?_ ?_ (Sound.trans git) fuel _ w r w1 h
  · intro v opts items resp hf
    exact Sound.call_ok git v _ (by simp [Client.answer, mkCall, hf])
  · intro v opts e hf
    exact Sound.call_error git v _ e (by simp [Client.answer, mkCall, hf])
  · intro items v r1 v1 hb
    rw [groupMembersBody_eq] at hb
    simp only [Except.ok.injEq, Prod.mk.injEq] at hb
    obtain ⟨h1, h2⟩ := hb
    subst h1; subst h2
    exact Sound.print git v _

theorem processGroupProjectsRange_sound (git : Client) (fs : List memberFilter) (fuel : Nat)
    (ps : List Project) :
    ∀ (w : World) (r : Option Error) (w1 : World),
      processGroupProjectsRange git fs fuel ps w = .ok (r, w1) → Sound git w r w1 := by
  induction ps with
  | nil =>
    intro w r w1 h
    simp only [processGroupProjectsRange, Except.ok.injEq, Prod.mk.injEq] at h
    obtain ⟨h1, h2⟩ := h
    subst h1; subst h2
    exact Sound.refl git w
  | cons p ps ih =>
    intro w r w1 h
    simp only [processGroupProjectsRange] at h
    cases hd : processProjectMembersPermissions git fs fuel p w with
    | error a =>
      rw [hd] at h
      simp at h
    | ok rv =>
      obtain ⟨r1, v⟩ := rv
      rw [hd] at h
      have hs := processProjectMembersPermissions_sound git fs fuel p w r1 v hd
      cases r1 with
      | some e1 =>
        simp only [Except.ok.injEq, Prod.mk.injEq] at h
        obtain ⟨h1, h2⟩ := h
        subst h1; subst h2
        exact hs
      | none =>
        simp only at h
        exact Sound.trans git _ _ _ _ hs (ih _ _ _ h)

theorem processGroupSubgroupsRange_sound (git : Client) (fs : List memberFilter) (fuel : Nat)
    (gs : List Group) :
    ∀ (w : World) (r : Option Error) (w1 : World),
      processGroupSubgroupsRange git fs fuel gs w = .ok (r, w1) → Sound git w r w1 := by
  induction gs with
  | nil =>
    intro w r w1 h
    simp only [processGroupSubgroupsRange, Except.ok.injEq, Prod.mk.injEq] at h
    obtain ⟨h1, h2⟩ := h
    subst h1; subst h2
    exact Sound.refl git w
  | cons g gs ih =>
    intro w r w1 h
    simp only [processGroupSubgroupsRange] at h
    cases hd : processGroupMembersPermissions git fs fuel g w with
    | error a =>
      rw [hd] at h
      simp at h
    | ok rv =>
      obtain ⟨r1, v⟩ := rv
      rw [hd] at h
      have hs := processGroupMembersPermissions_sound git fs fuel g w r1 v hd
      cases r1 with
      | some e1 =>
        simp only [Except.ok.injEq, Prod.mk.injEq] at h
        obtain ⟨h1, h2⟩ := h
        subst h1; subst h2
        exact hs
      | none =>
        simp only at h
        exact Sound.trans git _ _ _ _ (Sound.spawn git _ _ _ _ hs) (ih _ _ _ h)

theorem processGroupProjectsLoop_sound (git : Client) (fs : List memberFilter) (inner : Nat)
    (grp : Group) (fuel : Nat) (opts : ListOptions) (w : World) (r : Option Error) (w1 : World)
    (h : processGroupProjectsLoop git fs inner grp fuel opts w = .ok (r, w1)) :
    Sound git w r w1 := by
  rw [processGroupProjectsLoop_eq] at h
  refine pageLoop_rel _ _ _ (Sound git) ?_ ?_ ?_ (Sound.trans git) fuel _ w r w1 h
  · intro v o items resp hf
    exact Sound.call_ok git v _ (by simp [Client.answer, mkCall, hf])
  · intro v o e hf
    exact Sound.call_error git v _ e (by simp [Client.answer, mkCall, hf])
  · intro items v r1 v1 hb
    exact processGroupProjectsRange_sound git fs inner items v r1 v1 hb

theorem processGroupSubgroupsLoop_sound (git : Client) (fs : List memberFilter) (inner : Nat)
    (grp : Group) (fuel : Nat) (opts : ListOptions) (w : World) (r : Option Error) (w1 : World)
    (h : processGroupSubgroupsLoop git fs inner grp fuel opts w = .ok (r, w1)) :
    Sound git w r w1 := by
  rw [processGroupSubgroupsLoop_eq] at h
  refine pageLoop_rel _ _ _ (Sound git) ?_ ?_ ?_ (Sound.trans git) fuel _ w r w1 h
  · intro v o items resp hf
    exact Sound.call_ok git v _ (by simp [Client.answer, mkCall, hf])
  · intro v o e hf
    exact Sound.call_error git v _ e (by simp [Client.answer, mkCall, hf])
  · intro items v r1 v1 hb
    exact processGroupSubgroupsRange_sound git fs inner items v r1 v1 hb

/-- Every return of `processGroup`: the state the two loops started from is
the entry state with one more element in `sem` and `wg` one higher; the calls
match the returned value; before a `nil` return both counters are stepped back
and before an error return they are not. -/
theorem processGroup_returns (git : Client) (fs : List memberFilter) (fuel : Nat) (grp : Group)
    (w : World) (r : Option Error) (w1 : World)
    (h : processGroup git fs fuel grp w = .ok (r, w1)) :
    w.sem < 5 ∧ (∃ cs, w1.calls = w.calls ++ cs ∧ TraceOK git cs r) ∧
    (r = none → w1.sem = w.sem ∧ w1.wg = w.wg) ∧
    (∀ e, r = some e → w1.sem = w.sem + 1 ∧ w1.wg = w.wg + 1) := by
  simp only [processGroup] at h
  by_cases hfull : w.sem ≥ 5
  · rw [if_pos hfull] at h
    simp at h
  · rw [if_neg hfull] at h
    refine ⟨by omega, ?_⟩
    cases h1 : processGroupProjectsLoop git fs fuel grp fuel defaultListOptions
        { w with sem := w.sem + 1, wg := w.wg + 1 } with
    | error a =>
      rw [h1] at h
      simp at h
    | ok rv =>
      obtain ⟨r1, v⟩ := rv
      rw [h1] at h
      have s1 := processGroupProjectsLoop_sound git fs fuel grp fuel _ _ r1 v h1
      cases r1 with
      | some e1 =>
        simp only [Except.ok.injEq, Prod.mk.injEq] at h
        obtain ⟨e1r, e1w⟩ := h
        subst e1r; subst e1w
        obtain ⟨a1, a2, a3⟩ := s1
        exact ⟨a3, fun hn => by simp at hn, fun e _ => ⟨a1, a2⟩⟩
      | none =>
        simp only at h
        cases h2 : processGroupSubgroupsLoop git fs fuel grp fuel defaultListOptions v with
        | error a =>
          rw [h2] at h
          simp at h
        | ok rv2 =>
          obtain ⟨r2, v2⟩ := rv2
          rw [h2] at h
          have s2 := processGroupSubgroupsLoop_sound git fs fuel grp fuel _ _ r2 v2 h2
          obtain ⟨a1, a2, a3⟩ := Sound.trans git _ _ _ _ s1 s2
          cases r2 with
          | some e2 =>
            simp only [Except.ok.injEq, Prod.mk.injEq] at h
            obtain ⟨e2r, e2w⟩ := h
            subst e2r; subst e2w
            exact ⟨a3, fun hn => by simp at hn, fun e _ => ⟨a1, a2⟩⟩
          | none =>
            simp only [Except.ok.injEq, Prod.mk.injEq] at h
            obtain ⟨e2r, e2w⟩ := h
            subst e2r; subst e2w
            refine ⟨a3, fun _ => ⟨?_, ?_⟩, fun e he => by simp at he⟩
            · simp only [a1]; omega
            · simp only [a2]; omega

/-! ## Errors at any page and any item -/

theorem flatMap_const_nil {α β : Type} (l : List α) :
    l.flatMap (fun _ => ([] : List β)) = [] := by
  induction l with
  | nil => rfl
  | cons a as ih => simp [ih]

theorem pageLoop_body_error {α : Type} (fetch : ListOptions → Fetched α)
    (mk : ListOptions → Call) (body : List α → World → Run (Option Error)) (fuel : Nat)
    (opts : ListOptions) (w : World) (items : List α) (resp : Response) (e : Error) (d : Delta)
    (h : fetch opts = .ok (items, resp))
    (hb : ∀ w, body items w = .ok (some e, w.add d)) :
    pageLoop fetch mk body (fuel + 1) opts w
      = .ok (some e, w.add (Delta.call (mk opts) ++ d)) := by
  simp [pageLoop, h, World.logCall_eq_add, hb]

theorem pageLoop_prefix {α : Type} (fetch : ListOptions → Fetched α) (mk : ListOptions → Call)
    (body : List α → World → Run (Option Error)) (g : List α → List Group)
    (steps : List (ListOptions × List α)) :
    ∀ (opts last : ListOptions), Chain fetch opts steps last →
      (∀ st ∈ steps, ∃ d : Delta, d.spawned.map Goroutine.started = g st.2 ∧
        ∀ w, body st.2 w = .ok (none, w.add d)) →
      ∃ D : Delta, D.spawned.map Goroutine.started = steps.flatMap (fun st => g st.2) ∧
        ∀ (w : World) (fuel : Nat),
          pageLoop fetch mk body (steps.length + fuel) opts w
            = pageLoop fetch mk body fuel last (w.add D) := by
  induction steps with
  | nil =>
    intro opts last hc _
    simp only [Chain] at hc
    subst hc
    exact ⟨Delta.zero, rfl, fun w fuel => by simp⟩
  | cons st rest ih =>
    intro opts last hc hb
    obtain ⟨_, resp, hf, hlt, hrest⟩ := hc
    obtain ⟨d, hd1, hd2⟩ := hb st (List.mem_cons_self _ _)
    obtain ⟨D, hD1, hD2⟩ := ih _ last hrest (fun s hs => hb s (List.mem_cons_of_mem _ hs))
    refine ⟨(Delta.call (mk opts) ++ d) ++ D, ?_, ?_⟩
    · simp [Delta.call, hd1, hD1]
    · intro w fuel
      have hnot : ¬ resp.CurrentPage ≥ resp.TotalPages := by omega
      have hlen : (st :: rest).length + fuel = (rest.length + fuel) + 1 := by
        simp only [List.length_cons]; omega
      rw [hlen]
      simp only [pageLoop, hf, World.logCall_eq_add, hd2, hnot, if_false]
      rw [hD2]
      simp [Delta.append_assoc]

theorem pageLoop_prefix_error {α : Type} (fetch : ListOptions → Fetched α)
    (mk : ListOptions → Call) (body : List α → World → Run (Option Error))
    (g : List α → List Group) (steps : List (ListOptions × List α)) (opts last : ListOptions)
    (e : Error) (hc : Chain fetch opts steps last)
    (hb : ∀ st ∈ steps, ∃ d : Delta, d.spawned.map Goroutine.started = g st.2 ∧
      ∀ w, body st.2 w = .ok (none, w.add d))
    (he : fetch last = .error e) (fuel : Nat) (hfuel : steps.length + 1 ≤ fuel) :
    ∃ (D : Delta) (cs : List Call), D.calls = cs ++ [mk last] ∧
      D.spawned.map Goroutine.started = steps.flatMap (fun st => g st.2) ∧
      ∀ w, pageLoop fetch mk body fuel opts w = .ok (some e, w.add D) := by
  obtain ⟨D, hD1, hD2⟩ := pageLoop_prefix fetch mk body g steps opts last hc hb
  obtain ⟨extra, rfl⟩ : ∃ extra, fuel = steps.length + (extra + 1) :=
    ⟨fuel - (steps.length + 1), by omega⟩
  refine ⟨D ++ Delta.call (mk last), D.calls, by simp [Delta.call], by simp [Delta.call, hD1],
    ?_⟩
  intro w
  rw [hD2, pageLoop_error fetch mk body extra last _ e he, World.add_add]

theorem pageLoop_prefix_body_error {α : Type} (fetch : ListOptions → Fetched α)
    (mk : ListOptions → Call) (body : List α → World → Run (Option Error))
    (g : List α → List Group) (steps : List (ListOptions × List α)) (opts last : ListOptions)
    (items : List α) (resp : Response) (e : Error) (c : Call) (gl : List Group)
    (hc : Chain fetch opts steps last)
    (hb : ∀ st ∈ steps, ∃ d : Delta, d.spawned.map Goroutine.started = g st.2 ∧
      ∀ w, body st.2 w = .ok (none, w.add d))
    (hf : fetch last = .ok (items, resp))
    (hbe : ∃ (d : Delta) (cs : List Call), d.calls = cs ++ [c] ∧
      d.spawned.map Goroutine.started = gl ∧ ∀ w, body items w = .ok (some e, w.add d))
    (fuel : Nat) (hfuel : steps.length + 1 ≤ fuel) :
    ∃ (D : Delta) (cs : List Call), D.calls = cs ++ [c] ∧
      D.spawned.map Goroutine.started = steps.flatMap (fun st => g st.2) ++ gl ∧
      ∀ w, pageLoop fetch mk body fuel opts w = .ok (some e, w.add D) := by
  obtain ⟨D, hD1, hD2⟩ := pageLoop_prefix fetch mk body g steps opts last hc hb
  obtain ⟨d, cs0, hd1, hd2, hd3⟩ := hbe
  obtain ⟨extra, rfl⟩ : ∃ extra, fuel = steps.length + (extra + 1) :=
    ⟨fuel - (steps.length + 1), by omega⟩
  refine ⟨D ++ (Delta.call (mk last) ++ d), D.calls ++ mk last :: cs0, ?_, ?_, ?_⟩
  · simp [Delta.call, hd1]
  · simp [Delta.call, hD1, hd2]
  · intro w
    rw [hD2, pageLoop_body_error fetch mk body extra last _ items resp e d hf hd3,
      World.add_add]

theorem pageLoop_prefix_done {α : Type} (fetch : ListOptions → Fetched α)
    (mk : ListOptions → Call) (body : List α → World → Run (Option Error))
    (g : List α → List Group) (steps : List (ListOptions × List α)) (opts last : ListOptions)
    (items : List α) (resp : Response)
    (hc : Chain fetch opts steps last)
    (hb : ∀ st ∈ steps, ∃ d : Delta, d.spawned.map Goroutine.started = g st.2 ∧
      ∀ w, body st.2 w = .ok (none, w.add d))
    (hf : fetch last = .ok (items, resp)) (hlast : resp.CurrentPage ≥ resp.TotalPages)
    (hbl : ∃ d : Delta, d.spawned.map Goroutine.started = g items ∧
      ∀ w, body items w = .ok (none, w.add d))
    (fuel : Nat) (hfuel : steps.length + 1 ≤ fuel) :
    ∃ D : Delta,
      D.spawned.map Goroutine.started = steps.flatMap (fun st => g st.2) ++ g items ∧
      ∀ w, pageLoop fetch mk body fuel opts w = .ok (none, w.add D) := by
  obtain ⟨D, hD1, hD2⟩ := pageLoop_prefix fetch mk body g steps opts last hc hb
  obtain ⟨d, hd1, hd2⟩ := hbl
  obtain ⟨extra, rfl⟩ : ∃ extra, fuel = steps.length + (extra + 1) :=
    ⟨fuel - (steps.length + 1), by omega⟩
  refine ⟨D ++ (Delta.call (mk last) ++ d), by simp [Delta.call, hD1, hd1], ?_⟩
  intro w
  rw [hD2, pageLoop_last fetch mk body extra last _ items resp d hf hlast hd2, World.add_add]

theorem projectMembers_answered (git : Client) (fs : List memberFilter) (fuel : Nat)
    (p : Project) (h : ProjectMembersAnswered git fuel p) :
    ∃ d : Delta, d.spawned.map Goroutine.started = [] ∧
      ∀ v, processProjectMembersPermissions git fs fuel p v = .ok (none, v.add d) := by
  obtain ⟨steps, last, items, resp, hc, hf, hlast, hfuel⟩ := h
  obtain ⟨D, hD1, hD2⟩ := pageLoop_prefix_done (git.ListProjectMembers p.ID)
    (mkCall .ListProjectMembers p.ID) (projectMembersBody fs p) (fun _ => []) steps _ last
    items resp hc
    (fun st _ => ⟨Delta.print (projectRecords fs p st.2), rfl,
      fun w => projectMembersBody_eq fs p st.2 w⟩)
    hf hlast
    ⟨Delta.print (projectRecords fs p items), rfl, fun w => projectMembersBody_eq fs p items w⟩
    fuel hfuel
  refine ⟨D, by rw [hD1, flatMap_const_nil]; rfl, ?_⟩
  intro v
  rw [processProjectMembersPermissions, processProjectMembersPermissionsLoop_eq]
  exact hD2 v

theorem groupMembers_answered (git : Client) (fs : List memberFilter) (fuel : Nat)
    (g : Group) (h : GroupMembersAnswered git fuel g) :
    ∃ d : Delta, d.spawned.map Goroutine.started = [] ∧
      ∀ v, processGroupMembersPermissions git fs fuel g v = .ok (none, v.add d) := by
  obtain ⟨steps, last, items, resp, hc, hf, hlast, hfuel⟩ := h
  obtain ⟨D, hD1, hD2⟩ := pageLoop_prefix_done (git.ListGroupMembers g.ID)
    (mkCall .ListGroupMembers g.ID) (groupMembersBody fs g) (fun _ => []) steps _ last
    items resp hc
    (fun st _ => ⟨Delta.print (groupRecords fs g st.2), rfl,
      fun w => groupMembersBody_eq fs g st.2 w⟩)
    hf hlast
    ⟨Delta.print (groupRecords fs g items), rfl, fun w => groupMembersBody_eq fs g items w⟩
    fuel hfuel
  refine ⟨D, by rw [hD1, flatMap_const_nil]; rfl, ?_⟩
  intro v
  rw [processGroupMembersPermissions, processGroupMembersPermissionsLoop_eq]
  exact hD2 v

theorem projectsRange_answered (git : Client) (fs : List memberFilter) (fuel : Nat)
    (ps : List Project) (h : ∀ q ∈ ps, ProjectMembersAnswered git fuel q) :
    ∃ d : Delta, d.spawned.map Goroutine.started = [] ∧
      ∀ v, processGroupProjectsRange git fs fuel ps v = .ok (none, v.add d) := by
  induction ps with
  | nil => exact ⟨Delta.zero, rfl, fun v => by simp [processGroupProjectsRange]⟩
  | cons p ps ih =>
    obtain ⟨d1, h1, h2⟩ := projectMembers_answered git fs fuel p (h p (List.mem_cons_self _ _))
    obtain ⟨d2, h3, h4⟩ := ih (fun q hq => h q (List.mem_cons_of_mem _ hq))
    refine ⟨d1 ++ d2, by simp [h1, h3], ?_⟩
    intro v
    simp only [processGroupProjectsRange, h2, h4, World.add_add]

theorem projectsRange_fails (git : Client) (fs : List memberFilter) (fuel : Nat)
    (pre : List Project) (p : Project) (post : List Project)
    (steps : List (ListOptions × List ProjectMember)) (last : ListOptions) (e : Error)
    (h : ∀ q ∈ pre, ProjectMembersAnswered git fuel q)
    (hc : Chain (git.ListProjectMembers p.ID) defaultListOptions steps last)
    (he : git.ListProjectMembers p.ID last = .error e) (hfuel : steps.length + 1 ≤ fuel) :
    ∃ (d : Delta) (cs : List Call), d.calls = cs ++ [mkCall .ListProjectMembers p.ID last] ∧
      d.spawned.map Goroutine.started = [] ∧
      ∀ v, processGroupProjectsRange git fs fuel (pre ++ p :: post) v
        = .ok (some e, v.add d) := by
  induction pre with
  | nil =>
    refine ⟨{ calls := steps.map (fun st => mkCall .ListProjectMembers p.ID st.1)
                ++ [mkCall .ListProjectMembers p.ID last]
              out := projectRecords fs p (steps.map Prod.snd).flatten
              spawned := [] },
      steps.map (fun st => mkCall .ListProjectMembers p.ID st.1), rfl, rfl, ?_⟩
    intro v
    simp only [List.nil_append, processGroupProjectsRange,
      processProjectMembersPermissions_fails git fs p steps last e hc he fuel hfuel]
  | cons q pre ih =>
    obtain ⟨d1, h1, h2⟩ := projectMembers_answered git fs fuel q (h q (List.mem_cons_self _ _))
    obtain ⟨d2, cs, h3, h4, h5⟩ := ih (fun x hx => h x (List.mem_cons_of_mem _ hx))
    refine ⟨d1 ++ d2, d1.calls ++ cs, by simp [h3], by simp [h1, h4], ?_⟩
    intro v
    rw [List.cons_append, processGroupProjectsRange, h2]
    simp only
    rw [h5, World.add_add]

theorem subgroupsRange_answered (git : Client) (fs : List memberFilter) (fuel : Nat)
    (gs : List Group) (h : ∀ g ∈ gs, GroupMembersAnswered git fuel g) :
    ∃ d : Delta, d.spawned.map Goroutine.started = gs ∧
      ∀ v, processGroupSubgroupsRange git fs fuel gs v = .ok (none, v.add d) := by
  induction gs with
  | nil => exact ⟨Delta.zero, rfl, fun v => by simp [processGroupSubgroupsRange]⟩
  | cons g gs ih =>
    obtain ⟨d1, h1, h2⟩ := groupMembers_answered git fs fuel g (h g (List.mem_cons_self _ _))
    obtain ⟨d2, h3, h4⟩ := ih (fun q hq => h q (List.mem_cons_of_mem _ hq))
    refine ⟨(d1 ++ Delta.go [{ started := g, later := gs }]) ++ d2,
      by simp [h1, h3, Delta.go], ?_⟩
    intro v
    simp only [processGroupSubgroupsRange, h2, World.spawn_eq_add, h4, World.add_add]

theorem subgroupsRange_fails (git : Client) (fs : List memberFilter) (fuel : Nat)
    (pre : List Group) (g : Group) (post : List Group)
    (steps : List (ListOptions × List GroupMember)) (last : ListOptions) (e : Error)
    (h : ∀ q ∈ pre, GroupMembersAnswered git fuel q)
    (hc : Chain (git.ListGroupMembers g.ID) defaultListOptions steps last)
    (he : git.ListGroupMembers g.ID last = .error e) (hfuel : steps.length + 1 ≤ fuel) :
    ∃ (d : Delta) (cs : List Call), d.calls = cs ++ [mkCall .ListGroupMembers g.ID last] ∧
      d.spawned.map Goroutine.started = pre ∧
      ∀ v, processGroupSubgroupsRange git fs fuel (pre ++ g :: post) v
        = .ok (some e, v.add d) := by
  induction pre with
  | nil =>
    refine ⟨{ calls := steps.map (fun st => mkCall .ListGroupMembers g.ID st.1)
                ++ [mkCall .ListGroupMembers g.ID last]
              out := groupRecords fs g (steps.map Prod.snd).flatten
              spawned := [] },
      steps.map (fun st => mkCall .ListGroupMembers g.ID st.1), rfl, rfl, ?_⟩
    intro v
    simp only [List.nil_append, processGroupSubgroupsRange,
      processGroupMembersPermissions_fails git fs g steps last e hc he fuel hfuel]
  | cons q pre ih =>
    obtain ⟨d1, h1, h2⟩ := groupMembers_answered git fs fuel q (h q (List.mem_cons_self _ _))
    obtain ⟨d2, cs, h3, h4, h5⟩ := ih (fun x hx => h x (List.mem_cons_of_mem _ hx))
    refine ⟨(d1 ++ Delta.go [{ started := q, later := pre ++ g :: post }]) ++ d2,
      d1.calls ++ cs, by simp [h3, Delta.go], by simp [h1, h4, Delta.go], ?_⟩
    intro v
    rw [List.cons_append, processGroupSubgroupsRange, h2]
    simp only
    rw [World.spawn_eq_add, h5, World.add_add, World.add_add, Delta.append_assoc]

theorem projectsLoop_answered (git : Client) (fs : List memberFilter) (fuel : Nat) (grp : Group)
    (h : ProjectsAnswered git fuel grp) :
    ∃ D : Delta, D.spawned.map Goroutine.started = [] ∧
      ∀ v, processGroupProjectsLoop git fs fuel grp fuel defaultListOptions v
        = .ok (none, v.add D) := by
  obtain ⟨steps, last, items, resp, hc, hf, hlast, hfuel, hsteps, hitems⟩ := h
  obtain ⟨D, hD1, hD2⟩ := pageLoop_prefix_done (git.ListGroupProjects grp.ID)
    (mkCall .ListGroupProjects grp.ID) (processGroupProjectsRange git fs fuel) (fun _ => [])
    steps _ last items resp hc
    (fun st hst => projectsRange_answered git fs fuel st.2 (hsteps st hst))
    hf hlast (projectsRange_answered git fs fuel items hitems) fuel hfuel
  refine ⟨D, by rw [hD1, flatMap_const_nil]; rfl, ?_⟩
  intro v
  rw [processGroupProjectsLoop_eq]
  exact hD2 v

theorem processGroup_projects_error (git : Client) (fs : List memberFilter) (fuel : Nat)
    (grp : Group) (w : World) (hsem : w.sem < 5) (e : Error) (D : Delta)
    (h : ∀ v, processGroupProjectsLoop git fs fuel grp fuel defaultListOptions v
      = .ok (some e, v.add D)) :
    processGroup git fs fuel grp w
      = .ok (some e, ({ w with sem := w.sem + 1, wg := w.wg + 1 } : World).add D) := by
  have hnot : ¬ w.sem ≥ 5 := by omega
  simp only [processGroup, if_neg hnot, h]

theorem processGroup_subgroups_error (git : Client) (fs : List memberFilter) (fuel : Nat)
    (grp : Group) (w : World) (hsem : w.sem < 5) (e : Error) (D1 D2 : Delta)
    (h1 : ∀ v, processGroupProjectsLoop git fs fuel grp fuel defaultListOptions v
      = .ok (none, v.add D1))
    (h2 : ∀ v, processGroupSubgroupsLoop git fs fuel grp fuel defaultListOptions v
      = .ok (some e, v.add D2)) :
    processGroup git fs fuel grp w
      = .ok (some e, ({ w with sem := w.sem + 1, wg := w.wg + 1 } : World).add (D1 ++ D2)) := by
  have hnot : ¬ w.sem ≥ 5 := by omega
  simp only [processGroup, if_neg hnot, h1, h2, World.add_add]

theorem failingClient_chain :
    Chain (failingClient.ListProjectMembers appProject.ID) defaultListOptions
      [(⟨1, 10⟩, [⟨1, "alice", 30, none⟩])] ⟨2, 10⟩ :=
  ⟨rfl, _, rfl, by decide, rfl⟩

/-- C3. In each paging loop, when the first `k - 1` calls are answered without
error and with current page below total pages (every request after the first
asking for the page announced by the previous answer) and the `k`-th call is
answered with an error `e`, the loop, given fuel for `k` iterations, returns
exactly `e` and the failed request is the last call it issued; for the two
list loops of `processGroup` this is under the proviso that the member drains
of the earlier pages returned `nil`.  Whenever `processGroup` returns, from
whichever of its list operations or member drains the value comes, the calls
it issued match the returned value: with an error `e` every call but the last
was answered without error and the last call was answered with `e`.  When
the member drain of the first project, or (the projects loop having returned
`nil`) of the first subgroup, fails at its `k`-th call, `processGroup` returns
that error, the failed request is its last call, and no goroutine is started
for that subgroup.  In general (the last four parts), let the lists be
answered up to some point: the earlier pages of the project list and the
member lists of all projects on them, and then either that list fails on its
next page, or the member list of a project at any position of the next page
fails at its `k`-th call, the member lists of the projects before it on that
page being answered; or let the project list and all its member lists be
answered and the same happen in the subgroup list.  Then `processGroup`, given
fuel for the requests, returns exactly that error, the failed request is the
last call it issued, and goroutines have been started for the subgroups before
the failing one and for no other. -/
theorem pagination_short_circuit (git : Client) (fs : List memberFilter) :
    (∀ (p : Project) (steps : List (ListOptions × List ProjectMember)) (last : ListOptions)
      (e : Error) (fuel : Nat) (w : World),
      Chain (git.ListProjectMembers p.ID) defaultListOptions steps last →
      git.ListProjectMembers p.ID last = .error e → steps.length + 1 ≤ fuel →
      ∃ w1, processProjectMembersPermissions git fs fuel p w = .ok (some e, w1) ∧
        w1.calls = w.calls ++ steps.map (fun st => mkCall .ListProjectMembers p.ID st.1)
          ++ [mkCall .ListProjectMembers p.ID last]) ∧
    (∀ (g : Group) (steps : List (ListOptions × List GroupMember)) (last : ListOptions)
      (e : Error) (fuel : Nat) (w : World),
      Chain (git.ListGroupMembers g.ID) defaultListOptions steps last →
      git.ListGroupMembers g.ID last = .error e → steps.length + 1 ≤ fuel →
      ∃ w1, processGroupMembersPermissions git fs fuel g w = .ok (some e, w1) ∧
        w1.calls = w.calls ++ steps.map (fun st => mkCall .ListGroupMembers g.ID st.1)
          ++ [mkCall .ListGroupMembers g.ID last]) ∧
    (∀ (grp : Group) (steps : List (ListOptions × List Project)) (last : ListOptions)
      (e : Error) (δ : List Project → Delta) (inner fuel : Nat) (w : World),
      Chain (git.ListGroupProjects grp.ID) defaultListOptions steps last →
      (∀ st ∈ steps, ∀ v, processGroupProjectsRange git fs inner st.2 v
        = .ok (none, v.add (δ st.2))) →
      git.ListGroupProjects grp.ID last = .error e → steps.length + 1 ≤ fuel →
      ∃ w1 cs, processGroupProjectsLoop git fs inner grp fuel defaultListOptions w
          = .ok (some e, w1) ∧
        w1.calls = w.calls ++ cs ++ [mkCall .ListGroupProjects grp.ID last]) ∧
    (∀ (grp : Group) (steps : List (ListOptions × List Group)) (last : ListOptions)
      (e : Error) (δ : List Group → Delta) (inner fuel : Nat) (w : World),
      Chain (git.ListSubgroups grp.ID) defaultListOptions steps last →
      (∀ st ∈ steps, ∀ v, processGroupSubgroupsRange git fs inner st.2 v
        = .ok (none, v.add (δ st.2))) →
      git.ListSubgroups grp.ID last = .error e → steps.length + 1 ≤ fuel →
      ∃ w1 cs, processGroupSubgroupsLoop git fs inner grp fuel defaultListOptions w
          = .ok (some e, w1) ∧
        w1.calls = w.calls ++ cs ++ [mkCall .ListSubgroups grp.ID last]) ∧
    (∀ (grp : Group) (fuel : Nat) (w : World) (r : Option Error) (w1 : World),
      processGroup git fs fuel grp w = .ok (r, w1) →
      ∃ cs, w1.calls = w.calls ++ cs ∧ TraceOK git cs r) ∧
    (∀ (grp : Group) (p : Project) (ps : List Project) (resp : Response)
      (steps : List (ListOptions × List ProjectMember)) (last : ListOptions) (e : Error)
      (fuel : Nat) (w : World),
      w.sem < 5 →
      git.ListGroupProjects grp.ID defaultListOptions = .ok (p :: ps, resp) →
      Chain (git.ListProjectMembers p.ID) defaultListOptions steps last →
      git.ListProjectMembers p.ID last = .error e → steps.length + 1 ≤ fuel →
      ∃ w1, processGroup git fs fuel grp w = .ok (some e, w1) ∧
        w1.calls = w.calls ++ [mkCall .ListGroupProjects grp.ID defaultListOptions]
          ++ steps.map (fun st => mkCall .ListProjectMembers p.ID st.1)
          ++ [mkCall .ListProjectMembers p.ID last]) ∧
    (∀ (grp : Group) (g : Group) (gs : List Group) (resp : Response)
      (steps : List (ListOptions × List GroupMember)) (last : ListOptions) (e : Error)
      (fuel : Nat) (w w3 : World),
      w.sem < 5 →
      processGroupProjectsLoop git fs fuel grp fuel defaultListOptions
        { w with sem := w.sem + 1, wg := w.wg + 1 } = .ok (none, w3) →
      git.ListSubgroups grp.ID defaultListOptions = .ok (g :: gs, resp) →
      Chain (git.ListGroupMembers g.ID) defaultListOptions steps last →
      git.ListGroupMembers g.ID last = .error e → steps.length + 1 ≤ fuel →
      ∃ w1, processGroup git fs fuel grp w = .ok (some e, w1) ∧
        w1.calls = w3.calls ++ [mkCall .ListSubgroups grp.ID defaultListOptions]
          ++ steps.map (fun st => mkCall .ListGroupMembers g.ID st.1)
          ++ [mkCall .ListGroupMembers g.ID last] ∧
        w1.spawned = w3.spawned) ∧
    (∀ (grp : Group) (steps : List (ListOptions × List Project)) (last : ListOptions)
      (e : Error) (fuel : Nat) (w : World),
      w.sem < 5 →
      Chain (git.ListGroupProjects grp.ID) defaultListOptions steps last →
      (∀ st ∈ steps, ∀ q ∈ st.2, ProjectMembersAnswered git fuel q) →
      git.ListGroupProjects grp.ID last = .error e → steps.length + 1 ≤ fuel →
      ∃ w1 cs, processGroup git fs fuel grp w = .ok (some e, w1) ∧
        w1.calls = w.calls ++ cs ++ [mkCall .ListGroupProjects grp.ID last] ∧
        w1.spawned = w.spawned) ∧
    (∀ (grp : Group) (steps : List (ListOptions × List Project)) (last : ListOptions)
      (pre : List Project) (p : Project) (post : List Project) (resp : Response)
      (msteps : List (ListOptions × List ProjectMember)) (mlast : ListOptions)
      (e : Error) (fuel : Nat) (w : World),
      w.sem < 5 →
      Chain (git.ListGroupProjects grp.ID) defaultListOptions steps last →
      (∀ st ∈ steps, ∀ q ∈ st.2, ProjectMembersAnswered git fuel q) →
      git.ListGroupProjects grp.ID last = .ok (pre ++ p :: post, resp) →
      (∀ q ∈ pre, ProjectMembersAnswered git fuel q) →
      Chain (git.ListProjectMembers p.ID) defaultListOptions msteps mlast →
      git.ListProjectMembers p.ID mlast = .error e →
      steps.length + 1 ≤ fuel → msteps.length + 1 ≤ fuel →
      ∃ w1 cs, processGroup git fs fuel grp w = .ok (some e, w1) ∧
        w1.calls = w.calls ++ cs ++ [mkCall .ListProjectMembers p.ID mlast] ∧
        w1.spawned = w.spawned) ∧
    (∀ (grp : Group) (steps : List (ListOptions × List Group)) (last : ListOptions)
      (e : Error) (fuel : Nat) (w : World),
      w.sem < 5 → ProjectsAnswered git fuel grp →
      Chain (git.ListSubgroups grp.ID) defaultListOptions steps last →
      (∀ st ∈ steps, ∀ q ∈ st.2, GroupMembersAnswered git fuel q) →
      git.ListSubgroups grp.ID last = .error e → steps.length + 1 ≤ fuel →
      ∃ w1 cs, processGroup git fs fuel grp w = .ok (some e, w1) ∧
        w1.calls = w.calls ++ cs ++ [mkCall .ListSubgroups grp.ID last] ∧
        w1.spawned.map Goroutine.started
          = w.spawned.map Goroutine.started ++ (steps.map Prod.snd).flatten) ∧
    (∀ (grp : Group) (steps : List (ListOptions × List Group)) (last : ListOptions)
      (pre : List Group) (g : Group) (post : List Group) (resp : Response)
      (msteps : List (ListOptions × List GroupMember)) (mlast : ListOptions)
      (e : Error) (fuel : Nat) (w : World),
      w.sem < 5 → ProjectsAnswered git fuel grp →
      Chain (git.ListSubgroups grp.ID) defaultListOptions steps last →
      (∀ st ∈ steps, ∀ q ∈ st.2, GroupMembersAnswered git fuel q) →
      git.ListSubgroups grp.ID last = .ok (pre ++ g :: post, resp) →
      (∀ q ∈ pre, GroupMembersAnswered git fuel q) →
      Chain (git.ListGroupMembers g.ID) defaultListOptions msteps mlast →
      git.ListGroupMembers g.ID mlast = .error e →
      steps.length + 1 ≤ fuel → msteps.length + 1 ≤ fuel →
      ∃ w1 cs, processGroup git fs fuel grp w = .ok (some e, w1) ∧
        w1.calls = w.calls ++ cs ++ [mkCall .ListGroupMembers g.ID mlast] ∧
        w1.spawned.map Goroutine.started
          = w.spawned.map Goroutine.started ++ (steps.map Prod.snd).flatten ++ pre) := by
  refine ⟨?_, ?_, ?_, ?_, ?_, ?_, ?_, ?_, ?_, ?_, ?_⟩
  · intro p steps last e fuel w hc he hfuel
    refine ⟨_, processProjectMembersPermissions_fails git fs p steps last e hc he fuel hfuel w,
      ?_⟩
    simp
  · intro g steps last e fuel w hc he hfuel
    refine ⟨_, processGroupMembersPermissions_fails git fs g steps last e hc he fuel hfuel w, ?_⟩
    simp
  · intro grp steps last e δ inner fuel w hc hb he hfuel
    refine ⟨w.add (stepsDelta (mkCall .ListGroupProjects grp.ID) δ steps
        ++ Delta.call (mkCall .ListGroupProjects grp.ID last)),
      (stepsDelta (mkCall .ListGroupProjects grp.ID) δ steps).calls, ?_, ?_⟩
    · rw [processGroupProjectsLoop_eq]
      exact pageLoop_fails _ _ _ δ steps _ last e hc hb he fuel hfuel w
    · simp [Delta.call]
  · intro grp steps last e δ inner fuel w hc hb he hfuel
    refine ⟨w.add (stepsDelta (mkCall .ListSubgroups grp.ID) δ steps
        ++ Delta.call (mkCall .ListSubgroups grp.ID last)),
      (stepsDelta (mkCall .ListSubgroups grp.ID) δ steps).calls, ?_, ?_⟩
    · rw [processGroupSubgroupsLoop_eq]
      exact pageLoop_fails _ _ _ δ steps _ last e hc hb he fuel hfuel w
    · simp [Delta.call]
  · intro grp fuel w r w1 h
    exact (processGroup_returns git fs fuel grp w r w1 h).2.1
  · intro grp p ps resp steps last e fuel w hsem hlist hc he hfuel
    obtain ⟨n, rfl⟩ : ∃ n, fuel = n + 1 := ⟨fuel - 1, by omega⟩
    have hnot : ¬ w.sem ≥ 5 := by omega
    refine ⟨(({ w with sem := w.sem + 1, wg := w.wg + 1 } : World).logCall
        ⟨.ListGroupProjects, grp.ID, defaultListOptions⟩).add
        { calls := steps.map (fun st => mkCall .ListProjectMembers p.ID st.1)
            ++ [mkCall .ListProjectMembers p.ID last]
          out := projectRecords fs p (steps.map Prod.snd).flatten
          spawned := [] }, ?_, ?_⟩
    · simp only [processGroup, if_neg hnot, processGroupProjectsLoop, hlist,
        processGroupProjectsRange,
        processProjectMembersPermissions_fails git fs p steps last e hc he (n + 1) hfuel]
    · simp [World.logCall, mkCall]
  · intro grp g gs resp steps last e fuel w w3 hsem hproj hlist hc he hfuel
    obtain ⟨n, rfl⟩ : ∃ n, fuel = n + 1 := ⟨fuel - 1, by omega⟩
    have hnot : ¬ w.sem ≥ 5 := by omega
    refine ⟨(w3.logCall ⟨.ListSubgroups, grp.ID, defaultListOptions⟩).add
        { calls := steps.map (fun st => mkCall .ListGroupMembers g.ID st.1)
            ++ [mkCall .ListGroupMembers g.ID last]
          out := groupRecords fs g (steps.map Prod.snd).flatten
          spawned := [] }, ?_, ?_, ?_⟩
    · simp only [processGroup, if_neg hnot, hproj, processGroupSubgroupsLoop, hlist,
        processGroupSubgroupsRange,
        processGroupMembersPermissions_fails git fs g steps last e hc he (n + 1) hfuel]
    · simp [World.logCall, mkCall]
    · simp [World.logCall]
  · intro grp steps last e fuel w hsem hc hans he hfuel
    obtain ⟨D, cs, hD1, hD2, hD3⟩ := pageLoop_prefix_error (git.ListGroupProjects grp.ID)
      (mkCall .ListGroupProjects grp.ID) (processGroupProjectsRange git fs fuel) (fun _ => [])
      steps _ last e hc (fun st hst => projectsRange_answered git fs fuel st.2 (hans st hst))
      he fuel hfuel
    rw [flatMap_const_nil] at hD2
    refine ⟨_, cs, processGroup_projects_error git fs fuel grp w hsem e D
      (fun v => by rw [processGroupProjectsLoop_eq]; exact hD3 v), ?_, ?_⟩
    · simp [hD1]
    · simp [List.map_eq_nil_iff.mp hD2]
  · intro grp steps last pre p post resp msteps mlast e fuel w hsem hc hans hlist hpre hmc hme
      hfuel hmfuel
    obtain ⟨D, cs, hD1, hD2, hD3⟩ := pageLoop_prefix_body_error (git.ListGroupProjects grp.ID)
      (mkCall .ListGroupProjects grp.ID) (processGroupProjectsRange git fs fuel) (fun _ => [])
      steps _ last (pre ++ p :: post) resp e (mkCall .ListProjectMembers p.ID mlast) [] hc
      (fun st hst => projectsRange_answered git fs fuel st.2 (hans st hst)) hlist
      (by
        obtain ⟨d, cs0, h1, h2, h3⟩ :=
          projectsRange_fails git fs fuel pre p post msteps mlast e hpre hmc hme hmfuel
        exact ⟨d, cs0, h1, h2, h3⟩)
      fuel hfuel
    rw [flatMap_const_nil, List.append_nil] at hD2
    refine ⟨_, cs, processGroup_projects_error git fs fuel grp w hsem e D
      (fun v => by rw [processGroupProjectsLoop_eq]; exact hD3 v), ?_, ?_⟩
    · simp [hD1]
    · simp [List.map_eq_nil_iff.mp hD2]
  · intro grp steps last e fuel w hsem hproj hc hans he hfuel
    obtain ⟨D1, hP1, hP2⟩ := projectsLoop_answered git fs fuel grp hproj
    obtain ⟨D, cs, hD1, hD2, hD3⟩ := pageLoop_prefix_error (git.ListSubgroups grp.ID)
      (mkCall .ListSubgroups grp.ID) (processGroupSubgroupsRange git fs fuel) (fun gs => gs)
      steps _ last e hc (fun st hst => subgroupsRange_answered git fs fuel st.2 (hans st hst))
      he fuel hfuel
    refine ⟨_, D1.calls ++ cs, processGroup_subgroups_error git fs fuel grp w hsem e D1 D hP2
      (fun v => by rw [processGroupSubgroupsLoop_eq]; exact hD3 v), ?_, ?_⟩
    · simp [hD1]
    · simp [hD2, List.map_eq_nil_iff.mp hP1, List.flatMap]
  · intro grp steps last pre g post resp msteps mlast e fuel w hsem hproj hc hans hlist hpre
      hmc hme hfuel hmfuel
    obtain ⟨D1, hP1, hP2⟩ := projectsLoop_answered git fs fuel grp hproj
    obtain ⟨D, cs, hD1, hD2, hD3⟩ := pageLoop_prefix_body_error (git.ListSubgroups grp.ID)
      (mkCall .ListSubgroups grp.ID) (processGroupSubgroupsRange git fs fuel) (fun gs => gs)
      steps _ last (pre ++ g :: post) resp e (mkCall .ListGroupMembers g.ID mlast) pre hc
      (fun st hst => subgroupsRange_answered git fs fuel st.2 (hans st hst)) hlist
      (by
        obtain ⟨d, cs0, h1, h2, h3⟩ :=
          subgroupsRange_fails git fs fuel pre g post msteps mlast e hpre hmc hme hmfuel
        exact ⟨d, cs0, h1, h2, h3⟩)
      fuel hfuel
    refine ⟨_, D1.calls ++ cs, processGroup_subgroups_error git fs fuel grp w hsem e D1 D hP2
      (fun v => by rw [processGroupSubgroupsLoop_eq]; exact hD3 v), ?_, ?_⟩
    · simp [hD1]
    · simp [hD2, List.map_eq_nil_iff.mp hP1, List.flatMap]

theorem answered_one_page_project (git : Client) (fuel : Nat) (p : Project)
    (items : List ProjectMember) (resp : Response)
    (h : git.ListProjectMembers p.ID defaultListOptions = .ok (items, resp))
    (hlast : resp.CurrentPage ≥ resp.TotalPages) (hfuel : 1 ≤ fuel) :
    ProjectMembersAnswered git fuel p :=
  ⟨[], defaultListOptions, items, resp, rfl, h, hlast, by simpa using hfuel⟩

theorem answered_one_page_group (git : Client) (fuel : Nat) (g : Group)
    (items : List GroupMember) (resp : Response)
    (h : git.ListGroupMembers g.ID defaultListOptions = .ok (items, resp))
    (hlast : resp.CurrentPage ≥ resp.TotalPages) (hfuel : 1 ≤ fuel) :
    GroupMembersAnswered git fuel g :=
  ⟨[], defaultListOptions, items, resp, rfl, h, hlast, by simpa using hfuel⟩

/-- C3, at three inputs.  A project-member list whose page 1 (of 2) is
answered and whose page 2 fails: the drain returns that error after the two
requests.  A group whose project list has two pages, with the member list of
the second project of the second page failing on its page 2: `processGroup`
returns that error and the failed request is its last call.  A group whose
subgroup list has two pages, with the member list of the second subgroup of
the second page failing on its page 2: `processGroup` returns that error, the
failed request is its last call and goroutines were started for the two
earlier subgroups only. -/
theorem pagination_short_circuit_witness :
    Chain (failingClient.ListProjectMembers appProject.ID) defaultListOptions
      [(⟨1, 10⟩, [⟨1, "alice", 30, none⟩])] ⟨2, 10⟩ ∧
    (∃ w1, processProjectMembersPermissions failingClient [fun _ => true] 2 appProject World.start
        = .ok (some "503 members", w1) ∧
      w1.calls = World.start.calls
        ++ ([(⟨1, 10⟩, [⟨1, "alice", 30, none⟩])] :
            List (ListOptions × List ProjectMember)).map
            (fun st => mkCall .ListProjectMembers appProject.ID st.1)
        ++ [mkCall .ListProjectMembers appProject.ID ⟨2, 10⟩]) ∧
    (∃ w1 cs, processGroup lateFailClient [fun _ => true] 2 acmeGroup World.start
        = .ok (some "503 members", w1) ∧
      w1.calls = World.start.calls ++ cs ++ [mkCall .ListProjectMembers 9 ⟨2, 10⟩] ∧
      w1.spawned = World.start.spawned) ∧
    (∃ w1 cs, processGroup lateFailGroupsClient [fun _ => true] 2 acmeGroup World.start
        = .ok (some "503 members", w1) ∧
      w1.calls = World.start.calls ++ cs ++ [mkCall .ListGroupMembers 13 ⟨2, 10⟩] ∧
      w1.spawned.map Goroutine.started
        = World.start.spawned.map Goroutine.started
          ++ [⟨11, "acme/a", "https://gitlab.example/groups/acme/a"⟩]
          ++ [⟨12, "acme/b", "https://gitlab.example/groups/acme/b"⟩]) :=
  ⟨failingClient_chain,
    (pagination_short_circuit failingClient [fun _ => true]).1 appProject
      [(⟨1, 10⟩, [⟨1, "alice", 30, none⟩])] ⟨2, 10⟩ "503 members" 2 World.start
      failingClient_chain rfl (by decide),
    (pagination_short_circuit lateFailClient [fun _ => true]).2.2.2.2.2.2.2.2.1 acmeGroup
      [(⟨1, 10⟩, [⟨7, "acme/app", "https://gitlab.example/acme/app"⟩])] ⟨2, 10⟩
      [⟨8, "acme/api", "https://gitlab.example/acme/api"⟩]
      ⟨9, "acme/docs", "https://gitlab.example/acme/docs"⟩ []
      { CurrentPage := 2, TotalPages := 2, NextPage := 0 }
      [(⟨1, 10⟩, [⟨1, "alice", 30, none⟩])] ⟨2, 10⟩ "503 members" 2 World.start
      (by decide)
      ⟨rfl, _, rfl, by decide, rfl⟩
      (by
        intro st hst q hq
        simp only [List.mem_singleton] at hst
        subst hst
        simp only [List.mem_singleton] at hq
        subst hq
        exact answered_one_page_project _ _ _ _ _ rfl (by decide) (by decide))
      rfl
      (by
        intro q hq
        simp only [List.mem_singleton] at hq
        subst hq
        exact answered_one_page_project _ _ _ _ _ rfl (by decide) (by decide))
      ⟨rfl, _, rfl, by decide, rfl⟩ rfl (by decide) (by decide),
    (pagination_short_circuit lateFailGroupsClient [fun _ => true]).2.2.2.2.2.2.2.2.2.2 acmeGroup
      [(⟨1, 10⟩, [⟨11, "acme/a", "https://gitlab.example/groups/acme/a"⟩])] ⟨2, 10⟩
      [⟨12, "acme/b", "https://gitlab.example/groups/acme/b"⟩]
      ⟨13, "acme/c", "https://gitlab.example/groups/acme/c"⟩ []
      { CurrentPage := 2, TotalPages := 2, NextPage := 0 }
      [(⟨1, 10⟩, [⟨1, "alice", 30, none⟩])] ⟨2, 10⟩ "503 members" 2 World.start
      (by decide)
      ⟨[], defaultListOptions, [], _, rfl, rfl, by decide, by decide,
        fun _ h => by simp at h, fun _ h => by simp at h⟩
      ⟨rfl, _, rfl, by decide, rfl⟩
      (by
        intro st hst q hq
        simp only [List.mem_singleton] at hst
        subst hst
        simp only [List.mem_singleton] at hq
        subst hq
        exact answered_one_page_group _ _ _ _ _ rfl (by decide) (by decide))
      rfl
      (by
        intro q hq
        simp only [List.mem_singleton] at hq
        subst hq
        exact answered_one_page_group _ _ _ _ _ rfl (by decide) (by decide))
      ⟨rfl, _, rfl, by decide, rfl⟩ rfl (by decide) (by decide)⟩

/-! ## The output of a failed drain -/

/-- C8, as stated, fails: the drain of a project-member list whose page 1 is
answered and whose page 2 fails returns the error, and the record built from
the member of page 1 has been printed. -/
theorem failed_drain_has_printed :
    processProjectMembersPermissions failingClient [fun _ => true] 2 appProject World.start
      = .ok (some "503 members",
          { calls := [⟨.ListProjectMembers, 7, ⟨1, 10⟩⟩, ⟨.ListProjectMembers, 7, ⟨2, 10⟩⟩]
            out := [projectRecord appProject ⟨1, "alice", 30, none⟩]
            sem := 0
            wg := 0
            spawned := [] }) :=
  rfl

/-- C8, amended. When the first `k - 1` calls of a member-list drain are
answered without error (with current page below total pages) and the `k`-th
call is answered with an error, the drain returns that error and what it has
printed is exactly the reportable records of the members of the pages it
received, in order; nothing else is printed. -/
theorem failed_drain_output (git : Client) (fs : List memberFilter) :
    (∀ (p : Project) (steps : List (ListOptions × List ProjectMember)) (last : ListOptions)
      (e : Error) (fuel : Nat) (w : World),
      Chain (git.ListProjectMembers p.ID) defaultListOptions steps last →
      git.ListProjectMembers p.ID last = .error e → steps.length + 1 ≤ fuel →
      ∃ w1, processProjectMembersPermissions git fs fuel p w = .ok (some e, w1) ∧
        w1.out = w.out ++ ((steps.map Prod.snd).flatten.map (projectRecord p)).filter
          (handleMemberRequired fs)) ∧
    (∀ (g : Group) (steps : List (ListOptions × List GroupMember)) (last : ListOptions)
      (e : Error) (fuel : Nat) (w : World),
      Chain (git.ListGroupMembers g.ID) defaultListOptions steps last →
      git.ListGroupMembers g.ID last = .error e → steps.length + 1 ≤ fuel →
      ∃ w1, processGroupMembersPermissions git fs fuel g w = .ok (some e, w1) ∧
        w1.out = w.out ++ ((steps.map Prod.snd).flatten.map (groupRecord g)).filter
          (handleMemberRequired fs)) := by
  refine ⟨?_, ?_⟩
  · intro p steps last e fuel w hc he hfuel
    exact ⟨_, processProjectMembersPermissions_fails git fs p steps last e hc he fuel hfuel w,
      rfl⟩
  · intro g steps last e fuel w hc he hfuel
    exact ⟨_, processGroupMembersPermissions_fails git fs g steps last e hc he fuel hfuel w, rfl⟩

/-- C8, amended, at the project-member list whose page 2 fails. -/
theorem failed_drain_output_witness :
    Chain (failingClient.ListProjectMembers appProject.ID) defaultListOptions
      [(⟨1, 10⟩, [⟨1, "alice", 30, none⟩])] ⟨2, 10⟩ ∧
    ∃ w1, processProjectMembersPermissions failingClient [fun _ => true] 2 appProject World.start
        = .ok (some "503 members", w1) ∧
      w1.out = World.start.out ++
        ((([(⟨1, 10⟩, [⟨1, "alice", 30, none⟩])] :
            List (ListOptions × List ProjectMember)).map Prod.snd).flatten.map
          (projectRecord appProject)).filter (handleMemberRequired [fun _ => true]) :=
  ⟨failingClient_chain,
    (failed_drain_output failingClient [fun _ => true]).1 appProject
      [(⟨1, 10⟩, [⟨1, "alice", 30, none⟩])] ⟨2, 10⟩ "503 members" 2 World.start
      failingClient_chain rfl (by decide)⟩

/-! ## The admission slot and the wait group -/

/-- C9, evaluated on the code: `processGroup` on a group whose project list
fails at once returns the error with one element left in `sem` and the `wg`
counter one above its value at entry; the same happens when the failure comes
from the member list of the first project. -/
theorem processGroup_error_keeps_slot :
    World.start.sem = 0 ∧ World.start.wg = 0 ∧
    processGroup failingClient [fun _ => true] 2 acmeGroup World.start
      = .ok (some "503 projects",
          { calls := [⟨.ListGroupProjects, 3, ⟨1, 10⟩⟩]
            out := []
            sem := 1
            wg := 1
            spawned := [] }) ∧
    processGroup failingMembersClient [fun _ => true] 2 acmeGroup World.start
      = .ok (some "503 members",
          { calls := [⟨.ListGroupProjects, 3, ⟨1, 10⟩⟩, ⟨.ListProjectMembers, 7, ⟨1, 10⟩⟩,
                      ⟨.ListProjectMembers, 7, ⟨2, 10⟩⟩]
            out := [projectRecord appProject ⟨1, "alice", 30, none⟩]
            sem := 1
            wg := 1
            spawned := [] }) :=
  ⟨rfl, rfl, rfl, rfl⟩

/-! ## Traversal of a served tree -/

theorem le_sum_of_mem {α : Type} (f : α → Nat) (l : List α) (x : α) (hx : x ∈ l) :
    f x ≤ (l.map f).sum := by
  induction l with
  | nil => simp at hx
  | cons a as ih =>
    rcases List.mem_cons.mp hx with h | h
    · subst h; simp
    · have := ih h
      simp only [List.map_cons, List.sum_cons]
      omega

theorem subtreesList_eq_flatMap (ts : List GroupTree) :
    GroupTree.subtreesList ts = ts.flatMap GroupTree.subtrees := by
  induction ts with
  | nil => rfl
  | cons t ts ih => simp [GroupTree.subtreesList, ih]

theorem subtrees_eq (t : GroupTree) :
    t.subtrees = t :: GroupTree.subtreesList t.subgroups := by
  cases t with
  | node g ss => simp [GroupTree.subtrees, GroupTree.subgroups]

theorem subtreesList_append (a b : List GroupTree) :
    GroupTree.subtreesList (a ++ b) = GroupTree.subtreesList a ++ GroupTree.subtreesList b := by
  simp [subtreesList_eq_flatMap]

theorem processGroup_served (git : Client) (fs : List memberFilter) (c : Content)
    (t : GroupTree) (hs : ServedAt git c t) (fuel : Nat) (hfuel : pagesAt c t.root ≤ fuel)
    (w : World) (hsem : w.sem < 5) :
    processGroup git fs fuel t.root w = .ok (none, w.add (groupDelta c fs t.root)) := by
  obtain ⟨h1, h2, _, h4, h5⟩ := hs
  have hp : ∀ p ∈ (c.projectPages t.root).flatten,
      ServesPagesInOrder (git.ListProjectMembers p.ID) (c.projectMemberPages p) ∧
        (c.projectMemberPages p).length ≤ fuel := by
    intro p hp
    refine ⟨h4 p hp, ?_⟩
    have hle : (c.projectMemberPages p).length ≤ _ :=
      le_sum_of_mem (fun p => (c.projectMemberPages p).length) _ p hp
    simp only [pagesAt] at hfuel
    omega
  have hg : ∀ g ∈ (c.subgroupPages t.root).flatten,
      ServesPagesInOrder (git.ListGroupMembers g.ID) (c.groupMemberPages g) ∧
        (c.groupMemberPages g).length ≤ fuel := by
    intro g hg
    refine ⟨h5 g hg, ?_⟩
    have hle : (c.groupMemberPages g).length ≤ _ :=
      le_sum_of_mem (fun s => (c.groupMemberPages s).length) _ g hg
    simp only [pagesAt] at hfuel
    omega
  have hf1 : (c.projectPages t.root).length ≤ fuel := by
    simp only [pagesAt] at hfuel; omega
  have hf2 : (c.subgroupPages t.root).length ≤ fuel := by
    simp only [pagesAt] at hfuel; omega
  have hnot : ¬ w.sem ≥ 5 := by omega
  simp only [processGroup, if_neg hnot]
  rw [processGroupProjectsLoop_served git fs c.projectMemberPages t.root _ h1 fuel hp fuel hf1]
  simp only
  rw [processGroupSubgroupsLoop_served git fs c.groupMemberPages t.root _ h2 fuel hg fuel hf2]
  simp only [World.add_add, groupDelta]
  congr 2
  cases w
  simp [World.add]

theorem groupDelta_out (c : Content) (fs : List memberFilter) (g : Group) :
    (groupDelta c fs g).out = emitted c fs g := by
  rw [groupDelta, Delta.append_out,
    stepsDelta_out _ _ _ (projectsDelta_out fs c.projectMemberPages) _ 1,
    stepsDelta_out _ _ _ (subgroupsDelta_out fs c.groupMemberPages) _ 1]
  rfl

theorem groupDelta_spawned (c : Content) (fs : List memberFilter) (g : Group) :
    (groupDelta c fs g).spawned = (c.subgroupPages g).flatMap goroutinesOf := by
  rw [groupDelta, Delta.append_spawned,
    stepsDelta_spawned _ _ (fun _ => []) (projectsDelta_spawned fs c.projectMemberPages) _ 1,
    stepsDelta_spawned _ _ goroutinesOf (subgroupsDelta_spawned fs c.groupMemberPages) _ 1]
  simp [List.flatMap]

theorem subtreesList_length_pos (t : GroupTree) (ts : List GroupTree) :
    0 < (GroupTree.subtreesList (t :: ts)).length := by
  rw [GroupTree.subtreesList, subtrees_eq]
  simp

theorem runSpawned_nil (git : Client) (fs : List memberFilter) (fuel tasks : Nat) (w : World)
    (h : w.spawned = []) : runSpawned git fs fuel tasks w = .ok (none, w) := by
  cases tasks with
  | zero => simp [runSpawned, h]
  | succ n => simp [runSpawned, h]

theorem runSpawned_served (git : Client) (fs : List memberFilter) (c : Content) (fuel : Nat) :
    ∀ (n : Nat) (F : List GroupTree), (GroupTree.subtreesList F).length ≤ n →
      (∀ m ∈ GroupTree.subtreesList F, ServedAt git c m ∧ pagesAt c m.root ≤ fuel ∧
        ∀ page ∈ c.subgroupPages m.root, page.length ≤ 1) →
      ∀ (tasks : Nat) (w : World), n ≤ tasks →
      w.spawned.map Goroutine.afterLoop = F.map GroupTree.root → w.sem < 5 →
      ∃ w1 L, runSpawned git fs fuel tasks w = .ok (none, w1) ∧ w1.spawned = [] ∧
        w1.out = w.out ++ L ∧
        L.Perm ((GroupTree.subtreesList F).flatMap fun m => emitted c fs m.root) := by
  intro n
  induction n with
  | zero =>
    intro F hlen _ tasks w _ hsp _
    cases F with
    | nil =>
      have hnil : w.spawned = [] := by simpa using hsp
      exact ⟨w, [], runSpawned_nil git fs fuel tasks w hnil, hnil, by simp,
        by simp [GroupTree.subtreesList]⟩
    | cons t ts =>
      have := subtreesList_length_pos t ts
      omega
  | succ n ih =>
    intro F hlen hserved tasks w htasks hsp hsem
    cases F with
    | nil =>
      have hnil : w.spawned = [] := by simpa using hsp
      exact ⟨w, [], runSpawned_nil git fs fuel tasks w hnil, hnil, by simp,
        by simp [GroupTree.subtreesList]⟩
    | cons t ts =>
      obtain ⟨tasks1, rfl⟩ : ∃ k, tasks = k + 1 := ⟨tasks - 1, by omega⟩
      have hexp : GroupTree.subtreesList (t :: ts)
          = t :: (GroupTree.subtreesList t.subgroups ++ GroupTree.subtreesList ts) := by
        rw [GroupTree.subtreesList, subtrees_eq]; rfl
      have ht := hserved t (by rw [hexp]; exact List.mem_cons_self _ _)
      obtain ⟨r, rest, hw, hr, hrest⟩ : ∃ r rest, w.spawned = r :: rest ∧
          r.afterLoop = t.root ∧ rest.map Goroutine.afterLoop = ts.map GroupTree.root := by
        cases hws : w.spawned with
        | nil => rw [hws] at hsp; simp at hsp
        | cons r rest =>
          rw [hws] at hsp
          simp only [List.map_cons, List.cons.injEq] at hsp
          exact ⟨r, rest, rfl, hsp.1, hsp.2⟩
      have hpg := processGroup_served git fs c t ht.1 fuel ht.2.1
        { w with spawned := rest } hsem
      have hnext : ∀ m ∈ GroupTree.subtreesList (ts ++ t.subgroups),
          ServedAt git c m ∧ pagesAt c m.root ≤ fuel ∧
            ∀ page ∈ c.subgroupPages m.root, page.length ≤ 1 := by
        intro m hm
        rw [subtreesList_append] at hm
        apply hserved m
        rw [hexp]
        rcases List.mem_append.mp hm with h | h
        · exact List.mem_cons_of_mem _ (List.mem_append_right _ h)
        · exact List.mem_cons_of_mem _ (List.mem_append_left _ h)
      have hlen2 : (GroupTree.subtreesList (ts ++ t.subgroups)).length ≤ n := by
        rw [subtreesList_append, List.length_append]
        rw [hexp] at hlen
        simp only [List.length_cons, List.length_append] at hlen
        omega
      obtain ⟨w1, L, hrun, hsp1, hout, hperm⟩ :=
        ih (ts ++ t.subgroups) hlen2 hnext tasks1
          (({ w with spawned := rest } : World).add (groupDelta c fs t.root))
          (by omega)
          (by
            rw [World.add_spawned, groupDelta_spawned, List.map_append,
              goroutinesOf_pages_afterLoop _ ht.2.2, ht.1.2.2.1, List.map_append, ← hrest])
          hsem
      refine ⟨w1, emitted c fs t.root ++ L, ?_, hsp1, ?_, ?_⟩
      · simp only [runSpawned, hw, hr, hpg]
        exact hrun
      · rw [hout, World.add_out, groupDelta_out]
        simp
      · rw [hexp, List.flatMap_cons]
        refine List.Perm.append_left _ ?_
        rw [subtreesList_append] at hperm
        rw [List.flatMap_append] at hperm ⊢
        exact hperm.trans List.perm_append_comm

theorem traverse_served (git : Client) (fs : List memberFilter) (c : Content) (t : GroupTree)
    (hserved : Served git c t) (hone : SubgroupsOnePerPage c t)
    (fuel tasks : Nat) (hfuel : fuelFor c [t] ≤ fuel)
    (htasks : fuelFor c [t] ≤ tasks) :
    ∃ w1 L, traverse git fs fuel tasks t.root World.start = .ok (none, w1) ∧ w1.spawned = [] ∧
      w1.out = L ∧ L.Perm (t.subtrees.flatMap fun m => emitted c fs m.root) := by
  have hall : GroupTree.subtreesList [t] = t.subtrees := by
    simp [GroupTree.subtreesList]
  have hexp : t.subtrees = t :: GroupTree.subtreesList t.subgroups := subtrees_eq t
  have hpages : ∀ m ∈ t.subtrees, pagesAt c m.root ≤ fuel := by
    intro m hm
    have hle : pagesAt c m.root ≤ _ := le_sum_of_mem (fun n => pagesAt c n.root) _ m hm
    simp only [fuelFor, hall] at hfuel
    omega
  have hlen : (GroupTree.subtreesList t.subgroups).length ≤ tasks := by
    simp only [fuelFor, hall, hexp, List.length_cons] at htasks
    omega
  have htmem : t ∈ t.subtrees := by rw [hexp]; simp
  have hroot := processGroup_served git fs c t (hserved t htmem) fuel
    (hpages t htmem) World.start (by decide)
  obtain ⟨w1, L, hrun, hsp1, hout, hperm⟩ :=
    runSpawned_served git fs c fuel tasks t.subgroups hlen
      (fun m hm => ⟨hserved m (by rw [hexp]; exact List.mem_cons_of_mem _ hm),
        hpages m (by rw [hexp]; exact List.mem_cons_of_mem _ hm),
        hone m (by rw [hexp]; exact List.mem_cons_of_mem _ hm)⟩)
      tasks (World.start.add (groupDelta c fs t.root)) (le_refl _)
      (by
        rw [World.add_spawned, groupDelta_spawned, List.map_append,
          goroutinesOf_pages_afterLoop _ (hone t htmem), (hserved t htmem).2.2.1]
        simp [World.start])
      (by simp [World.start])
  refine ⟨w1, emitted c fs t.root ++ L, ?_, hsp1, ?_, ?_⟩
  · simp only [traverse, hroot]
    exact hrun
  · rw [hout, World.add_out, groupDelta_out]
    simp [World.start]
  · rw [hexp, List.flatMap_cons]
    exact List.Perm.append_left _ hperm

/-! ## The pairs printed by a traversal -/

theorem handleMemberRequired_accepting (fs : List memberFilter)
    (hacc : ∀ f ∈ fs, ∀ m, f m = true) (m : genericMember) :
    handleMemberRequired fs m = true := by
  rw [handleMemberRequired_eq_all, List.all_eq_true]
  exact fun f hf => hacc f hf m

theorem projectRecords_keys (fs : List memberFilter) (hacc : ∀ f ∈ fs, ∀ m, f m = true)
    (p : Project) (ms : List ProjectMember) :
    (projectRecords fs p ms).map recordKey = ms.map fun m => (p.ID, m.Username) := by
  have hf : (ms.map (projectRecord p)).filter (handleMemberRequired fs)
      = ms.map (projectRecord p) :=
    List.filter_eq_self.mpr (fun m _ => handleMemberRequired_accepting fs hacc m)
  rw [projectRecords, hf, List.map_map]
  rfl

theorem groupRecords_keys (fs : List memberFilter) (hacc : ∀ f ∈ fs, ∀ m, f m = true)
    (g : Group) (ms : List GroupMember) :
    (groupRecords fs g ms).map recordKey = ms.map fun m => (g.ID, m.Username) := by
  have hf : (ms.map (groupRecord g)).filter (handleMemberRequired fs)
      = ms.map (groupRecord g) :=
    List.filter_eq_self.mpr (fun m _ => handleMemberRequired_accepting fs hacc m)
  rw [groupRecords, hf, List.map_map]
  rfl

theorem pairsOf_append (a b : List (Int × List String)) :
    pairsOf (a ++ b) = pairsOf a ++ pairsOf b := by
  simp [pairsOf]

theorem pairsOf_map {α : Type} (l : List α) (f : α → Int × List String) :
    pairsOf (l.map f) = l.flatMap fun x => (f x).2.map fun u => ((f x).1, u) := by
  simp [pairsOf, List.flatMap_map]

theorem emitted_keys (c : Content) (fs : List memberFilter)
    (hacc : ∀ f ∈ fs, ∀ m, f m = true) (g : Group) :
    (emitted c fs g).map recordKey = pairsOf (localContainers c g) := by
  rw [emitted, localContainers, pairsOf_append, pairsOf_map, pairsOf_map, List.map_append,
    List.map_flatMap, List.map_flatMap]
  simp only [projectRecords_keys fs hacc, groupRecords_keys fs hacc, List.map_map]
  rfl

theorem below_keys (c : Content) (fs : List memberFilter)
    (hacc : ∀ f ∈ fs, ∀ m, f m = true) (ts : List GroupTree) :
    (ts.flatMap fun m => emitted c fs m.root).map recordKey
      = pairsOf (ts.flatMap fun n => localContainers c n.root) := by
  induction ts with
  | nil => rfl
  | cons t ts ih =>
    rw [List.flatMap_cons, List.flatMap_cons, List.map_append, pairsOf_append, ih,
      emitted_keys c fs hacc]

theorem pairsOf_length (cs : List (Int × List String)) :
    (pairsOf cs).length = memberTotal cs := by
  induction cs with
  | nil => rfl
  | cons x xs ih =>
    have h : pairsOf (x :: xs) = (x.2.map fun u => (x.1, u)) ++ pairsOf xs := by
      simp [pairsOf]
    rw [h, List.length_append, ih]
    simp [memberTotal]

theorem pairsOf_nodup (cs : List (Int × List String)) (hids : (cs.map Prod.fst).Nodup)
    (hnames : ∀ cu ∈ cs, cu.2.Nodup) : (pairsOf cs).Nodup := by
  induction cs with
  | nil => simp [pairsOf]
  | cons x xs ih =>
    have h : pairsOf (x :: xs) = (x.2.map fun u => (x.1, u)) ++ pairsOf xs := by
      simp [pairsOf]
    rw [List.map_cons, List.nodup_cons] at hids
    rw [h, List.nodup_append]
    refine ⟨?_, ih hids.2 (fun cu hcu => hnames cu (List.mem_cons_of_mem _ hcu)), ?_⟩
    · exact (hnames x (List.mem_cons_self _ _)).map (fun a b hab => by
        simpa using hab)
    · intro pr h1 h2
      obtain ⟨u, _, hu⟩ := List.mem_map.mp h1
      simp only [pairsOf, List.mem_flatMap, List.mem_map] at h2
      obtain ⟨cu, hcu, u2, _, hu2⟩ := h2
      apply hids.1
      have e : x.1 = cu.1 := by
        rw [← hu] at hu2
        exact (congrArg Prod.fst hu2).symm
      rw [e]
      exact List.mem_map_of_mem _ hcu

theorem servesPages_one {α : Type} (fetch : ListOptions → Fetched α) (items : List α)
    (resp : Response) (h : fetch { Page := 1, PerPage := 10 } = .ok (items, resp))
    (hc : resp.CurrentPage = 1) (ht : resp.TotalPages = 1) :
    ServesPagesInOrder fetch [items] := by
  refine ⟨by simp, ?_⟩
  intro k its hk
  match k, hk with
  | 0, hk =>
    simp only [List.getElem?_cons_zero, Option.some.injEq] at hk
    subst hk
    exact ⟨resp, h, by simpa using hc, by simpa using ht, fun hh => absurd hh (by simp)⟩
  | k + 1, hk => simp at hk

theorem demoClient_served : Served demoClient demoContent demoTree := by
  intro n hn
  simp only [demoTree, GroupTree.subtrees, GroupTree.subtreesList, List.append_nil,
    List.cons_append, List.nil_append, List.mem_cons, List.mem_singleton,
    List.not_mem_nil, or_false] at hn
  rcases hn with rfl | rfl | rfl
  · refine ⟨servesPages_one _ _ _ rfl rfl rfl, servesPages_one _ _ _ rfl rfl rfl, rfl, ?_, ?_⟩
    · intro p hp
      simp [GroupTree.root, demoContent] at hp
    · intro g hg
      simp only [GroupTree.root, demoContent, if_true, List.flatten_cons, List.flatten_nil,
        List.append_nil, List.mem_cons, List.mem_singleton, List.not_mem_nil, or_false] at hg
      rcases hg with rfl | rfl
      · exact servesPages_one _ _ _ rfl rfl rfl
      · exact servesPages_one _ _ _ rfl rfl rfl
  · refine ⟨servesPages_one _ _ _ rfl rfl rfl, servesPages_one _ _ _ rfl rfl rfl, rfl, ?_, ?_⟩
    · intro p hp
      have hp2 : p = ⟨20, "acme/web/site", "https://gitlab.example/acme/web/site"⟩ := by
        simpa [GroupTree.root, demoContent] using hp
      subst hp2
      exact servesPages_one _ _ _ rfl rfl rfl
    · intro g hg
      simp [GroupTree.root, demoContent] at hg
  · refine ⟨servesPages_one _ _ _ rfl rfl rfl, servesPages_one _ _ _ rfl rfl rfl, rfl, ?_, ?_⟩
    · intro p hp
      have hp2 : p = ⟨30, "acme/ops/infra", "https://gitlab.example/acme/ops/infra"⟩ := by
        simpa [GroupTree.root, demoContent] using hp
      subst hp2
      exact servesPages_one _ _ _ rfl rfl rfl
    · intro g hg
      simp [GroupTree.root, demoContent] at hg

theorem filtersAfterStartup_nil_accepts :
    ∀ f ∈ filtersAfterStartup [], ∀ m, f m = true := by
  intro f hf m
  simp only [filtersAfterStartup, startupLoop, memberFilters, List.map_cons, List.map_nil,
    List.mem_singleton] at hf
  subst hf
  rfl

theorem demo_ids_distinct : ((containersAll demoContent demoTree).map Prod.fst).Nodup := by
  decide

theorem demo_names_distinct : ∀ cu ∈ containersAll demoContent demoTree, cu.2.Nodup := by
  decide

theorem servePages_serves {α : Type} (pages : List (List α)) (hne : pages ≠ []) :
    ServesPagesInOrder (servePages pages) pages := by
  refine ⟨hne, ?_⟩
  intro k items hk
  have hlt : k < pages.length := (List.getElem?_eq_some.mp hk).1
  refine ⟨{ CurrentPage := (k : Int) + 1
            TotalPages := (pages.length : Int)
            NextPage := if (k : Int) + 1 < (pages.length : Int) then (k : Int) + 1 + 1 else 0 },
    ?_, rfl, rfl, ?_⟩
  · have h1 : ((k : Int) + 1 ≥ 1) := by omega
    have h2 : ((k : Int) + 1 - 1).toNat = k := by omega
    simp only [servePages, h1, if_true, h2, hk]
  · intro h
    have h3 : (k : Int) + 1 < (pages.length : Int) := by omega
    simp only [h3, if_true]
    ring

theorem pagedClient_served : Served pagedClient pagedContent demoTree := by
  intro n hn
  simp only [demoTree, GroupTree.subtrees, GroupTree.subtreesList, List.append_nil,
    List.cons_append, List.nil_append, List.mem_cons, List.mem_singleton,
    List.not_mem_nil, or_false] at hn
  rcases hn with rfl | rfl | rfl
  · refine ⟨servePages_serves _ (by decide), servePages_serves _ (by decide), rfl, ?_, ?_⟩
    · intro p hp
      simp [GroupTree.root, pagedContent, demoContent] at hp
    · intro g hg
      simp only [GroupTree.root, pagedContent, if_true, List.flatten_cons, List.flatten_nil,
        List.append_nil, List.cons_append, List.nil_append, List.mem_cons, List.mem_singleton,
        List.not_mem_nil, or_false] at hg
      rcases hg with rfl | rfl
      · exact servePages_serves _ (by decide)
      · exact servePages_serves _ (by decide)
  · refine ⟨servePages_serves _ (by decide), servePages_serves _ (by decide), rfl, ?_, ?_⟩
    · intro p hp
      have hp2 : p = ⟨20, "acme/web/site", "https://gitlab.example/acme/web/site"⟩ := by
        simpa [GroupTree.root, pagedContent, demoContent] using hp
      subst hp2
      exact servePages_serves _ (by decide)
    · intro g hg
      simp [GroupTree.root, pagedContent] at hg
  · refine ⟨servePages_serves _ (by decide), servePages_serves _ (by decide), rfl, ?_, ?_⟩
    · intro p hp
      have hp2 : p = ⟨30, "acme/ops/infra", "https://gitlab.example/acme/ops/infra"⟩ := by
        simpa [GroupTree.root, pagedContent, demoContent] using hp
      subst hp2
      exact servePages_serves _ (by decide)
    · intro g hg
      simp [GroupTree.root, pagedContent] at hg

theorem paged_one_per_page : SubgroupsOnePerPage pagedContent demoTree := by
  intro n hn
  simp only [demoTree, GroupTree.subtrees, GroupTree.subtreesList, List.append_nil,
    List.cons_append, List.nil_append, List.mem_cons, List.mem_singleton,
    List.not_mem_nil, or_false] at hn
  rcases hn with rfl | rfl | rfl <;> decide

theorem paged_ids_distinct : ((containersAll pagedContent demoTree).map Prod.fst).Nodup := by
  decide

theorem paged_names_distinct : ∀ cu ∈ containersAll pagedContent demoTree, cu.2.Nodup := by
  decide

/-- C1, as stated, fails on the witness tree (a root group, two subgroups, one
project in each subgroup, two members in every container, all served without
error, container ids distinct, no exclusions; the two subgroups come on one
page).  The tree has ten (container, member) pairs.  In the run in which the
goroutines start after the root call has returned, eight records are printed:
none for the members of the root group, whose member list is never requested;
and, both goroutines reading the same variable `g`, which holds subgroup 3 by
then, the members of project 30 twice and those of project 20 never, subgroup
2 not being traversed. -/
theorem traversal_misses_containers :
    Served demoClient demoContent demoTree ∧
    ((containersAll demoContent demoTree).map Prod.fst).Nodup ∧
    (∀ cu ∈ containersAll demoContent demoTree, cu.2.Nodup) ∧
    memberTotal (containersAll demoContent demoTree) = 10 ∧
    (1, "alice") ∈ pairsOf (containersAll demoContent demoTree) ∧
    (20, "erin") ∈ pairsOf (containersAll demoContent demoTree) ∧
    ∃ w1, traverse demoClient (filtersAfterStartup []) 6 6 demoTree.root World.start
        = .ok (none, w1) ∧
      w1.spawned = [] ∧
      w1.out.map recordKey
        = [(2, "carol"), (2, "dave"), (3, "carol"), (3, "ivan"),
           (30, "gina"), (30, "hank"), (30, "gina"), (30, "hank")] ∧
      (1, "alice") ∉ w1.out.map recordKey ∧
      (20, "erin") ∉ w1.out.map recordKey ∧
      ¬ (w1.out.map recordKey).Nodup ∧
      (∀ c ∈ w1.calls, ¬ (c.op = .ListGroupMembers ∧ c.id = 1)) ∧
      (∀ c ∈ w1.calls, ¬ (c.op = .ListGroupProjects ∧ c.id = 2)) :=
  ⟨demoClient_served, demo_ids_distinct, demo_names_distinct, by decide, by decide, by decide,
    _, rfl, rfl, rfl, by decide, by decide, by decide, by decide, by decide⟩

/-- C1, amended. For every finite tree of groups whose lists are all served
without error and page after page, no page of a subgroup list holding more
than one subgroup, with distinct container ids, distinct usernames within each
container and a filter list that accepts everything, `processGroup` on the
root followed by every started goroutine run to completion returns `nil` and
prints exactly one record per (container, member) pair of every container of
the tree other than the root group, that is of every subgroup and every
project: the pairs of the printed records are a rearrangement of those pairs,
their number is the sum of the member counts of those containers, and no pair
is printed twice. -/
theorem traversal_complete_unique (git : Client) (c : Content) (t : GroupTree)
    (fs : List memberFilter) (hacc : ∀ f ∈ fs, ∀ m, f m = true)
    (hserved : Served git c t) (hone : SubgroupsOnePerPage c t)
    (hids : ((containersAll c t).map Prod.fst).Nodup)
    (hnames : ∀ cu ∈ containersAll c t, cu.2.Nodup)
    (fuel tasks : Nat) (hfuel : fuelFor c [t] ≤ fuel) (htasks : fuelFor c [t] ≤ tasks) :
    ∃ w1, traverse git fs fuel tasks t.root World.start = .ok (none, w1) ∧
      w1.spawned = [] ∧
      (w1.out.map recordKey).Perm (pairsOf (containersBelow c t)) ∧
      w1.out.length = memberTotal (containersBelow c t) ∧
      (w1.out.map recordKey).Nodup := by
  obtain ⟨w1, L, hrun, hsp, hout, hperm⟩ :=
    traverse_served git fs c t hserved hone fuel tasks hfuel htasks
  have hkeys : (w1.out.map recordKey).Perm (pairsOf (containersBelow c t)) := by
    rw [hout, containersBelow, ← below_keys c fs hacc]
    exact hperm.map recordKey
  have hnd : (pairsOf (containersBelow c t)).Nodup := by
    apply pairsOf_nodup
    · simp only [containersAll, List.map_cons, List.nodup_cons] at hids
      exact hids.2
    · exact fun cu hcu => hnames cu (List.mem_cons_of_mem _ hcu)
  refine ⟨w1, hrun, hsp, hkeys, ?_, hkeys.nodup_iff.mpr hnd⟩
  rw [← pairsOf_length, ← hkeys.length_eq, List.length_map]

/-- C1, amended, on the witness tree served one subgroup per page: root group,
two subgroups, one project in each, two members per container. -/
theorem traversal_complete_unique_witness :
    (∀ f ∈ filtersAfterStartup [], ∀ m, f m = true) ∧
    Served pagedClient pagedContent demoTree ∧
    SubgroupsOnePerPage pagedContent demoTree ∧
    ((containersAll pagedContent demoTree).map Prod.fst).Nodup ∧
    (∀ cu ∈ containersAll pagedContent demoTree, cu.2.Nodup) ∧
    fuelFor pagedContent [demoTree] ≤ 14 ∧
    ∃ w1, traverse pagedClient (filtersAfterStartup []) 14 14 demoTree.root World.start
        = .ok (none, w1) ∧
      w1.spawned = [] ∧
      (w1.out.map recordKey).Perm (pairsOf (containersBelow pagedContent demoTree)) ∧
      w1.out.length = memberTotal (containersBelow pagedContent demoTree) ∧
      (w1.out.map recordKey).Nodup :=
  ⟨filtersAfterStartup_nil_accepts, pagedClient_served, paged_one_per_page, paged_ids_distinct,
    paged_names_distinct, by decide,
    traversal_complete_unique pagedClient pagedContent demoTree (filtersAfterStartup [])
      filtersAfterStartup_nil_accepts pagedClient_served paged_one_per_page paged_ids_distinct
      paged_names_distinct 14 14 (by decide) (by decide)⟩

/-! ## The run barrier -/

/-- The steps of the interleaving model, taken one after the other by a single
call, are `processGroup`. -/
theorem processGroup_eq_loops (git : Client) (fs : List memberFilter) (fuel : Nat) (grp : Group)
    (w : World) :
    processGroup git fs fuel grp w
      = if w.sem ≥ 5 then .error .blocked
        else
          match processGroupLoops git fs fuel grp { w with sem := w.sem + 1, wg := w.wg + 1 } with
          | .error a => .error a
          | .ok (some e, w4) => .ok (some e, w4)
          | .ok (none, w4) => .ok (none, { w4 with sem := w4.sem - 1, wg := w4.wg - 1 }) := by
  simp only [processGroup, processGroupLoops]
  split
  · rfl
  · cases h1 : processGroupProjectsLoop git fs fuel grp fuel defaultListOptions
        { w with sem := w.sem + 1, wg := w.wg + 1 } with
    | error a => rfl
    | ok rv =>
      obtain ⟨r1, v⟩ := rv
      cases r1 with
      | some e => rfl
      | none => rfl

/-- C10, evaluated on the code with three nesting levels (root group 1, its
subgroup 2, the subgroup 4 of that, which has a project).  Thread 0 is
`gitlabUserAudit`, thread `i + 1` the `i`-th goroutine started.  (a) When the
root call has run its loops the goroutine for subgroup 2 exists and `wg`
counts 1, the root call alone: nothing was added for the goroutine.  (b) If
`gitlabUserAudit` takes all its steps first, `wg.Wait()` returns and completion
is reported while the goroutine for subgroup 2 has not started.  (c) If the
goroutine for subgroup 2 then runs to its end before `wg.Wait()` is reached,
`wg.Wait()` still returns while the goroutine for subgroup 4 has not started:
of the three records of the tree two are printed.  (d) `wg.Wait()` does wait
once a goroutine has executed `wg.Add(1)`.  (e) When both goroutines run to
their end, all three records are printed. -/
theorem wait_returns_before_goroutines_finish :
    (Sched.run deepClient (filtersAfterStartup []) 3 deepRoot [0, 0, 0] Sched.start).map
        (fun s => (s.main, s.tasks, s.world.wg))
      = some (.processing .release,
          [⟨⟨2, "acme/web", "https://gitlab.example/groups/acme/web"⟩, .acquire⟩], 1) ∧
    (Sched.run deepClient (filtersAfterStartup []) 3 deepRoot [0, 0, 0, 0, 0, 0] Sched.start).map
        (fun s => (s.main, s.tasks, s.world.wg))
      = some (.reported,
          [⟨⟨2, "acme/web", "https://gitlab.example/groups/acme/web"⟩, .acquire⟩], 0) ∧
    (Sched.run deepClient (filtersAfterStartup []) 3 deepRoot
          [0, 0, 0, 0, 0, 1, 1, 1, 1, 1, 0] Sched.start).map
        (fun s => (s.main, s.tasks, s.world.out.map recordKey))
      = some (.reported,
          [⟨⟨2, "acme/web", "https://gitlab.example/groups/acme/web"⟩, .returned⟩,
           ⟨⟨4, "acme/web/eu", "https://gitlab.example/groups/acme/web/eu"⟩, .acquire⟩],
          [(2, "carol"), (4, "dave")]) ∧
    Sched.run deepClient (filtersAfterStartup []) 3 deepRoot [0, 0, 0, 0, 1, 1, 0, 0] Sched.start
      = none ∧
    (Sched.run deepClient (filtersAfterStartup []) 3 deepRoot
          [0, 0, 0, 0, 0, 1, 1, 1, 1, 1, 2, 2, 2, 2, 2] Sched.start).map
        (fun s => (s.tasks.map fun t => t.pc, s.world.out.map recordKey))
      = some ([.returned, .returned], [(2, "carol"), (4, "dave"), (40, "erin")]) := by
  refine ⟨?_, ?_, ?_, ?_, ?_⟩ <;> rfl

end GitlabUserAudit
